import Mathlib

/-!
# Verification of the fda_ph_scraper normalization engine

Shallow embedding of the text-normalization, base/salt splitting, form/route
classification, brand/generic flip detection and vaccine acronym resolution
logic of the `fda_ph_scraper` repository, together with proofs and refutations
of the specification claims.

Strings are modelled as `List Char` (with `String` wrappers).  Python regular
expression operations are embedded as recursive scanners with the same
semantics on the repository's character domain:
* `re.sub(p, r, s)` for a literal pattern `p` is leftmost, non-overlapping
  replacement, embedded as split-on-pattern followed by interleaving `r`;
* `unicodedata.normalize("NFKD", ·)` is embedded character-wise; on the
  repository's character domain the only non-identity decomposition that
  matters is MICRO SIGN (U+00B5) ↦ GREEK SMALL LETTER MU (U+03BC);
* combining characters are those of the Combining Diacritical Marks block;
* `str.lower`/`str.upper` act on ASCII letters (all table data is ASCII);
* Python's `\w` is embedded as ASCII alphanumeric, `_`, or any non-ASCII
  character (all non-ASCII characters reaching these scanners are letters).
-/

set_option maxRecDepth 20000

namespace FdaPh

/-- ASCII lowercase letter test, embedding the regex class `[a-z]`. -/
def azLower (c : Char) : Bool := 'a' ≤ c && c ≤ 'z'

/-- Embedding of Python `\s` (the whitespace characters relevant here). -/
def pyIsSpace (c : Char) : Bool :=
  c = ' ' || c = '\t' || c = '\n' || c = '\r' || c.val = 11 || c.val = 12

/-- Embedding of Python `\w` on the repository's character domain. -/
def isWordCharE (c : Char) : Bool := c.isAlphanum || c = '_' || decide (c.val ≥ 128)

/-- Characters kept by the normalizer's character filter `[^\w%/+\.\- ]`. -/
def allowedChar (c : Char) : Bool :=
  isWordCharE c || c = '%' || c = '/' || c = '+' || c = '.' || c = '-' || c = ' '

/-- NFKD decompositions of the characters of the repository's domain: the
micro sign decomposes to Greek mu, the Latin-1 accented letters decompose to
their base letter plus a combining mark, and the Latin-1 compatibility signs
to their plain form; all other relevant characters are NFKD-fixed. -/
def nfkdTable : List (Char × List Char) :=
  [ ('µ', ['μ']),
    ('À', ['A', '̀']), ('Á', ['A', '́']), ('Â', ['A', '̂']),
    ('Ã', ['A', '̃']), ('Ä', ['A', '̈']), ('Å', ['A', '̊']),
    ('Ç', ['C', '̧']),
    ('È', ['E', '̀']), ('É', ['E', '́']), ('Ê', ['E', '̂']),
    ('Ë', ['E', '̈']),
    ('Ì', ['I', '̀']), ('Í', ['I', '́']), ('Î', ['I', '̂']),
    ('Ï', ['I', '̈']),
    ('Ñ', ['N', '̃']),
    ('Ò', ['O', '̀']), ('Ó', ['O', '́']), ('Ô', ['O', '̂']),
    ('Õ', ['O', '̃']), ('Ö', ['O', '̈']),
    ('Ù', ['U', '̀']), ('Ú', ['U', '́']), ('Û', ['U', '̂']),
    ('Ü', ['U', '̈']),
    ('Ý', ['Y', '́']),
    ('à', ['a', '̀']), ('á', ['a', '́']), ('â', ['a', '̂']),
    ('ã', ['a', '̃']), ('ä', ['a', '̈']), ('å', ['a', '̊']),
    ('ç', ['c', '̧']),
    ('è', ['e', '̀']), ('é', ['e', '́']), ('ê', ['e', '̂']),
    ('ë', ['e', '̈']),
    ('ì', ['i', '̀']), ('í', ['i', '́']), ('î', ['i', '̂']),
    ('ï', ['i', '̈']),
    ('ñ', ['n', '̃']),
    ('ò', ['o', '̀']), ('ó', ['o', '́']), ('ô', ['o', '̂']),
    ('õ', ['o', '̃']), ('ö', ['o', '̈']),
    ('ù', ['u', '̀']), ('ú', ['u', '́']), ('û', ['u', '̂']),
    ('ü', ['u', '̈']),
    ('ý', ['y', '́']), ('ÿ', ['y', '̈']),
    ('ª', ['a']), ('º', ['o']), ('¹', ['1']), ('²', ['2']), ('³', ['3']) ]

/-- Character-wise NFKD on the repository's character domain. -/
def nfkdChar (c : Char) : List Char := (nfkdTable.lookup c).getD [c]

/-- Combining Diacritical Marks block (the combining characters relevant
to `unicodedata.combining`). -/
def isCombining (c : Char) : Bool := decide (0x300 ≤ c.val) && decide (c.val ≤ 0x36F)

/-- NFKD decomposition followed by removal of combining characters. -/
def nfkdStrip (s : List Char) : List Char :=
  ((s.map nfkdChar).flatten).filter (fun c => !isCombining c)

/-- Case folding to lower case (ASCII, the table data's domain). -/
def pyLower (s : List Char) : List Char := s.map Char.toLower

/-- Prepend a character onto the first part of a non-empty parts list. -/
def consHead (c : Char) : List (List Char) → List (List Char)
  | [] => [[c]]
  | h :: t => (c :: h) :: t

/-- Join parts with the separator `r` between consecutive parts. -/
def interJoin (r : List Char) : List (List Char) → List Char
  | [] => []
  | [a] => a
  | a :: b :: t => a ++ r ++ interJoin r (b :: t)

/-- Structural scanner behind `splitOnL`: `skip` counts characters of a
matched pattern occurrence still to be consumed. -/
def splitGo (q : List Char) : Nat → List Char → List (List Char)
  | _, [] => [[]]
  | n + 1, _ :: s => splitGo q n s
  | 0, c :: s =>
    if q.isPrefixOf (c :: s) then [] :: splitGo q (q.length - 1) s
    else consHead c (splitGo q 0 s)

/-- Split `s` at the leftmost non-overlapping occurrences of the non-empty
literal pattern `q` (the parts `s.split(q)` in Python). -/
def splitOnL (q : List Char) (s : List Char) : List (List Char) := splitGo q 0 s

/-- Python `s.replace(q, r)`: leftmost non-overlapping replacement of the
literal `q` by `r`. -/
def rAll (q r s : List Char) : List Char :=
  if q.isEmpty then s else interJoin r (splitOnL q s)


/-- Python `str.upper()` (character-wise, via `Char.toUpper`). -/
def strUpper (s : String) : String := ⟨s.data.map Char.toUpper⟩

/-- Python `str.lower()` (character-wise, via `Char.toLower`). -/
def strLower (s : String) : String := ⟨s.data.map Char.toLower⟩

/-- Python `str.strip()` (whitespace trimmed from both ends). -/
def pyStrip (s : String) : String :=
  ⟨((s.data.dropWhile pyIsSpace).reverse.dropWhile pyIsSpace).reverse⟩

/-- Python `str.endswith`. -/
def strEndsWith (s suf : String) : Bool := suf.data.isSuffixOf s.data

/-- Python `s[:-n]` (drop the last `n` characters). -/
def strDropRight (s : String) (n : Nat) : String := ⟨s.data.take (s.data.length - n)⟩

/-- Python `sep.join(parts)`. -/
def strJoin (sep : String) (parts : List String) : String :=
  ⟨interJoin sep.data (parts.map String.data)⟩

/-- Python `s.split(sep)` for a non-empty literal separator. -/
def strSplitOn (sep : String) (s : String) : List String :=
  (splitOnL sep.data s.data).map (fun l => (⟨l⟩ : String))

/-- Head character of a list viewed through a predicate (false at the end of
the string), used for regex lookaheads. -/
def headSat (p : Char → Bool) : List Char → Bool
  | [] => false
  | c :: _ => p c

/-- Scanner for `re.sub(r"\biv\b", "intravenous", s)`: splits at the
standalone occurrences of `iv`; `pW` says whether the previous character is a
word character. -/
def ivSplit (pW : Bool) : List Char → List (List Char)
  | c1 :: c2 :: rest =>
    if c1 = 'i' ∧ c2 = 'v' ∧ pW = false ∧ headSat isWordCharE rest = false then
      [] :: ivSplit true rest
    else
      consHead c1 (ivSplit (isWordCharE c1) (c2 :: rest))
  | [c] => [[c]]
  | [] => [[]]

/-- `re.sub(r"\biv\b", "intravenous", s)`. -/
def ivReplace (s : List Char) : List Char :=
  interJoin ('i' :: 'n' :: 't' :: 'r' :: 'a' :: 'v' :: 'e' :: 'n' :: 'o' :: 'u' :: 's' :: [])
    (ivSplit false s)

/-- Runs of characters between the junk runs deleted by
`re.sub(r"[^\w%/+\.\- ]+", " ", s)`; `inJunk` says whether the scanner is
inside a junk run (whose later characters are absorbed into the same
single-space separator). -/
def filterRun (inJunk : Bool) : List Char → List (List Char)
  | [] => [[]]
  | c :: s =>
    if allowedChar c then consHead c (filterRun false s)
    else if inJunk then filterRun true s
    else [] :: filterRun true s

/-- `re.sub(r"[^\w%/+\.\- ]+", " ", s)`. -/
def filterJunk (s : List Char) : List Char := interJoin [' '] (filterRun false s)

/-- Scanner for `re.sub(r"(?<![a-z])cc(?![a-z])", "ml", s)`; `pAz` says
whether the previous character is an ASCII lowercase letter. -/
def ccSplit (pAz : Bool) : List Char → List (List Char)
  | c1 :: c2 :: rest =>
    if c1 = 'c' ∧ c2 = 'c' ∧ pAz = false ∧ headSat azLower rest = false then
      [] :: ccSplit true rest
    else
      consHead c1 (ccSplit (azLower c1) (c2 :: rest))
  | [c] => [[c]]
  | [] => [[]]

/-- `re.sub(r"(?<![a-z])cc(?![a-z])", "ml", s)`. -/
def ccReplace (s : List Char) : List Char := interJoin ['m', 'l'] (ccSplit false s)

/-- Scanner for `re.sub(r"(?<![a-z])gms?(?![a-z])", "g", s)`: the match is
`gms` when possible, else `gm`, each with the lookbehind/lookahead guards. -/
def gmSplit (pAz : Bool) : List Char → List (List Char)
  | c1 :: c2 :: c3 :: rest =>
    if c1 = 'g' ∧ c2 = 'm' ∧ pAz = false ∧ c3 = 's' ∧ headSat azLower rest = false then
      [] :: gmSplit true rest
    else if c1 = 'g' ∧ c2 = 'm' ∧ pAz = false ∧ azLower c3 = false then
      [] :: gmSplit true (c3 :: rest)
    else
      consHead c1 (gmSplit (azLower c1) (c2 :: c3 :: rest))
  | [c1, c2] =>
    if c1 = 'g' ∧ c2 = 'm' ∧ pAz = false then [[], []]
    else consHead c1 (gmSplit (azLower c1) [c2])
  | [c] => [[c]]
  | [] => [[]]

/-- `re.sub(r"(?<![a-z])gms?(?![a-z])", "g", s)`. -/
def gmReplace (s : List Char) : List Char := interJoin ['g'] (gmSplit false s)

/-- Scanner producing the whitespace-delimited words of the input; `inWord`
says whether the previous character was a non-space character (so that a
space there closes the current word bucket). -/
def wordsAux (inWord : Bool) : List Char → List (List Char)
  | [] => []
  | c :: s =>
    if pyIsSpace c then
      (if inWord then ([] : List Char) :: wordsAux false s else wordsAux false s)
    else consHead c (wordsAux true s)

/-- The whitespace-delimited words of `s` (Python `s.split()`). -/
def wordsOf (s : List Char) : List (List Char) := wordsAux false s

/-- `re.sub(r"\s+", " ", s).strip()`, i.e. `" ".join(s.split())`. -/
def collapseWs (s : List Char) : List Char := interJoin [' '] (wordsOf s)

/-- The normalization pipeline shared by `src/text_utils.py` and
`src/scripts/text_utils.py` (`normalize_text`). -/
def normalizeList (s : List Char) : List Char :=
  collapseWs
    (rAll ['h','y','d','r','o','c','h','l','o','r','d','e']
          ['h','y','d','r','o','c','h','l','o','r','i','d','e']
      (rAll ['p','o','l','y','m','i','x','i','n'] ['p','o','l','y','m','y','x','i','n']
        (rAll ['m','i','l','l','i','g','r','a','m'] ['m','g']
          (gmReplace
            (rAll ['m','i','l','l','i','l','i','t','e','r'] ['m','l']
              (rAll ['m','i','l','l','i',' ','l','i','t','r','e'] ['m','l']
                (ccReplace
                  (rAll ['µ','g'] ['m','c','g']
                    (rAll ['μ','g'] ['m','c','g']
                      (rAll ['m','i','c','r','o','g','r','a','m'] ['m','c','g']
                        (filterJunk
                          (ivReplace
                            (pyLower (nfkdStrip s))))))))))))))

/-- `normalize_text` of `src/text_utils.py`. -/
def normalize_text (s : String) : String := ⟨normalizeList s.data⟩

/-- `normalize_text` of `src/scripts/text_utils.py` (same pipeline, separate
function in the source). -/
def normalize_text_scripts (s : String) : String := ⟨normalizeList s.data⟩

/-- The pipeline of `normalize_text` in `src/input/unified_constants.py`.
Its two micro-sign replacement patterns are, reading the file's raw bytes as
UTF-8, the two-character sequences `Î¼` (U+00CE U+00BC) and `Âµ`
(U+00C2 U+00B5) followed by `g` — a double-encoding of the intended `μg` and
`µg` — so they are embedded exactly as those character sequences. -/
def normalizeListUnified (s : List Char) : List Char :=
  collapseWs
    (rAll ['h','y','d','r','o','c','h','l','o','r','d','e']
          ['h','y','d','r','o','c','h','l','o','r','i','d','e']
      (rAll ['p','o','l','y','m','i','x','i','n'] ['p','o','l','y','m','y','x','i','n']
        (rAll ['m','i','l','l','i','g','r','a','m'] ['m','g']
          (gmReplace
            (rAll ['m','i','l','l','i','l','i','t','e','r'] ['m','l']
              (rAll ['m','i','l','l','i',' ','l','i','t','r','e'] ['m','l']
                (ccReplace
                  (rAll ['Â','µ','g'] ['m','c','g']
                    (rAll ['Î','¼','g'] ['m','c','g']
                      (rAll ['m','i','c','r','o','g','r','a','m'] ['m','c','g']
                        (filterJunk
                          (ivReplace
                            (pyLower (nfkdStrip s))))))))))))))

/-- `normalize_text` of `src/input/unified_constants.py`. -/
def normalize_text_unified (s : String) : String := ⟨normalizeListUnified s.data⟩
/-- `STOPWORDS` of `src/input/unified_constants.py` (set literal; order immaterial). -/
def STOPWORDS : List String :=
  [ "ACETATED", "ACID", "ACIDS", "ADULT", "AGENT", "AGENTS", "AMPOULE", "AMPUL", "AMPULE", 
    "AND", "ANTISEPTIC", "APPROX", "APPROXIMATELY", "AQUEOUS", "AS", "ATTENUATED", "BAG", 
    "BALANCED", "BASED", "BIPHASIC", "BLUE", "BOTTLE", "BOTTLES", "BOX", "BOXES", "CAN", 
    "CANS", "CAPSULE", "CAPSULES", "CARE", "CARPULE", "CARTRIDGE", "CELL", "CHEWABLE", "CHICK", 
    "CLEANSER", "COATED", "COMBI", "COMPLEX", "CONCENTRATE", "CONTAINER", "CONTENT", "COUNT", 
    "CREAM", "DEGRADED", "DERIVATIVE", "DIABETES", "DIALYSATE", "DIALYSIS", "DIBASIC", 
    "DILUENT", "DILUTION", "DOSE", "DOSES", "DROP", "DROPS", "DRUGS", "DRUM", "DURING", 
    "DURULES", "EFFERVESCENT", "ELEMENT", "ELEMENTAL", "ELEMENTS", "EMBRYO", "EQUINE", "EQUIV", 
    "EQUIV.", "EQUIVALENT", "EYE DROPS", "FAT-SOLUBLE", "FEVER", "FILLED", "FLUID", "FOR", 
    "FORMING", "FORMULA", "FORMULATION", "FREE", "GALLON", "GAS", "GEL", "GLASS", "HAS", 
    "HEMODIALYSIS", "HEPATIC", "HEPATITIS", "HIGH", "HUMAN", "HYPERTONIC", "IN", "INACTIVATED", 
    "INFANTS", "INFUSION", "INFUSIONS", "INJECTABLE", "INJECTION", "INJECTIONS", 
    "INTRAMUSCULAR", "INTRAVENOUS", "IRRIGATING", "IRRIGATION", "ISOPHANE", "JELLY", "JUNIOR", 
    "KCAL", "LACTATED", "LIPID", "LIQUID", "LIVE", "LOTION", "LYOPHILIZED", "MAINTENANCE", 
    "MC", "MEDICATED", "MEDICINES", "METERED", "MICRONUTRIENT", "MILLION", "MIXTURE", 
    "MODIFIED", "MONOBASIC", "MONODOSE", "MULTI", "MULTIDOSE", "MULTIPLE", "NACL", "NASAL", 
    "NEBULE", "NEEDLE", "NONE", "NORMAL", "NOT", "NUTRITION", "OF", "OINTMENT", "OPHTHALMIC", 
    "OR", "ORAL", "PACK", "PAINT", "PARENTERAL", "PATCH", "PEDIA", "PEDIATRIC", "PER", 
    "PERCENT", "PETROLEUM", "PLAIN", "PLASTIC", "PLUS", "POUCH", "POWDER", "POWDERS", "PRE", 
    "PRE FILLED", "PRE-FILLED", "PREPARATION", "PURIFIED", "RATIO", "RECOMBINANT", "RECTAL", 
    "REGULAR", "REHYDRATION", "RELEASE", "RENAL", "REPLACEMENT", "RESPIRATORY", "ROSE", 
    "SACHET", "SACHETS", "SALINE", "SALT", "SALTS", "SERUM", "SINGLE", "SKIN", "SOFT", 
    "SOFTGEL", "SOFTGELS", "SOLN", "SOLUBLE", "SOLUTION", "SOLUTIONS", "SOLVENT", "SPINAL", 
    "SPRAY", "STANDARD", "STERILE", "SUBCUTANEOUS", "SURGICAL", "SUSPENSION", "SYRINGE", 
    "SYRUP", "TABLET", "TABLETS", "THAN", "THIS", "TO", "TOPICAL", "TRACE", "TUBE", "TUBES", 
    "UNIT", "UNITS", "VAGINAL", "VEHICLE", "VIAL", "VIALS", "VITAMIN", "VITAMINS", "W", "W/", 
    "WATER", "WATER-SOLUBLE", "WITH", "WITHOUT", "YELLOW" ]

/-- `SALT_TOKENS` of `src/input/unified_constants.py`. -/
def SALT_TOKENS : List String :=
  [ "ACETATE", "ACETONIDE", "ALUMINIUM", "ALUMINUM", "AMMONIUM", "ANHYDROUS", "ASCORBATE", 
    "AXETIL", "BARIUM", "BENZATHINE", "BENZOATE", "BESILATE", "BESYLATE", "BICARBONATE", 
    "BISULFATE", "BITARTRATE", "BROMIDE", "BUTYRATE", "CALCIUM", "CARBONATE", "CHLORIDE", 
    "CITRATE", "CLAVULANATE", "COPPER", "CR", "DECANOATE", "DIACETATE", "DIHYDRATE", 
    "DIHYDROCHLORIDE", "DINITRATE", "DIPHOSPHATE", "DIPROPIONATE", "DISODIUM", "DOCUSATE", 
    "ER", "FERRIC", "FERROUS", "FLUORIDE", "FOLINATE", "FUMARATE", "FUROATE", "FUSIDATE", 
    "GLUCONATE", "GLYCERYL", "HCL", "HEMIHYDRATE", "HEMISUCCINATE", "HYDRATE", "HYDROBROMIDE", 
    "HYDROCHLORIDE", "HYDROIODIDE", "HYDROXIDE", "IODIDE", "IRON", "LACTATE", "LITHIUM", 
    "MAGNESIUM", "MALATE", "MALEATE", "MANGANESE", "MEGLUMINE", "MESILATE", "MESYLATE", 
    "MONOHYDRATE", "NITRATE", "NITRITE", "OLEATE", "OXALATE", "OXIDE", "PALMITATE", "PAMOATE", 
    "PENTAHYDRATE", "PHOSPHATE", "POLYMERISATE", "POTASSIUM", "PROPIONATE", "SALICYLATE", 
    "SELENITE", "SILVER", "SODIUM", "SR", "STEARATE", "SUCCINATE", "SUCCINYLATED", "SULFATE", 
    "SULFONATE", "SULPHATE", "TARTRATE", "THIOSULFATE", "TOSYLATE", "TRIHYDRATE", "TRINITRATE", 
    "TROMETAMOL", "TROMETHAMINE", "TROMETHAMOL", "VALERATE", "XR", "ZINC" ]

/-- `UNIT_TOKENS` of `src/input/unified_constants.py`. -/
def UNIT_TOKENS : List String :=
  [ "%", "CC", "G", "GM", "GMS", "IU", "IU/ML", "KG", "L", "LSU", "MCG", "MCG/ML", "MEQ", 
    "MEQS", "MG", "MG/5ML", "MG/L", "MG/ML", "ML", "MMOL", "MOL", "MU", "PCT", "UG", "UNIT", 
    "UNITS" ]

/-- `SALT_CATIONS` of `src/input/unified_constants.py`. -/
def SALT_CATIONS : List String :=
  [ "ALUMINIUM", "ALUMINUM", "AMMONIUM", "BARIUM", "CALCIUM", "COPPER", "FERRIC", "FERROUS", 
    "IRON", "LITHIUM", "MAGNESIUM", "MANGANESE", "POTASSIUM", "SILVER", "SODIUM", "ZINC" ]

/-- `SALT_TAIL_BREAK_TOKENS` of `src/input/unified_constants.py`. -/
def SALT_TAIL_BREAK_TOKENS : List String :=
  [ "&", "+", "/", "AND", "WITH" ]

/-- `PURE_SALT_COMPOUNDS` of `src/input/unified_constants.py`. -/
def PURE_SALT_COMPOUNDS : List String :=
  [ "ALUMINIUM HYDROXIDE", "ALUMINUM HYDROXIDE", "AMMONIUM CHLORIDE", "BARIUM SULFATE", 
    "CALCIUM ACETATE", "CALCIUM CARBONATE", "CALCIUM CHLORIDE", "CALCIUM CITRATE", 
    "CALCIUM FLUORIDE", "CALCIUM GLUCONATE", "CALCIUM HYDROXIDE", "CALCIUM LACTATE", 
    "CALCIUM PHOSPHATE", "CALCIUM SULFATE", "COPPER SULFATE", "FERRIC SULFATE", 
    "FERROUS FUMARATE", "FERROUS GLUCONATE", "FERROUS SULFATE", "FERROUS SULPHATE", 
    "LITHIUM CARBONATE", "LITHIUM CITRATE", "MAGNESIUM ACETATE", "MAGNESIUM CARBONATE", 
    "MAGNESIUM CHLORIDE", "MAGNESIUM CITRATE", "MAGNESIUM GLUCONATE", "MAGNESIUM HYDROXIDE", 
    "MAGNESIUM PHOSPHATE", "MAGNESIUM SULFATE", "MAGNESIUM SULPHATE", "MANGANESE SULFATE", 
    "POTASSIUM ACETATE", "POTASSIUM BICARBONATE", "POTASSIUM BROMIDE", "POTASSIUM CHLORIDE", 
    "POTASSIUM CITRATE", "POTASSIUM FLUORIDE", "POTASSIUM GLUCONATE", "POTASSIUM HYDROXIDE", 
    "POTASSIUM IODIDE", "POTASSIUM NITRATE", "POTASSIUM PHOSPHATE", "POTASSIUM SULFATE", 
    "SILVER NITRATE", "SODIUM ACETATE", "SODIUM BICARBONATE", "SODIUM BROMIDE", 
    "SODIUM CARBONATE", "SODIUM CHLORIDE", "SODIUM CITRATE", "SODIUM FLUORIDE", 
    "SODIUM GLUCONATE", "SODIUM HYDROXIDE", "SODIUM IODIDE", "SODIUM LACTATE", 
    "SODIUM NITRATE", "SODIUM PHOSPHATE", "SODIUM SELENITE", "SODIUM SULFATE", 
    "SODIUM THIOSULFATE", "ZINC CHLORIDE", "ZINC GLUCONATE", "ZINC OXIDE", "ZINC SULFATE", 
    "ZINC SULPHATE" ]

/-- `FORM_CANON` of `src/input/unified_constants.py` (insertion order). -/
def FORM_CANON : List (String × String) :=
  [
    ("TAB", "TABLET"),
    ("TABS", "TABLET"),
    ("TABLET", "TABLET"),
    ("TABLETS", "TABLET"),
    ("TABLET, FILM COATED", "TABLET"),
    ("TABLET, COATED", "TABLET"),
    ("TABLET, SUGAR COATED", "TABLET"),
    ("TABLET, CHEWABLE", "TABLET"),
    ("TABLET, ORALLY DISINTEGRATING", "TABLET"),
    ("TABLET, EFFERVESCENT", "TABLET"),
    ("TABLET, SOLUBLE", "TABLET"),
    ("TABLET, MULTILAYER", "TABLET"),
    ("TABLET, FOR SUSPENSION", "TABLET"),
    ("TABLET, EXTENDED RELEASE", "TABLET, EXTENDED RELEASE"),
    ("TABLET, FILM COATED, EXTENDED RELEASE", "TABLET, EXTENDED RELEASE"),
    ("TABLET, DELAYED RELEASE", "TABLET, DELAYED RELEASE"),
    ("TABLET, MULTILAYER, EXTENDED RELEASE", "TABLET, EXTENDED RELEASE"),
    ("TABLET, CHEWABLE, EXTENDED RELEASE", "TABLET, EXTENDED RELEASE"),
    ("CAP", "CAPSULE"),
    ("CAPS", "CAPSULE"),
    ("CAPSULE", "CAPSULE"),
    ("CAPSULES", "CAPSULE"),
    ("CAPLET", "CAPSULE"),
    ("CAPSULE, LIQUID FILLED", "CAPSULE"),
    ("CAPSULE, GELATIN COATED", "CAPSULE"),
    ("CAPSULE, COATED", "CAPSULE"),
    ("CAPSULE, COATED PELLETS", "CAPSULE"),
    ("CAPSULE, EXTENDED RELEASE", "CAPSULE, EXTENDED RELEASE"),
    ("CAPSULE, DELAYED RELEASE", "CAPSULE, DELAYED RELEASE"),
    ("CAPSULE, COATED, EXTENDED RELEASE", "CAPSULE, EXTENDED RELEASE"),
    ("CAPSULE, DELAYED RELEASE PELLETS", "CAPSULE, DELAYED RELEASE"),
    ("SOLUTION", "SOLUTION"),
    ("SOLN", "SOLUTION"),
    ("SOL", "SOLUTION"),
    ("SOLUTIONS", "SOLUTION"),
    ("SOLUTION, CONCENTRATE", "SOLUTION"),
    ("ORAL SOLUTION", "SOLUTION"),
    ("SUSPENSION", "SUSPENSION"),
    ("SUSP", "SUSPENSION"),
    ("SUSPENSIONS", "SUSPENSION"),
    ("ORAL SUSPENSION", "SUSPENSION"),
    ("SUSPENSION, EXTENDED RELEASE", "SUSPENSION, EXTENDED RELEASE"),
    ("SYR", "SYRUP"),
    ("SYRUP", "SYRUP"),
    ("SYRUPS", "SYRUP"),
    ("INJ", "INJECTION"),
    ("INJECTABLE", "INJECTION"),
    ("INJECTION", "INJECTION"),
    ("INJECTION, SOLUTION", "INJECTION"),
    ("INJECTION, EMULSION", "INJECTION"),
    ("INJECTION, SUSPENSION", "INJECTION"),
    ("INJECTION, POWDER, FOR SOLUTION", "INJECTION"),
    ("INJECTION, POWDER, FOR SUSPENSION", "INJECTION"),
    ("INJECTION, POWDER, LYOPHILIZED, FOR SOLUTION", "INJECTION"),
    ("INJECTION, POWDER, LYOPHILIZED, FOR SUSPENSION", "INJECTION"),
    ("INJECTION, SOLUTION, CONCENTRATE", "INJECTION"),
    ("INJECTABLE, LIPOSOMAL", "INJECTION"),
    ("INJECTION, SUSPENSION, EXTENDED RELEASE", "INJECTION, EXTENDED RELEASE"),
    ("INJECTION, POWDER, FOR SUSPENSION, EXTENDED RELEASE", "INJECTION, EXTENDED RELEASE"),
    ("AMPULE", "AMPULE"),
    ("AMPUL", "AMPULE"),
    ("AMP", "AMPULE"),
    ("AMPOULE", "AMPULE"),
    ("AMPS", "AMPULE"),
    ("AMPULES", "AMPULE"),
    ("AMPULS", "AMPULE"),
    ("VIAL", "VIAL"),
    ("VIALS", "VIAL"),
    ("VL", "VIAL"),
    ("BOT", "BOTTLE"),
    ("BOTT", "BOTTLE"),
    ("BOTTLE", "BOTTLE"),
    ("BOTTLES", "BOTTLE"),
    ("BAG", "BAG"),
    ("BAGS", "BAG"),
    ("KIT", "KIT"),
    ("KITS", "KIT"),
    ("FC", "FILM COATED"),
    ("EC", "ENTERIC COATED"),
    ("SR", "EXTENDED RELEASE"),
    ("XR", "EXTENDED RELEASE"),
    ("ER", "EXTENDED RELEASE"),
    ("DR", "DELAYED RELEASE"),
    ("NON-PNF", "NON-FORMULARY"),
    ("NONPNF", "NON-FORMULARY"),
    ("CREAM", "CREAM"),
    ("CREAMS", "CREAM"),
    ("CREAM, AUGMENTED", "CREAM"),
    ("LOTION", "LOTION"),
    ("LOTIONS", "LOTION"),
    ("LOTION, AUGMENTED", "LOTION"),
    ("GEL", "GEL"),
    ("GELS", "GEL"),
    ("GEL, METERED", "GEL"),
    ("OINTMENT", "OINTMENT"),
    ("OINTMENTS", "OINTMENT"),
    ("PASTE", "PASTE"),
    ("PASTES", "PASTE"),
    ("FOAM", "FOAM"),
    ("FOAMS", "FOAM"),
    ("EMULSION", "EMULSION"),
    ("EMULSIONS", "EMULSION"),
    ("SHAMPOO", "SHAMPOO"),
    ("SHAMPOOS", "SHAMPOO"),
    ("SOAP", "SOAP"),
    ("SOAPS", "SOAP"),
    ("WASH", "WASH"),
    ("POWDER", "POWDER"),
    ("PWDR", "POWDER"),
    ("POWDERS", "POWDER"),
    ("POWDER, FOR SOLUTION", "POWDER"),
    ("POWDER, FOR SUSPENSION", "POWDER"),
    ("POWDER, METERED", "POWDER, METERED"),
    ("GRANULE", "GRANULE"),
    ("GRANULES", "GRANULE"),
    ("GRAN", "GRANULE"),
    ("GRANULE, FOR SOLUTION", "GRANULE"),
    ("GRANULE, FOR SUSPENSION", "GRANULE"),
    ("GRANULE, EFFERVESCENT", "GRANULE"),
    ("GRANULE, DELAYED RELEASE", "GRANULE, DELAYED RELEASE"),
    ("DROPS", "DROPS"),
    ("DROP", "DROPS"),
    ("GTTS", "DROPS"),
    ("EYE DROPS", "DROPS"),
    ("EAR DROPS", "DROPS"),
    ("NASAL DROPS", "DROPS"),
    ("ORAL DROPS", "DROPS"),
    ("SOLUTION / DROPS", "DROPS"),
    ("SUSPENSION / DROPS", "DROPS"),
    ("SOLUTION, GEL FORMING / DROPS", "DROPS"),
    ("INSTILL.SOLUTION", "DROPS"),
    ("SACHET", "SACHET"),
    ("SACHETS", "SACHET"),
    ("SPRAY", "SPRAY"),
    ("SPRAYS", "SPRAY"),
    ("NASAL SPRAY", "SPRAY"),
    ("DISPENSER", "SPRAY"),
    ("SPRAY, SUSPENSION", "SPRAY"),
    ("SPRAY, METERED", "SPRAY, METERED"),
    ("AEROSOL", "AEROSOL"),
    ("AEROSOLS", "AEROSOL"),
    ("AEROSOL, SPRAY", "AEROSOL"),
    ("AEROSOL, FOAM", "AEROSOL"),
    ("AEROSOL, POWDER", "AEROSOL"),
    ("AEROSOL, METERED", "AEROSOL, METERED"),
    ("INHALER", "INHALER"),
    ("INHALERS", "INHALER"),
    ("INHALANT", "INHALER"),
    ("MDI", "INHALER"),
    ("DPI", "INHALER"),
    ("METERED DOSE INHALER", "INHALER"),
    ("DRY POWDER INHALER", "INHALER"),
    ("NEBULE", "NEBULE"),
    ("NEBULES", "NEBULE"),
    ("NEB", "NEBULE"),
    ("NEBS", "NEBULE"),
    ("NEBULIZER SOLUTION", "NEBULE"),
    ("INHAL.AEROSOL", "AEROSOL, METERED"),
    ("ORAL AEROSOL", "AEROSOL, METERED"),
    ("INHAL.POWDER", "POWDER, METERED"),
    ("INHAL.SOLUTION", "NEBULE"),
    ("SUPPOSITORY", "SUPPOSITORY"),
    ("SUPP", "SUPPOSITORY"),
    ("SUPPOSITORIES", "SUPPOSITORY"),
    ("PATCH", "PATCH"),
    ("PATCHES", "PATCH"),
    ("PATCH, EXTENDED RELEASE", "PATCH"),
    ("FILM", "FILM"),
    ("FILMS", "FILM"),
    ("FILM, SOLUBLE", "FILM"),
    ("FILM, EXTENDED RELEASE", "FILM"),
    ("LAMELLA", "FILM"),
    ("LOZENGE", "LOZENGE"),
    ("LOZENGES", "LOZENGE"),
    ("MOUTHWASH", "MOUTHWASH"),
    ("CHEWING GUM", "GUM"),
    ("GUM, CHEWING", "GUM"),
    ("GUM", "GUM"),
    ("ELIXIR", "ELIXIR"),
    ("IMPLANT", "IMPLANT"),
    ("IMPLANTS", "IMPLANT"),
    ("S.C. IMPLANT", "IMPLANT"),
    ("OVULE", "OVULE"),
    ("OVULES", "OVULE"),
    ("ENEMA", "ENEMA"),
    ("ENEMAS", "ENEMA"),
    ("BAR", "BAR"),
    ("BARS", "BAR"),
    ("STRIP", "STRIP"),
    ("STRIPS", "STRIP"),
    ("WAFER", "WAFER"),
    ("WAFERS", "WAFER"),
    ("PELLET", "PELLET"),
    ("PELLETS", "PELLET"),
    ("RING", "RING"),
    ("RINGS", "RING"),
    ("INSERT", "INSERT"),
    ("INSERTS", "INSERT"),
    ("PESSARY", "PESSARY"),
    ("SWAB", "SWAB"),
    ("SWABS", "SWAB"),
    ("CLOTH", "CLOTH"),
    ("CLOTHS", "CLOTH"),
    ("SPONGE", "SPONGE"),
    ("SPONGES", "SPONGE"),
    ("DRESSING", "DRESSING"),
    ("DRESSINGS", "DRESSING"),
    ("STICK", "STICK"),
    ("LIQUID", "LIQUID"),
    ("GAS", "GAS")
  ]

/-- `FORM_TO_ROUTE` of `src/input/unified_constants.py` (insertion order). -/
def FORM_TO_ROUTE : List (String × String) :=
  [
    ("TABLET", "ORAL"),
    ("TAB", "ORAL"),
    ("TABS", "ORAL"),
    ("TABLET, EXTENDED RELEASE", "ORAL"),
    ("TABLET, DELAYED RELEASE", "ORAL"),
    ("CAPSULE", "ORAL"),
    ("CAP", "ORAL"),
    ("CAPS", "ORAL"),
    ("CAPLET", "ORAL"),
    ("CAPSULE, EXTENDED RELEASE", "ORAL"),
    ("CAPSULE, DELAYED RELEASE", "ORAL"),
    ("SYRUP", "ORAL"),
    ("SYRUPS", "ORAL"),
    ("SYR", "ORAL"),
    ("SUSPENSION", "ORAL"),
    ("SUSPENSIONS", "ORAL"),
    ("SUSP", "ORAL"),
    ("SUSPENSION, EXTENDED RELEASE", "ORAL"),
    ("SOLUTION", "ORAL"),
    ("SOLUTIONS", "ORAL"),
    ("SOLN", "ORAL"),
    ("SACHET", "ORAL"),
    ("GRANULE", "ORAL"),
    ("GRANULES", "ORAL"),
    ("GRANULE, DELAYED RELEASE", "ORAL"),
    ("POWDER", "ORAL"),
    ("LOZENGE", "ORAL"),
    ("MOUTHWASH", "ORAL"),
    ("ELIXIR", "ORAL"),
    ("GUM", "ORAL"),
    ("CHEWING GUM", "ORAL"),
    ("WAFER", "ORAL"),
    ("STRIP", "ORAL"),
    ("ORAL DROPS", "ORAL"),
    ("CREAM", "TOPICAL"),
    ("OINTMENT", "TOPICAL"),
    ("GEL", "TOPICAL"),
    ("LOTION", "TOPICAL"),
    ("SOAP", "TOPICAL"),
    ("SHAMPOO", "TOPICAL"),
    ("WASH", "TOPICAL"),
    ("PASTE", "TOPICAL"),
    ("FOAM", "TOPICAL"),
    ("LIQUID", "TOPICAL"),
    ("EMULSION", "TOPICAL"),
    ("SWAB", "TOPICAL"),
    ("CLOTH", "TOPICAL"),
    ("STICK", "TOPICAL"),
    ("SPONGE", "TOPICAL"),
    ("DRESSING", "TOPICAL"),
    ("SPRAY", "TOPICAL"),
    ("AEROSOL", "TOPICAL"),
    ("PATCH", "TRANSDERMAL"),
    ("INHALER", "INHALATION"),
    ("NEBULE", "INHALATION"),
    ("NEB", "INHALATION"),
    ("MDI", "INHALATION"),
    ("DPI", "INHALATION"),
    ("AEROSOL, METERED", "INHALATION"),
    ("POWDER, METERED", "INHALATION"),
    ("GAS", "INHALATION"),
    ("METERED DOSE INHALER", "INHALATION"),
    ("DRY POWDER INHALER", "INHALATION"),
    ("INHAL.AEROSOL", "INHALATION"),
    ("INHAL.POWDER", "INHALATION"),
    ("INHAL.SOLUTION", "INHALATION"),
    ("ORAL AEROSOL", "INHALATION"),
    ("INJECTION", "INTRAVENOUS"),
    ("INJECTION, EXTENDED RELEASE", "INTRAMUSCULAR"),
    ("AMPULE", "PARENTERAL"),
    ("AMP", "PARENTERAL"),
    ("AMPUL", "PARENTERAL"),
    ("AMPOULE", "PARENTERAL"),
    ("VIAL", "PARENTERAL"),
    ("VL", "PARENTERAL"),
    ("INJ", "PARENTERAL"),
    ("BOTTLE", "INTRAVENOUS"),
    ("BAG", "INTRAVENOUS"),
    ("DROPS", "OPHTHALMIC"),
    ("DROP", "OPHTHALMIC"),
    ("EYE DROP", "OPHTHALMIC"),
    ("EYE DROPS", "OPHTHALMIC"),
    ("INSTILL.SOLUTION", "OPHTHALMIC"),
    ("LAMELLA", "OPHTHALMIC"),
    ("EAR DROP", "OTIC"),
    ("EAR DROPS", "OTIC"),
    ("SPRAY, METERED", "NASAL"),
    ("NASAL SPRAY", "NASAL"),
    ("NASAL DROPS", "NASAL"),
    ("SUPPOSITORY", "RECTAL"),
    ("SUPP", "RECTAL"),
    ("ENEMA", "RECTAL"),
    ("OVULE", "VAGINAL"),
    ("OVULES", "VAGINAL"),
    ("INSERT", "VAGINAL"),
    ("RING", "VAGINAL"),
    ("PESSARY", "VAGINAL"),
    ("FILM", "BUCCAL"),
    ("IMPLANT", "SUBCUTANEOUS"),
    ("S.C. IMPLANT", "SUBCUTANEOUS")
  ]

/-- `FORM_TO_ROUTES` of `src/input/unified_constants.py` (insertion order). -/
def FORM_TO_ROUTES : List (String × List String) :=
  [
    ("TABLET", ["ORAL"]),
    ("TABLET, CHEWABLE", ["ORAL"]),
    ("TABLET, COATED", ["ORAL"]),
    ("TABLET, DELAYED RELEASE", ["ORAL"]),
    ("TABLET, EFFERVESCENT", ["ORAL"]),
    ("TABLET, EXTENDED RELEASE", ["ORAL"]),
    ("TABLET, FILM COATED", ["ORAL"]),
    ("TABLET, FILM COATED, EXTENDED RELEASE", ["ORAL"]),
    ("TABLET, FOR SUSPENSION", ["ORAL"]),
    ("TABLET, MULTILAYER", ["ORAL"]),
    ("TABLET, MULTILAYER, EXTENDED RELEASE", ["ORAL"]),
    ("TABLET, SUGAR COATED", ["ORAL"]),
    ("CAPSULE", ["ORAL"]),
    ("CAPSULE, COATED", ["ORAL"]),
    ("CAPSULE, COATED PELLETS", ["ORAL"]),
    ("CAPSULE, DELAYED RELEASE", ["ORAL"]),
    ("CAPSULE, DELAYED RELEASE PELLETS", ["ORAL"]),
    ("CAPSULE, EXTENDED RELEASE", ["ORAL"]),
    ("CAPSULE, GELATIN COATED", ["ORAL"]),
    ("CAPSULE, LIQUID FILLED", ["ORAL"]),
    ("SYRUP", ["ORAL"]),
    ("TABLET, ORALLY DISINTEGRATING", ["ORAL", "SUBLINGUAL"]),
    ("TABLET, CHEWABLE, EXTENDED RELEASE", ["ORAL", "SUBLINGUAL"]),
    ("TABLET, SOLUBLE", ["ORAL", "TOPICAL"]),
    ("LOZENGE", ["ORAL", "TRANSMUCOSAL"]),
    ("TROCHE", ["SUBLINGUAL", "ORAL"]),
    ("GUM, CHEWING", ["ORAL", "BUCCAL"]),
    ("MOUTHWASH", ["ORAL", "DENTAL", "BUCCAL", "TOPICAL"]),
    ("RINSE", ["ORAL", "DENTAL", "TOPICAL", "BUCCAL", "CUTANEOUS"]),
    ("PASTILLE", ["ORAL"]),
    ("ELIXIR", ["ORAL", "TOPICAL"]),
    ("SOLUTION", ["ORAL", "TOPICAL", "INTRAVENOUS", "SUBCUTANEOUS", "HEMODIALYSIS", "OPHTHALMIC", "PERCUTANEOUS", "INTRADERMAL", "INTRAMUSCULAR", "INHALATION"]),
    ("SOLUTION / DROPS", ["OPHTHALMIC", "ORAL", "OTIC", "TOPICAL"]),
    ("SOLUTION, CONCENTRATE", ["ORAL", "INTRAVENOUS", "HEMODIALYSIS", "INHALATION", "TOPICAL", "IRRIGATION", "OPHTHALMIC"]),
    ("SOLUTION, GEL FORMING / DROPS", ["OPHTHALMIC", "TOPICAL", "CUTANEOUS"]),
    ("SOLUTION, GEL FORMING, EXTENDED RELEASE", ["OPHTHALMIC", "SUBCUTANEOUS", "TOPICAL", "INFILTRATION"]),
    ("SUSPENSION", ["ORAL", "INTRAMUSCULAR", "TOPICAL", "OPHTHALMIC", "OTIC", "INHALATION", "RECTAL", "SUBCUTANEOUS"]),
    ("SUSPENSION / DROPS", ["OPHTHALMIC", "ORAL", "OTIC"]),
    ("SUSPENSION, EXTENDED RELEASE", ["ORAL", "INTRAMUSCULAR", "SUBCUTANEOUS"]),
    ("POWDER", ["TOPICAL", "ORAL", "INHALATION"]),
    ("POWDER, FOR SOLUTION", ["ORAL", "INTRAVENOUS", "INTRAMUSCULAR", "SUBCUTANEOUS", "TOPICAL", "NASOGASTRIC"]),
    ("POWDER, FOR SUSPENSION", ["ORAL", "RECTAL", "SUBCUTANEOUS"]),
    ("POWDER, METERED", ["INHALATION", "ORAL", "SUBCUTANEOUS"]),
    ("POWDER, DENTIFRICE", ["ORAL", "DENTAL"]),
    ("GRANULE", ["ORAL", "TOPICAL"]),
    ("GRANULE, DELAYED RELEASE", ["ORAL", "EXTRACORPOREAL"]),
    ("GRANULE, EFFERVESCENT", ["ORAL", "TOPICAL"]),
    ("GRANULE, FOR SOLUTION", ["ORAL", "TOPICAL", "NASAL"]),
    ("GRANULE, FOR SUSPENSION", ["ORAL"]),
    ("AEROSOL", ["TOPICAL", "INHALATION", "DENTAL", "ORAL"]),
    ("AEROSOL, FOAM", ["TOPICAL", "DENTAL", "RECTAL"]),
    ("AEROSOL, METERED", ["INHALATION", "NASAL", "ORAL", "SUBLINGUAL", "TOPICAL"]),
    ("AEROSOL, POWDER", ["TOPICAL", "INHALATION", "ORAL"]),
    ("SPRAY", ["TOPICAL", "NASAL", "ORAL"]),
    ("SPRAY, METERED", ["NASAL", "TOPICAL", "INHALATION"]),
    ("SPRAY, SUSPENSION", ["TOPICAL", "NASAL", "INTRASINAL"]),
    ("INHALANT", ["INHALATION", "ORAL", "NASAL", "TOPICAL"]),
    ("INHALER", ["INHALATION"]),
    ("GAS", ["INHALATION"]),
    ("NEBULE", ["INHALATION"]),
    ("CREAM", ["TOPICAL", "CUTANEOUS"]),
    ("OINTMENT", ["TOPICAL", "OPHTHALMIC", "RECTAL"]),
    ("GEL", ["TOPICAL", "DENTAL", "EXTRACORPOREAL", "ORAL"]),
    ("GEL, METERED", ["TOPICAL", "TRANSDERMAL", "NASAL", "VAGINAL"]),
    ("GEL, DENTIFRICE", ["DENTAL", "ORAL", "TOPICAL"]),
    ("LOTION", ["TOPICAL"]),
    ("LOTION, AUGMENTED", ["TOPICAL"]),
    ("PASTE", ["TOPICAL", "DENTAL", "ORAL", "CUTANEOUS"]),
    ("PASTE, DENTIFRICE", ["DENTAL", "ORAL", "TOPICAL"]),
    ("FOAM", ["TOPICAL", "RECTAL", "VAGINAL"]),
    ("EMULSION", ["TOPICAL", "INTRAVENOUS", "ORAL", "OPHTHALMIC"]),
    ("SHAMPOO", ["TOPICAL", "CUTANEOUS"]),
    ("SOAP", ["TOPICAL", "CUTANEOUS"]),
    ("OIL", ["TOPICAL", "CUTANEOUS", "ORAL", "OTIC", "TRANSDERMAL"]),
    ("LINIMENT", ["TOPICAL", "PERCUTANEOUS", "TRANSDERMAL"]),
    ("TINCTURE", ["TOPICAL", "ORAL", "INHALATION"]),
    ("LIQUID", ["TOPICAL", "ORAL", "HEMODIALYSIS", "INTRAVENOUS", "OPHTHALMIC", "INTRAMUSCULAR", "SUBCUTANEOUS"]),
    ("SWAB", ["TOPICAL", "ORAL"]),
    ("CLOTH", ["TOPICAL", "EXTRACORPOREAL"]),
    ("SPONGE", ["TOPICAL", "ORAL", "VAGINAL"]),
    ("DRESSING", ["TOPICAL", "CUTANEOUS", "ORAL"]),
    ("STICK", ["TOPICAL"]),
    ("SALVE", ["TOPICAL"]),
    ("JELLY", ["TOPICAL", "VAGINAL", "NASAL"]),
    ("PATCH", ["TOPICAL", "TRANSDERMAL", "CUTANEOUS", "PERCUTANEOUS"]),
    ("PATCH, EXTENDED RELEASE", ["TRANSDERMAL", "TOPICAL"]),
    ("PLASTER", ["TOPICAL", "TRANSDERMAL", "CUTANEOUS"]),
    ("POULTICE", ["TOPICAL", "TRANSDERMAL", "CUTANEOUS", "PERCUTANEOUS"]),
    ("FILM", ["BUCCAL", "SUBLINGUAL", "TOPICAL", "ORAL", "DENTAL"]),
    ("FILM, SOLUBLE", ["BUCCAL", "SUBLINGUAL", "ORAL", "VAGINAL", "TOPICAL"]),
    ("FILM, EXTENDED RELEASE", ["TRANSDERMAL", "TOPICAL"]),
    ("DROP", ["OPHTHALMIC", "ORAL", "OTIC", "TOPICAL"]),
    ("DROPS", ["OPHTHALMIC", "ORAL", "OTIC", "TOPICAL"]),
    ("INJECTION", ["INTRAVENOUS", "INTRAMUSCULAR", "SUBCUTANEOUS", "INTRADERMAL", "CUTANEOUS", "INTRATHECAL", "PARENTERAL"]),
    ("INJECTION, EMULSION", ["INTRAVENOUS", "SUBCUTANEOUS", "INTRAMUSCULAR", "PARENTERAL", "TOPICAL"]),
    ("INJECTION, LIPID COMPLEX", ["INTRAVENOUS", "EPIDURAL", "INTRATHECAL"]),
    ("INJECTION, POWDER, FOR SOLUTION", ["INTRAVENOUS", "INTRAMUSCULAR", "SUBCUTANEOUS", "ORAL"]),
    ("INJECTION, POWDER, FOR SUSPENSION", ["INTRAMUSCULAR", "SUBCUTANEOUS", "INTRAVENOUS"]),
    ("INJECTION, POWDER, LYOPHILIZED, FOR SOLUTION", ["INTRAVENOUS", "INTRAMUSCULAR", "SUBCUTANEOUS"]),
    ("INJECTION, POWDER, LYOPHILIZED, FOR SUSPENSION", ["INTRAVENOUS", "SUBCUTANEOUS", "INTRAMUSCULAR"]),
    ("INJECTION, SOLUTION", ["SUBCUTANEOUS", "INTRADERMAL", "INTRAVENOUS", "INTRAMUSCULAR", "PERCUTANEOUS", "INFILTRATION", "PERINEURAL"]),
    ("INJECTION, SOLUTION, CONCENTRATE", ["INTRAVENOUS", "INTRAMUSCULAR", "INTRAOCULAR"]),
    ("INJECTION, SUSPENSION", ["INTRAMUSCULAR", "SUBCUTANEOUS", "INTRA-ARTICULAR", "INTRALESIONAL"]),
    ("INJECTION, SUSPENSION, EXTENDED RELEASE", ["INTRAMUSCULAR", "SUBCUTANEOUS"]),
    ("INJECTABLE, LIPOSOMAL", ["INTRAVENOUS"]),
    ("AMPULE", ["PARENTERAL", "INTRAVENOUS", "INTRAMUSCULAR", "SUBCUTANEOUS"]),
    ("VIAL", ["PARENTERAL", "INTRAVENOUS", "INTRAMUSCULAR", "SUBCUTANEOUS"]),
    ("BOTTLE", ["INTRAVENOUS", "ORAL"]),
    ("BAG", ["INTRAVENOUS"]),
    ("SUPPOSITORY", ["RECTAL", "VAGINAL", "URETHRAL"]),
    ("ENEMA", ["RECTAL"]),
    ("INSERT", ["VAGINAL", "OPHTHALMIC", "CONJUNCTIVAL"]),
    ("INSERT, EXTENDED RELEASE", ["VAGINAL", "INTRAUTERINE", "PERIODONTAL", "TOPICAL"]),
    ("RING", ["VAGINAL"]),
    ("OVULE", ["VAGINAL"]),
    ("IMPLANT", ["SUBCUTANEOUS", "INTRAVITREAL", "INTRA-ARTICULAR", "INTRAOCULAR", "PARENTERAL", "INTRADERMAL"]),
    ("PELLET, IMPLANTABLE", ["SUBCUTANEOUS", "PARENTERAL"]),
    ("KIT", ["ORAL", "TOPICAL", "OPHTHALMIC", "INHALATION", "INTRAVENOUS", "INTRAMUSCULAR", "INFILTRATION", "SUBCUTANEOUS", "EPIDURAL", "INTRA-ARTICULAR"]),
    ("STRIP", ["ORAL", "OPHTHALMIC", "TOPICAL", "DENTAL"]),
    ("WAFER", ["ORAL", "INTRACAVITARY", "INTRALESIONAL"]),
    ("PELLET", ["ORAL", "SUBCUTANEOUS", "OPHTHALMIC", "TOPICAL"]),
    ("CONCENTRATE", ["ORAL", "INTRADERMAL", "PERCUTANEOUS", "SUBCUTANEOUS", "TOPICAL"]),
    ("IRRIGANT", ["IRRIGATION", "URETHRAL", "TOPICAL", "INTRAVESICAL", "OPHTHALMIC"]),
    ("BEAD", ["CUTANEOUS", "TOPICAL", "ORAL"])
  ]

/-- `VACCINE_ACRONYM_TO_COMPONENTS` of `src/input/unified_constants.py` (insertion order). -/
def VACCINE_ACRONYM_TO_COMPONENTS : List (String × List String) :=
  [
    ("BCG", ["BACILLUS CALMETTE-GUERIN"]),
    ("D", ["DIPHTHERIA"]),
    ("T", ["TETANUS"]),
    ("P", ["PERTUSSIS"]),
    ("AP", ["ACELLULAR PERTUSSIS"]),
    ("WP", ["WHOLE-CELL PERTUSSIS"]),
    ("HIB", ["HAEMOPHILUS INFLUENZAE TYPE B"]),
    ("HEPB", ["HEPATITIS B"]),
    ("HEPA", ["HEPATITIS A"]),
    ("IPV", ["INACTIVATED POLIO", "INACTIVATED POLIOVIRUS", "INACTIVATED POLIOMYELITIS"]),
    ("OPV", ["ORAL POLIO", "ORAL POLIOVIRUS", "LIVE ATTENUATED POLIO"]),
    ("MV", ["MEASLES"]),
    ("MR", ["MEASLES", "RUBELLA"]),
    ("MMR", ["MEASLES", "MUMPS", "RUBELLA"]),
    ("MMRV", ["MEASLES", "MUMPS", "RUBELLA", "VARICELLA"]),
    ("VAR", ["VARICELLA"]),
    ("VZV", ["VARICELLA", "VARICELLA-ZOSTER"]),
    ("RV", ["ROTAVIRUS"]),
    ("PCV", ["PNEUMOCOCCAL CONJUGATE"]),
    ("PPSV", ["PNEUMOCOCCAL POLYSACCHARIDE"]),
    ("FLU", ["INFLUENZA"]),
    ("IIV", ["INACTIVATED INFLUENZA"]),
    ("LAIV", ["LIVE ATTENUATED INFLUENZA"]),
    ("HPV", ["HUMAN PAPILLOMAVIRUS"]),
    ("YF", ["YELLOW FEVER"]),
    ("JE", ["JAPANESE ENCEPHALITIS"]),
    ("RAB", ["RABIES"]),
    ("TYP", ["TYPHOID"]),
    ("MEN", ["MENINGOCOCCAL"]),
    ("DT", ["DIPHTHERIA", "TETANUS"]),
    ("TD", ["TETANUS", "DIPHTHERIA"]),
    ("DP", ["DIPHTHERIA", "PERTUSSIS"]),
    ("TP", ["TETANUS", "PERTUSSIS"]),
    ("DTP", ["DIPHTHERIA", "TETANUS", "PERTUSSIS"]),
    ("DTAP", ["DIPHTHERIA", "TETANUS", "ACELLULAR PERTUSSIS"]),
    ("DTWP", ["DIPHTHERIA", "TETANUS", "WHOLE-CELL PERTUSSIS"]),
    ("TDAP", ["TETANUS", "DIPHTHERIA", "ACELLULAR PERTUSSIS"]),
    ("DTP-HIB", ["DIPHTHERIA", "TETANUS", "PERTUSSIS", "HAEMOPHILUS INFLUENZAE TYPE B"]),
    ("DTP-HEPB", ["DIPHTHERIA", "TETANUS", "PERTUSSIS", "HEPATITIS B"]),
    ("DTP-IPV", ["DIPHTHERIA", "TETANUS", "PERTUSSIS", "INACTIVATED POLIO"]),
    ("DTAP-HIB", ["DIPHTHERIA", "TETANUS", "ACELLULAR PERTUSSIS", "HAEMOPHILUS INFLUENZAE TYPE B"]),
    ("DTAP-HEPB", ["DIPHTHERIA", "TETANUS", "ACELLULAR PERTUSSIS", "HEPATITIS B"]),
    ("DTAP-IPV", ["DIPHTHERIA", "TETANUS", "ACELLULAR PERTUSSIS", "INACTIVATED POLIO"]),
    ("PENTA", ["DIPHTHERIA", "TETANUS", "PERTUSSIS", "HEPATITIS B", "HAEMOPHILUS INFLUENZAE TYPE B"]),
    ("DTP-HEPB-HIB", ["DIPHTHERIA", "TETANUS", "PERTUSSIS", "HEPATITIS B", "HAEMOPHILUS INFLUENZAE TYPE B"]),
    ("DTP-IPV-HIB", ["DIPHTHERIA", "TETANUS", "PERTUSSIS", "INACTIVATED POLIO", "HAEMOPHILUS INFLUENZAE TYPE B"]),
    ("DTAP-HEPB-HIB", ["DIPHTHERIA", "TETANUS", "ACELLULAR PERTUSSIS", "HEPATITIS B", "HAEMOPHILUS INFLUENZAE TYPE B"]),
    ("DTAP-IPV-HIB", ["DIPHTHERIA", "TETANUS", "ACELLULAR PERTUSSIS", "INACTIVATED POLIO", "HAEMOPHILUS INFLUENZAE TYPE B"]),
    ("HEXA", ["DIPHTHERIA", "TETANUS", "PERTUSSIS", "HEPATITIS B", "HAEMOPHILUS INFLUENZAE TYPE B", "INACTIVATED POLIO"]),
    ("DTP-HEPB-HIB-IPV", ["DIPHTHERIA", "TETANUS", "PERTUSSIS", "HEPATITIS B", "HAEMOPHILUS INFLUENZAE TYPE B", "INACTIVATED POLIO"]),
    ("DTAP-HEPB-HIB-IPV", ["DIPHTHERIA", "TETANUS", "ACELLULAR PERTUSSIS", "HEPATITIS B", "HAEMOPHILUS INFLUENZAE TYPE B", "INACTIVATED POLIO"]),
    ("HEPA-HEPB", ["HEPATITIS A", "HEPATITIS B"]),
    ("TWINRIX", ["HEPATITIS A", "HEPATITIS B"]),
    ("MENACWY", ["MENINGOCOCCAL A", "MENINGOCOCCAL C", "MENINGOCOCCAL W", "MENINGOCOCCAL Y"]),
    ("MENB", ["MENINGOCOCCAL B"]),
    ("MENABCWY", ["MENINGOCOCCAL A", "MENINGOCOCCAL B", "MENINGOCOCCAL C", "MENINGOCOCCAL W", "MENINGOCOCCAL Y"]),
    ("PCV7", ["PNEUMOCOCCAL CONJUGATE 7-VALENT"]),
    ("PCV10", ["PNEUMOCOCCAL CONJUGATE 10-VALENT"]),
    ("PCV13", ["PNEUMOCOCCAL CONJUGATE 13-VALENT"]),
    ("PCV15", ["PNEUMOCOCCAL CONJUGATE 15-VALENT"]),
    ("PCV20", ["PNEUMOCOCCAL CONJUGATE 20-VALENT"]),
    ("PPSV23", ["PNEUMOCOCCAL POLYSACCHARIDE 23-VALENT"])
  ]

/-- Lowercased copies of the reference sets (as computed in
`src/scripts/text_utils.py` and `src/input/unified_constants.py`). -/
def STOPWORDS_LOWER : List String := STOPWORDS.map strLower

/-- `UNIT_TOKENS_LOWER` of `src/input/unified_constants.py`. -/
def UNIT_TOKENS_LOWER : List String := UNIT_TOKENS.map strLower

/-- `BASE_GENERIC_IGNORE = STOPWORDS_LOWER | UNIT_TOKENS_LOWER`
(`src/scripts/text_utils.py`). -/
def BASE_GENERIC_IGNORE : List String := STOPWORDS_LOWER ++ UNIT_TOKENS_LOWER

/-- `MEASUREMENT_TOKENS = UNIT_TOKENS_LOWER` (`src/scripts/text_utils.py`). -/
def MEASUREMENT_TOKENS : List String := UNIT_TOKENS_LOWER

/-- `SPECIAL_SALT_TOKENS` (`src/scripts/text_utils.py`): lowercased cations. -/
def SPECIAL_SALT_TOKENS : List String := SALT_CATIONS.map strLower

/-- `_SALT_TAIL_BREAK_TOKENS` (`src/scripts/text_utils.py`). -/
def SALT_TAIL_BREAK_LOWER : List String := SALT_TAIL_BREAK_TOKENS.map strLower

/-- The whitespace-delimited words of a string (Python `s.split()`). -/
def strWords (s : String) : List String := (wordsOf s.data).map (fun w => (⟨w⟩ : String))

/-- `_build_salt_token_words` of `src/scripts/text_utils.py`: lowercased salt
tokens, the words of their normalized forms, and the literals salt/salts. -/
def SALT_TOKEN_WORDS : List String :=
  (SALT_TOKENS.flatMap (fun t => (strLower t) :: strWords (normalize_text_scripts t)))
    ++ ["salt", "salts"]

/-- `is_pure_salt_compound` of `src/input/unified_constants.py`. -/
def is_pure_salt_compound (name : String) : Bool :=
  PURE_SALT_COMPOUNDS.contains (strUpper name)

/-- Characters stripped by `_token_core` (`.strip(".,;:'\"()[]{}")`). -/
def tokenCorePunct : List Char :=
  ['.', ',', ';', ':', '\'', '"', '(', ')', '[', ']', '\x7b', '\x7d']

/-- `_token_core` of `src/scripts/text_utils.py`. -/
def tokenCore (t : String) : String :=
  let l := (strLower t).data.dropWhile (fun c => tokenCorePunct.contains c)
  ⟨(l.reverse.dropWhile (fun c => tokenCorePunct.contains c)).reverse⟩

/-- `_is_measurement_token` of `src/scripts/text_utils.py`. -/
def isMeasurementToken (tok : String) : Bool :=
  let tok := (strLower tok)
  MEASUREMENT_TOKENS.contains tok || tok = "%" || tok = "ratio" || tok = "per"
    || strEndsWith tok "ml" || strEndsWith tok "mg"

/-- The loop body of `_looks_like_salt_tail` (`src/scripts/text_utils.py`),
scanning the tokens after a candidate `as`; `seen` records whether a salt
vocabulary token has been encountered. -/
def looksTail (seen : Bool) : List String → Bool
  | [] => seen
  | t :: rest =>
    if SALT_TAIL_BREAK_LOWER.contains (strLower t) then seen
    else if t = "" then looksTail seen rest
    else if t.data.any Char.isDigit || t = "%" || t = "per" then seen
    else if (strLower t) = "and/or" then looksTail seen rest
    else if SALT_TOKEN_WORDS.contains (strLower t) then looksTail true rest
    else false

/-- `_looks_like_salt_tail(tokens, start_idx)` of `src/scripts/text_utils.py`
applied to the suffix `tokens[start_idx:]`. -/
def looks_like_salt_tail (suffix : List String) : Bool := looksTail false suffix

/-- Indexed scan of `detect_as_boundary`. -/
def detectAsAux : Nat → List String → Option Nat
  | _, [] => none
  | i, t :: rest =>
    if t = "as" ∧ looks_like_salt_tail rest then some i
    else detectAsAux (i + 1) rest

/-- `detect_as_boundary` of `src/scripts/text_utils.py`. -/
def detect_as_boundary (normText : String) : Option Nat :=
  detectAsAux 0 (strWords normText)

/-- `[a-z]` search (`re.search(r"[a-z]", t)`). -/
def hasAzChar (t : String) : Bool := t.data.any azLower

/-- `re.fullmatch(r"[a-z]+[0-9]+[a-z0-9]*", t)`. -/
def azNumShape (t : String) : Bool :=
  let l := t.data
  let a := l.takeWhile azLower
  let rest := l.drop a.length
  let d := rest.takeWhile Char.isDigit
  let rest2 := rest.drop d.length
  !a.isEmpty && !d.isEmpty && rest2.all (fun c => azLower c || c.isDigit)

/-- `_should_treat_as_salt` of `extract_base_and_salts`. -/
def shouldTreatAsSalt (tokLower : String) (idx : Nat) (cands : List String) : Bool :=
  if !SALT_TOKEN_WORDS.contains tokLower then false
  else if tokLower = "salt" || tokLower = "salts" then false
  else
    let prev := if idx > 0 then strLower ((cands.get? (idx - 1)).getD "") else ""
    if prev = "as" then true
    else if SPECIAL_SALT_TOKENS.contains tokLower then false
    else true

/-- `_is_candidate` of `extract_base_and_salts`. -/
def isBaseCandidate (tok : String) : Bool :=
  let tokLower := (strLower tok)
  let tokKey := tokenCore tok
  if BASE_GENERIC_IGNORE.contains tokKey then false
  else if isMeasurementToken tokKey then false
  else if tokLower = "%" then false
  else if !hasAzChar tokLower then false
  else if headSat Char.isDigit tokLower.data then false
  else if tokLower.data.any Char.isDigit then azNumShape tokLower
  else true

/-- The loop of `_truncate_tokens` of `extract_base_and_salts`: `ctx` is the
full candidate list (used for the previous-token lookup), `acc` the tokens
accumulated so far (a connective is kept only when `acc` is nonempty). -/
def truncGo (ctx : List String) : Nat → List String → List String → List String
  | _, [], acc => acc
  | idx, tok :: rest, acc =>
    let tokLower := (strLower tok)
    let tokKey := tokenCore tok
    if tok = "+" || tok = "/" || tok = "&" then
      if acc ≠ [] then truncGo ctx (idx + 1) rest (acc ++ [(strUpper tok)])
      else truncGo ctx (idx + 1) rest acc
    else if tokLower = "as" then acc
    else if shouldTreatAsSalt tokLower idx ctx then truncGo ctx (idx + 1) rest acc
    else if isMeasurementToken tokKey then truncGo ctx (idx + 1) rest acc
    else if BASE_GENERIC_IGNORE.contains tokKey
            && !SALT_TOKEN_WORDS.contains tokLower then truncGo ctx (idx + 1) rest acc
    else if !hasAzChar tokLower then truncGo ctx (idx + 1) rest acc
    else if tokLower.data.any Char.isDigit then
      if azNumShape tokLower then truncGo ctx (idx + 1) rest (acc ++ [(strUpper tok)])
      else truncGo ctx (idx + 1) rest acc
    else truncGo ctx (idx + 1) rest (acc ++ [(strUpper tok)])

/-- `_truncate_tokens` of `extract_base_and_salts`. -/
def truncateTokens (toks : List String) : List String := truncGo toks 0 toks []

/-- The base-candidate loop of `extract_base_and_salts`; the state is the
accumulated `(base_tokens, salt_tokens, pending_leading_salts)`. -/
def baseGo (ctx : List String) :
    Nat → List String → List String → List String → List String →
    List String × List String × List String
  | _, [], base, salts, pending => (base, salts, pending)
  | idx, tok :: rest, base, salts, pending =>
    let tokLower := (strLower tok)
    if tok = "+" || tok = "/" || tok = "&" then
      if base ≠ [] ∧ rest.any isBaseCandidate then
        baseGo ctx (idx + 1) rest (base ++ [tok]) salts pending
      else baseGo ctx (idx + 1) rest base salts pending
    else if shouldTreatAsSalt tokLower idx ctx then
      if base ≠ [] then baseGo ctx (idx + 1) rest base (salts ++ [(strUpper tok)]) pending
      else baseGo ctx (idx + 1) rest base salts (pending ++ [(strUpper tok)])
    else if !isBaseCandidate tok then baseGo ctx (idx + 1) rest base salts pending
    else baseGo ctx (idx + 1) rest (base ++ [(strUpper tok)]) salts pending

/-- `_trim_trailing_salts` of `extract_base_and_salts`, returning the kept
base tokens and the trimmed trailing salts (in original order, noise words
salt/salts dropped). -/
def trimSplit (seq : List String) : List String × List String :=
  if seq = [] then ([], [])
  else if seq.all (fun t => SALT_TOKEN_WORDS.contains (strLower t)) then (seq, [])
  else
    let sufLen := (seq.reverse.takeWhile (fun t => SALT_TOKEN_WORDS.contains (strLower t))).length
    let kept := seq.take (seq.length - sufLen)
    let suffix := seq.drop (seq.length - sufLen)
    (kept, (suffix.filter (fun t => !((strLower t) = "salt" || (strLower t) = "salts"))).map
      strUpper)

/-- First-seen-order deduplication of the salt list, dropping empties. -/
def dedupeKeep : List String → List String := go []
where
  go (seen : List String) : List String → List String
    | [] => []
    | t :: rest => if t ≠ "" ∧ ¬ seen.contains t then t :: go (t :: seen) rest
                   else go seen rest

/-- `extract_base_and_salts` of `src/scripts/text_utils.py`. -/
def extract_base_and_salts (raw : String) : String × List String :=
  let norm := normalize_text_scripts raw
  let tokens := strWords norm
  let boundary := detect_as_boundary norm
  let baseCandidates := match boundary with | none => tokens | some b => tokens.take b
  let saltCandidates := match boundary with | none => [] | some b => tokens.drop (b + 1)
  let salts0 := saltCandidates.filterMap (fun tok =>
    let tl := (strLower tok)
    if tl = "and" || tl = "with" || tl = "plus" || tl = "+" || tl = "/" then none
    else if tl = "" then none
    else if !hasAzChar tl then none
    else if !SALT_TOKEN_WORDS.contains tl then none
    else if tl = "salt" || tl = "salts" then none
    else some (strUpper tok))
  let st := baseGo baseCandidates 0 baseCandidates [] salts0 []
  let base0 := st.1
  let salts1 := st.2.1
  let pending := st.2.2
  let base1 := if base0 = [] then truncateTokens baseCandidates else base0
  let base2 := if base1 = [] ∧ pending ≠ [] then pending else base1
  let ks := trimSplit base2
  let saltsAll := salts1 ++ ks.2
  let base3 := if ks.1 ≠ [] then strUpper (pyStrip (strJoin " " ks.1)) else ""
  let uniq := dedupeKeep saltsAll
  let bu : String × List String :=
    if base3 = "" ∧ uniq ≠ [] then (strJoin " " uniq, []) else (base3, uniq)
  let base4 := if bu.1 = "" ∧ raw ≠ "" then strUpper (pyStrip raw) else bu.1
  (base4, bu.2)

/-- Code-point lexicographic string comparison (Python string `<=`). -/
def strLeB (a b : String) : Bool := go a.data b.data
where
  go : List Char → List Char → Bool
    | [], _ => true
    | _ :: _, [] => false
    | c :: cs, d :: ds => if c < d then true else if d < c then false else go cs ds

/-- Insertion into a `strLeB`-sorted list. -/
def insertLe (le : String → String → Bool) (x : String) : List String → List String
  | [] => [x]
  | y :: t => if le x y then x :: y :: t else y :: insertLe le x t

/-- Insertion sort (kernel-computable embedding of Python `sorted`). -/
def sortBy (le : String → String → Bool) : List String → List String
  | [] => []
  | x :: t => insertLe le x (sortBy le t)

/-- Python `sorted` on strings. -/
def sortStr : List String → List String := sortBy strLeB

/-- `get_canonical_form` of `src/input/unified_constants.py`. -/
def get_canonical_form (form : String) : String :=
  (FORM_CANON.lookup (strUpper form)).getD (strUpper form)

/-- `infer_route_from_form` of `src/input/unified_constants.py`: first route of
the `FORM_TO_ROUTES` entry for the canonical form, else the single-route
table at the canonical form or at the upper-cased input. -/
def infer_route_from_form (form : String) : Option String :=
  match FORM_TO_ROUTES.lookup (get_canonical_form form) with
  | some routes => routes.head?
  | none =>
    match FORM_TO_ROUTE.lookup (get_canonical_form form) with
    | some r => some r
    | none => FORM_TO_ROUTE.lookup (strUpper form)

/-- `get_valid_routes_for_form` of `src/input/unified_constants.py`. -/
def get_valid_routes_for_form (form : String) : List String :=
  match FORM_TO_ROUTES.lookup (get_canonical_form form) with
  | some routes => routes
  | none =>
    match (match FORM_TO_ROUTE.lookup (get_canonical_form form) with
           | some r => some r
           | none => FORM_TO_ROUTE.lookup (strUpper form)) with
    | some single => [single]
    | none => []

/-- In-place value update of an association list (Python dict assignment for
an existing key). -/
def updateAssoc (m : List (String × String)) (k v : String) : List (String × String) :=
  m.map (fun p => if p.1 = k then (k, v) else p)

/-- `_build_components_to_acronym` of `src/input/unified_constants.py`:
reverse map from the sorted `" + "`-joined component key to the acronym,
preferring the shorter acronym on key collisions. -/
def VACCINE_COMPONENTS_TO_ACRONYM : List (String × String) :=
  VACCINE_ACRONYM_TO_COMPONENTS.foldl
    (fun m p =>
      let key := strJoin " + " (sortStr (p.2.map strUpper))
      match m.lookup key with
      | none => m ++ [(key, p.1)]
      | some a => if p.1.length < a.length then updateAssoc m key p.1 else m)
    []

/-- `expand_vaccine_acronym` of `src/input/unified_constants.py`. -/
def expand_vaccine_acronym (acronym : String) : Option (List String) :=
  let au := pyStrip (strUpper acronym)
  let au := [" VACCINE", "-VACCINE", "VACCINE"].foldl
    (fun s suf => if strEndsWith s suf then pyStrip (strDropRight s suf.length) else s) au
  VACCINE_ACRONYM_TO_COMPONENTS.lookup au

/-- `get_vaccine_acronym` of `src/input/unified_constants.py`. -/
def get_vaccine_acronym (components : List String) : Option String :=
  if components = [] then none
  else
    let key := strJoin " + " (sortStr (components.map (fun c => pyStrip (strUpper c))))
    VACCINE_COMPONENTS_TO_ACRONYM.lookup key

/-- The trailing-salt alternation of the whole-name regex in
`_is_exact_generic_match` (`src/drug_scraper.py`). -/
def SALT_SUFFIX_FULL : List String :=
  [ "HYDROCHLORIDE", "HCL", "SODIUM", "POTASSIUM", "CALCIUM", "SULFATE", "ACETATE",
    "MALEATE", "FUMARATE", "TARTRATE", "CITRATE", "PHOSPHATE", "CHLORIDE", "BESILATE",
    "BESYLATE", "MESYLATE", "TRIHYDRATE", "DIHYDRATE", "MONOHYDRATE" ]

/-- The shorter alternation used for `+`-separated combination parts. -/
def SALT_SUFFIX_PART : List String :=
  [ "HYDROCHLORIDE", "HCL", "SODIUM", "POTASSIUM", "CALCIUM", "SULFATE", "ACETATE",
    "MALEATE", "FUMARATE", "TARTRATE", "CITRATE", "PHOSPHATE", "CHLORIDE", "BESILATE",
    "BESYLATE", "MESYLATE" ]

/-- `re.sub(r"\s+(A|B|…)\s*$", "", s)`: drop a trailing salt word (the last
whitespace-delimited token when it is in the alternation, together with the
separating whitespace). -/
def stripSaltSuffix (salts : List String) (s : String) : String :=
  let rev := s.data.reverse
  let trail := rev.takeWhile pyIsSpace
  let rest1 := rev.drop trail.length
  let tokRev := rest1.takeWhile (fun c => !pyIsSpace c)
  let rest2 := rest1.drop tokRev.length
  let ws := rest2.takeWhile pyIsSpace
  if salts.contains (⟨tokRev.reverse⟩ : String) ∧ ws ≠ [] then
    ⟨(rest2.drop ws.length).reverse⟩
  else s

/-- Does `l` start with `\s+AS\s+` (the boundary of `^(.+?)\s+AS\s+`)? -/
def asBoundaryHere (l : List Char) : Bool :=
  let w := l.takeWhile pyIsSpace
  if w.isEmpty then false
  else match l.drop w.length with
    | 'A' :: 'S' :: rest => headSat pyIsSpace rest
    | _ => false

/-- Does `l` start with `\s*\(AS\s+` (the boundary of `^(.+?)\s*\(AS\s+`)? -/
def parenBoundaryHere (l : List Char) : Bool :=
  let w := l.takeWhile pyIsSpace
  match l.drop w.length with
  | '(' :: 'A' :: 'S' :: rest => headSat pyIsSpace rest
  | _ => false

/-- Non-greedy scan for `^(.+?)<boundary>`, returning the shortest non-empty
group before a position satisfying `bnd`. -/
def scanShortest (bnd : List Char → Bool) : List Char → List Char → Option (List Char)
  | _, [] => none
  | acc, c :: rest =>
    if bnd rest then some (acc ++ [c])
    else scanShortest bnd (acc ++ [c]) rest

/-- `_is_exact_generic_match` of `src/drug_scraper.py`, parameterized by the
generic-name vocabulary (the DrugBank reference data is external to the
repository; a missing file yields the empty vocabulary). -/
def _is_exact_generic_match (generics : List String) (name : String) : Bool :=
  if name = "" then false
  else
    let upper := pyStrip (strUpper name)
    if generics.contains upper then true
    else
      let base := stripSaltSuffix SALT_SUFFIX_FULL upper
      if base ≠ upper ∧ generics.contains base then true
      else if (match scanShortest asBoundaryHere [] upper.data with
               | some g => generics.contains (pyStrip (⟨g⟩ : String))
               | none => false) then true
      else if (match scanShortest parenBoundaryHere [] upper.data with
               | some g => generics.contains (pyStrip (⟨g⟩ : String))
               | none => false) then true
      else if upper.data.contains '+' then
        ((strSplitOn "+" upper).map pyStrip).all
          (fun part => generics.contains (stripSaltSuffix SALT_SUFFIX_PART part))
      else false

/-- `_detect_brand_generic_flip` of `src/drug_scraper.py`. -/
def _detect_brand_generic_flip (generics : List String) (brand generic : String) : Bool :=
  if brand = "" ∨ generic = "" then false
  else _is_exact_generic_match generics brand && !_is_exact_generic_match generics generic

/-- `FORM_TO_ROUTE` of `src/scripts/routes_forms.py`: the unified table with
keys and values lowercased. -/
def FORM_TO_ROUTE_SCRIPTS : List (String × String) :=
  FORM_TO_ROUTE.map (fun p => ((strLower p.1), (strLower p.2)))

/-- `FORM_WORDS` of `src/scripts/routes_forms.py`: the keys ordered by
decreasing length (the tie order among equal lengths is immaterial to the
searchFirst semantics used by the claims and fixed here by insertion sort). -/
def FORM_WORDS : List String :=
  sortBy (fun a b => decide (b.length ≤ a.length)) (FORM_TO_ROUTE_SCRIPTS.map Prod.fst)

/-- One position of the `\b<word>\b` search: `pat` occurs here and both edges
are word boundaries (all form words begin and end with word characters). -/
def wbHere (pat : List Char) (prev : Option Char) (l : List Char) : Bool :=
  pat.isPrefixOf l
    && (match prev with | none => true | some c => !isWordCharE c)
    && (match l.drop pat.length with | [] => true | c :: _ => !isWordCharE c)

/-- `re.search(rf"\b{re.escape(fw)}\b", s)` for a literal word `fw`. -/
def wbSearch (pat : List Char) : Option Char → List Char → Bool
  | prev, l =>
    wbHere pat prev l ||
      (match l with
       | [] => false
       | c :: t => wbSearch pat (some c) t)

/-- `parse_form_from_text` of `src/scripts/routes_forms.py`. -/
def parse_form_from_text (sNorm : String) : Option String :=
  FORM_WORDS.find? (fun fw => wbSearch fw.data none sNorm.data)

/-- `infer_form_and_route` of `src/drug_scraper.py`. -/
def infer_form_and_route (dosageForm : String) : Option String × Option String :=
  if pyStrip dosageForm = "" then (none, none)
  else
    (parse_form_from_text (normalize_text_scripts dosageForm),
      match parse_form_from_text (normalize_text_scripts dosageForm) with
      | some f => FORM_TO_ROUTE_SCRIPTS.lookup f
      | none => none)

/-- A raw FDA catalog row (absent fields are empty strings). -/
structure Row where
  brand_name : String
  generic_name : String
  dosage_form : String
  dosage_strength : String
  registration_number : String
deriving DecidableEq, Repr

/-- An output record of `build_brand_map`. -/
structure OutRec where
  brand_name : String
  generic_name : String
  dosage_form : String
  route : String
  dosage_strength : String
  registration_number : String
deriving DecidableEq, Repr

/-- The deduplication key type of `build_brand_map`. -/
abbrev DedupKey := String × String × String × String × String

/-- The brand/generic pair of a row after flip correction. -/
def flippedPair (generics : List String) (r : Row) : String × String :=
  let brand := pyStrip r.brand_name
  let generic := pyStrip r.generic_name
  if _detect_brand_generic_flip generics brand generic then (generic, brand)
  else (brand, generic)

/-- The deduplication key computed for a row by `build_brand_map`. -/
def rowKey (generics : List String) (r : Row) : DedupKey :=
  let bg := flippedPair generics r
  let fr := infer_form_and_route (pyStrip r.dosage_form)
  (strLower bg.1, strLower bg.2, strLower (fr.1.getD ""), strLower (fr.2.getD ""),
    strLower (pyStrip r.dosage_strength))

/-- The output record computed for a row by `build_brand_map`. -/
def rowRec (generics : List String) (r : Row) : OutRec :=
  let bg := flippedPair generics r
  let df := pyStrip r.dosage_form
  let fr := infer_form_and_route df
  { brand_name := bg.1
    generic_name := bg.2
    dosage_form := fr.1.getD df
    route := fr.2.getD ""
    dosage_strength := pyStrip r.dosage_strength
    registration_number := pyStrip r.registration_number }

/-- Is a row processed at all by `build_brand_map` (non-blank brand and
generic after trimming)? -/
def eligibleRow (r : Row) : Prop :=
  pyStrip r.brand_name ≠ "" ∧ pyStrip r.generic_name ≠ ""

instance (r : Row) : Decidable (eligibleRow r) := by
  unfold eligibleRow; infer_instance

/-- The row loop of `build_brand_map`, carrying the set of keys seen. -/
def buildGo (generics : List String) (seen : List DedupKey) : List Row → List OutRec
  | [] => []
  | r :: rs =>
    if eligibleRow r then
      let k := rowKey generics r
      if k ∈ seen then buildGo generics seen rs
      else rowRec generics r :: buildGo generics (k :: seen) rs
    else buildGo generics seen rs

/-- `build_brand_map` of `src/drug_scraper.py`, parameterized by the
generic-name vocabulary. -/
def build_brand_map (generics : List String) (rows : List Row) : List OutRec :=
  buildGo generics [] rows

/-- The case-normalized tuple of output fields named by the dedup claim. -/
def outTuple (o : OutRec) : DedupKey :=
  ((strLower o.brand_name), (strLower o.generic_name), (strLower o.dosage_form),
    (strLower o.route), (strLower o.dosage_strength))

/-! ## General helper lemmas -/

@[simp]
theorem mkData (l : List Char) : (⟨l⟩ : String).data = l := rfl

theorem lookupMem {α β : Type} [BEq α] [LawfulBEq α] (k : α) (v : β) (l : List (α × β))
    (h : l.lookup k = some v) : (k, v) ∈ l := by
  induction l with
  | nil => simp [List.lookup] at h
  | cons p t ih =>
    rw [List.lookup] at h
    by_cases hk : k == p.1
    · simp [hk] at h
      have hk' : k = p.1 := beq_iff_eq.mp hk
      have hp : p = (k, v) := by cases p; simp_all
      exact hp ▸ List.mem_cons_self _ _
    · simp [hk] at h
      exact List.mem_cons_of_mem _ (ih h)

theorem chOfNatToNat (n : Nat) (h : n.isValidChar) : (Char.ofNat n).toNat = n := by
  simp only [Char.ofNat, Char.toNat, h, dif_pos, Char.ofNatAux]
  simp [UInt32.toNat]

theorem chUpperIdem (c : Char) : c.toUpper.toUpper = c.toUpper := by
  by_cases h : c.toNat ≥ 97 ∧ c.toNat ≤ 122
  · have hv2 : (c.toNat - 32).isValidChar := by left; omega
    have e := chOfNatToNat (c.toNat - 32) hv2
    have h1 : c.toUpper = Char.ofNat (c.toNat - 32) := by unfold Char.toUpper; simp [h]
    have h2 : (Char.ofNat (c.toNat - 32)).toUpper = Char.ofNat (c.toNat - 32) := by
      unfold Char.toUpper
      rw [if_neg]; rw [e]; omega
    rw [h1, h2]
  · have h1 : c.toUpper = c := by unfold Char.toUpper; simp [h]
    rw [h1, h1]

theorem chLowerIdem (c : Char) : c.toLower.toLower = c.toLower := by
  by_cases h : c.toNat ≥ 65 ∧ c.toNat ≤ 90
  · have hv2 : (c.toNat + 32).isValidChar := by left; omega
    have e := chOfNatToNat (c.toNat + 32) hv2
    have h1 : c.toLower = Char.ofNat (c.toNat + 32) := by unfold Char.toLower; simp [h]
    have h2 : (Char.ofNat (c.toNat + 32)).toLower = Char.ofNat (c.toNat + 32) := by
      unfold Char.toLower
      rw [if_neg]; rw [e]; omega
    rw [h1, h2]
  · have h1 : c.toLower = c := by unfold Char.toLower; simp [h]
    rw [h1, h1]

theorem strUpperIdem (s : String) : strUpper (strUpper s) = strUpper s := by
  simp only [strUpper, mkData, List.map_map]
  congr 1
  exact List.map_congr_left (fun c _ => chUpperIdem c)

/-! ## Claim C6 -/

/-- C6: the three `normalize_text` implementations do not compute the same
function.  The two in `src/text_utils.py` and `src/scripts/text_utils.py`
agree and map the micro-sign microgram `µg` to `mcg`; the one in
`src/input/unified_constants.py` leaves it as `μg`, because its replacement
patterns are the double-encoded byte sequences `Î¼g`/`Âµg` rather than
`μg`/`µg`. -/
theorem claim_C6_unified_normalize_diverges_on_micro_sign :
    normalize_text "µg" = "mcg" ∧ normalize_text_scripts "µg" = "mcg" ∧
    (∀ s, normalize_text_scripts s = normalize_text s) ∧
    normalize_text_unified "µg" = "μg" ∧
    normalize_text_unified "µg" ≠ normalize_text "µg" :=
  ⟨rfl, rfl, fun _ => rfl, rfl, by decide⟩

/-! ## Claim C9 -/

/-- C9: vaccine acronym expansion round-trips for DTP: expanding `DTP` to its
component antigens and reverse-resolving those components through the
sorted-and-joined key yields `DTP` again. -/
theorem claim_C9_vaccine_roundtrip_DTP :
    expand_vaccine_acronym "DTP" = some ["DIPHTHERIA", "TETANUS", "PERTUSSIS"] ∧
    (expand_vaccine_acronym "DTP").bind get_vaccine_acronym = some "DTP" :=
  ⟨by decide, by decide⟩

/-! ## Claim C8 -/

theorem formCanonValuesFixed : ∀ p ∈ FORM_CANON, get_canonical_form p.2 = p.2 := by decide

/-- C8: dosage-form canonicalization is idempotent: every value produced by
`get_canonical_form` (a `FORM_CANON` table value or the upper-cased fallback)
is itself a fixed point of `get_canonical_form`. -/
theorem claim_C8_canonical_form_idempotent (x : String) :
    get_canonical_form (get_canonical_form x) = get_canonical_form x := by
  cases h : FORM_CANON.lookup (strUpper x) with
  | some v =>
    have hmem := lookupMem _ _ _ h
    have hfix := formCanonValuesFixed _ hmem
    have hx : get_canonical_form x = v := by
      unfold get_canonical_form; rw [h]; rfl
    rw [hx, hfix]
  | none =>
    have hx : get_canonical_form x = strUpper x := by
      unfold get_canonical_form; rw [h]; rfl
    rw [hx]
    unfold get_canonical_form
    rw [strUpperIdem x, h]
    rfl

/-! ## Claim C7 -/

/-- C7: the inferred primary route is exactly the head of the valid-routes
list: it equals the first element when that list is non-empty and is `none`
exactly when the list is empty. -/
theorem claim_C7_primary_route_heads_valid_routes (f : String) :
    infer_route_from_form f = (get_valid_routes_for_form f).head? ∧
    (infer_route_from_form f = none ↔ get_valid_routes_for_form f = []) := by
  have h1 : infer_route_from_form f = (get_valid_routes_for_form f).head? := by
    unfold infer_route_from_form get_valid_routes_for_form
    cases hx : FORM_TO_ROUTES.lookup (get_canonical_form f) with
    | some routes => simp [hx]
    | none =>
      cases hy : FORM_TO_ROUTE.lookup (get_canonical_form f) with
      | some r => simp [hx, hy]
      | none =>
        cases hz : FORM_TO_ROUTE.lookup (strUpper f) with
        | some r => simp [hx, hy, hz]
        | none => simp [hx, hy, hz]
  refine ⟨h1, ?_⟩
  rw [h1]
  cases get_valid_routes_for_form f <;> simp

/-! ## Claim C1 -/

/-- C1: the round-trip `split(c) == (c, [])` fails for the pure-salt-compound
whitelist: `extract_base_and_salts` splits `SODIUM CHLORIDE` into base
`SODIUM` with salt list `[CHLORIDE]`, not `("SODIUM CHLORIDE", [])`. -/
theorem claim_C1_counterexample_sodium_chloride :
    extract_base_and_salts "SODIUM CHLORIDE" = ("SODIUM", ["CHLORIDE"]) ∧
    extract_base_and_salts "SODIUM CHLORIDE" ≠ ("SODIUM CHLORIDE", []) :=
  ⟨by decide, by decide⟩

/-- C1 (amended): the whole-string preservation of pure-salt compounds is
provided by the upstream `is_pure_salt_compound` check, which accepts every
whitelist compound; `extract_base_and_salts` itself never round-trips a
whitelist compound — it splits each one. -/
theorem claim_C1_pure_salt_exemption_upstream :
    (∀ c ∈ PURE_SALT_COMPOUNDS, is_pure_salt_compound c = true) ∧
    (∀ c ∈ PURE_SALT_COMPOUNDS, extract_base_and_salts c ≠ (c, [])) :=
  ⟨by decide, by decide⟩

theorem claim_C1_pure_salt_exemption_upstream_witness :
    is_pure_salt_compound "SODIUM CHLORIDE" = true ∧
    extract_base_and_salts "SODIUM CHLORIDE" ≠ ("SODIUM CHLORIDE", []) :=
  ⟨claim_C1_pure_salt_exemption_upstream.1 "SODIUM CHLORIDE" (by decide),
   claim_C1_pure_salt_exemption_upstream.2 "SODIUM CHLORIDE" (by decide)⟩

/-! ## Claim C3 -/

/-- The amended rejection condition for an `as` salt tail: some token
containing a digit (or a bare percent/per) occurs strictly before any salt
vocabulary token and before any connective token. -/
def digitBeforeSalt : List String → Bool
  | [] => false
  | t :: rest =>
    if SALT_TAIL_BREAK_LOWER.contains (strLower t) then false
    else if t = "" then digitBeforeSalt rest
    else if t.data.any Char.isDigit || t = "%" || t = "per" then true
    else if strLower t = "and/or" then digitBeforeSalt rest
    else if SALT_TOKEN_WORDS.contains (strLower t) then false
    else digitBeforeSalt rest

/-- C3: refuted as stated: a digit-bearing token in the connective-free tail
does not by itself reject the boundary.  In `amlodipine as besilate 5mg` the
tail of the `as` at index 1 contains the digit token `5mg` and no connective,
yet `detect_as_boundary` accepts the boundary (returns index 1), because the
digit token merely stops the scan after the salt `besilate` was seen. -/
theorem claim_C3_counterexample_digit_after_salt :
    strWords (normalize_text_scripts "amlodipine as besilate 5mg") =
      ["amlodipine", "as", "besilate", "5mg"] ∧
    ("5mg" : String).data.any Char.isDigit = true ∧
    (∀ t ∈ ["besilate", "5mg"], SALT_TAIL_BREAK_LOWER.contains (strLower t) = false) ∧
    detect_as_boundary (normalize_text_scripts "amlodipine as besilate 5mg") = some 1 :=
  ⟨by decide, by decide, by decide, by decide⟩

theorem looksTail_false_of_digitBeforeSalt :
    ∀ rest : List String, digitBeforeSalt rest = true → looksTail false rest = false := by
  intro rest
  induction rest with
  | nil => intro h; simp [digitBeforeSalt] at h
  | cons t rs ih =>
    rw [digitBeforeSalt, looksTail]
    split_ifs <;>
      first
        | exact ih
        | (intro h; rfl)
        | (intro h; simp at h)

theorem detectAsAux_none (toks : List String)
    (h : ∀ i, i < toks.length → toks.get? i = some "as" →
      digitBeforeSalt (toks.drop (i + 1)) = true) :
    ∀ i0, detectAsAux i0 toks = none := by
  induction toks with
  | nil => intro i0; rfl
  | cons t rest ih =>
    intro i0
    rw [detectAsAux]
    have hrest : ∀ i, i < rest.length → rest.get? i = some "as" →
        digitBeforeSalt (rest.drop (i + 1)) = true := by
      intro i hi hget
      have := h (i + 1) (by simpa using Nat.succ_lt_succ hi) (by simpa using hget)
      simpa using this
    by_cases ht : t = "as"
    · have hd : digitBeforeSalt rest = true := by
        have := h 0 (by simp) (by simp [ht])
        simpa using this
      have : looks_like_salt_tail rest = false := by
        unfold looks_like_salt_tail
        exact looksTail_false_of_digitBeforeSalt rest hd
      rw [if_neg (by simp [ht, this])]
      exact ih hrest (i0 + 1)
    · rw [if_neg (by simp [ht])]
      exact ih hrest (i0 + 1)

/-- C3 (amended): a digit-bearing (or bare percent/per) token rejects the
boundary only when it occurs before any salt-vocabulary token: a tail whose
scan meets such a token before any salt token is rejected, and when every
`as` occurrence in the text has such a tail, `detect_as_boundary` returns
none. -/
theorem claim_C3_digit_before_salt_rejects (s : String)
    (h : ∀ i, i < (strWords s).length → (strWords s).get? i = some "as" →
      digitBeforeSalt ((strWords s).drop (i + 1)) = true) :
    detect_as_boundary s = none := by
  unfold detect_as_boundary
  exact detectAsAux_none (strWords s) h 0

theorem claim_C3_digit_before_salt_rejects_witness :
    detect_as_boundary "paracetamol as 500 mg" = none :=
  claim_C3_digit_before_salt_rejects "paracetamol as 500 mg" (by decide)

/-! ## Claim C4 -/

/-- C4: refuted as stated for empty fields: with `PARACETAMOL` in the
vocabulary, the brand field `PARACETAMOL` is an exact vocabulary match and
the empty generic field is not, yet the flip detector returns false (the
guard `if not brand or not generic` short-circuits). -/
theorem claim_C4_counterexample_empty_generic :
    _is_exact_generic_match ["PARACETAMOL"] "PARACETAMOL" = true ∧
    _is_exact_generic_match ["PARACETAMOL"] "" = false ∧
    _detect_brand_generic_flip ["PARACETAMOL"] "PARACETAMOL" "" = false :=
  ⟨by decide, by decide, by decide⟩

/-- A sample generic-name vocabulary for the flip scenarios. -/
def flipVocab : List String := ["ACETYLCYSTEINE", "PARACETAMOL"]

/-- C4 (amended): for non-empty brand and generic fields the flip detector
returns true exactly when the brand field is an exact vocabulary match and
the generic field is not; substring-only resemblance is never flagged:
with a vocabulary containing ACETYLCYSTEINE and PARACETAMOL,
`Acetylcysteine/Nacel` flips while `Acetylflux/Acetylcysteine` and
`Biogesic/Paracetamol` do not. -/
theorem claim_C4_flip_asymmetric_exact_match :
    (∀ (generics : List String) (brand generic : String), brand ≠ "" → generic ≠ "" →
      (_detect_brand_generic_flip generics brand generic = true ↔
        (_is_exact_generic_match generics brand = true ∧
          _is_exact_generic_match generics generic = false))) ∧
    _detect_brand_generic_flip flipVocab "Acetylcysteine" "Nacel" = true ∧
    _detect_brand_generic_flip flipVocab "Acetylflux" "Acetylcysteine" = false ∧
    _detect_brand_generic_flip flipVocab "Biogesic" "Paracetamol" = false ∧
    _is_exact_generic_match flipVocab "Acetylflux" = false := by
  refine ⟨?_, by decide, by decide, by decide, by decide⟩
  intro generics brand generic hb hg
  unfold _detect_brand_generic_flip
  rw [if_neg (by simp [hb, hg])]
  cases hbm : _is_exact_generic_match generics brand <;>
    cases hgm : _is_exact_generic_match generics generic <;> simp

theorem claim_C4_flip_asymmetric_exact_match_witness :
    _detect_brand_generic_flip flipVocab "Acetylcysteine" "Nacel" = true ↔
      (_is_exact_generic_match flipVocab "Acetylcysteine" = true ∧
        _is_exact_generic_match flipVocab "Nacel" = false) :=
  claim_C4_flip_asymmetric_exact_match.1 flipVocab "Acetylcysteine" "Nacel"
    (by decide) (by decide)

/-! ## Claim C10 -/

theorem buildGo_skips_blank (g : List String) (r : Row)
    (h : pyStrip r.brand_name = "" ∨ pyStrip r.generic_name = "") :
    ∀ (xs ys : List Row) (seen : List DedupKey),
      buildGo g seen (xs ++ r :: ys) = buildGo g seen (xs ++ ys) := by
  have hnel : ¬ eligibleRow r := by
    unfold eligibleRow
    rcases h with h | h <;> simp [h]
  intro xs
  induction xs with
  | nil =>
    intro ys seen
    simp only [List.nil_append]
    rw [buildGo, if_neg hnel]
  | cons x xs ih =>
    intro ys seen
    simp only [List.cons_append]
    rw [buildGo, buildGo]
    by_cases hx : eligibleRow x
    · rw [if_pos hx, if_pos hx]
      by_cases hk : rowKey g x ∈ seen
      · rw [if_pos hk, if_pos hk]; exact ih ys seen
      · rw [if_neg hk, if_neg hk, ih ys (rowKey g x :: seen)]
    · rw [if_neg hx, if_neg hx]; exact ih ys seen

/-- C10: `build_brand_map` silently drops every row whose brand or generic
field is blank after trimming: deleting such a row from the input leaves the
output unchanged (it is never flipped, classified, or deduplicated, and no
error is raised — the function is total). -/
theorem claim_C10_blank_rows_dropped (g : List String) (r : Row)
    (h : pyStrip r.brand_name = "" ∨ pyStrip r.generic_name = "")
    (xs ys : List Row) :
    build_brand_map g (xs ++ r :: ys) = build_brand_map g (xs ++ ys) := by
  unfold build_brand_map
  exact buildGo_skips_blank g r h xs ys []

theorem claim_C10_blank_rows_dropped_witness :
    build_brand_map []
      [⟨"Amoxil", "Amoxicillin", "Capsule", "500mg", "R-1"⟩,
       ⟨"   ", "Paracetamol", "Tablet", "500mg", "R-2"⟩] =
    build_brand_map [] [⟨"Amoxil", "Amoxicillin", "Capsule", "500mg", "R-1"⟩] :=
  claim_C10_blank_rows_dropped [] ⟨"   ", "Paracetamol", "Tablet", "500mg", "R-2"⟩
    (by decide) [⟨"Amoxil", "Amoxicillin", "Capsule", "500mg", "R-1"⟩] []

/-! ## Claim C2 -/

theorem formWordsFact : ∀ f ∈ FORM_WORDS, strLower f = f ∧
    ∃ v, FORM_TO_ROUTE_SCRIPTS.lookup f = some v ∧ v ≠ "" ∧ strLower v = v := by decide

theorem infer_route_shape (df : String) :
    ((infer_form_and_route df).1 = none → (infer_form_and_route df).2 = none) ∧
    (∀ f, (infer_form_and_route df).1 = some f →
      f ∈ FORM_WORDS ∧ (infer_form_and_route df).2 = FORM_TO_ROUTE_SCRIPTS.lookup f) := by
  unfold infer_form_and_route
  by_cases h : pyStrip df = ""
  · rw [if_pos h]
    exact ⟨fun _ => rfl, fun f hf => Option.noConfusion hf⟩
  · rw [if_neg h]
    cases hp : parse_form_from_text (normalize_text_scripts df) with
    | none =>
      exact ⟨fun _ => rfl, fun f hf => Option.noConfusion hf⟩
    | some f0 =>
      refine ⟨fun hc => Option.noConfusion hc, fun f hf => ?_⟩
      have hf0 : f0 = f := Option.some.inj hf
      subst hf0
      exact ⟨List.mem_of_find?_eq_some hp, rfl⟩

theorem strLowerEmpty : strLower "" = "" := rfl

theorem outTuple_eq_rowKey_eq (g : List String) (r1 r2 : Row)
    (h : outTuple (rowRec g r1) = outTuple (rowRec g r2)) :
    rowKey g r1 = rowKey g r2 := by
  have sh1 := infer_route_shape (pyStrip r1.dosage_form)
  have sh2 := infer_route_shape (pyStrip r2.dosage_form)
  unfold outTuple rowRec at h
  unfold rowKey
  simp only [Prod.mk.injEq] at h ⊢
  obtain ⟨hb, hg, hdf, hrt, hds⟩ := h
  refine ⟨hb, hg, ?_, hrt, hds⟩
  cases hf1 : (infer_form_and_route (pyStrip r1.dosage_form)).1 with
  | none =>
    cases hf2 : (infer_form_and_route (pyStrip r2.dosage_form)).1 with
    | none => rfl
    | some f2 =>
      exfalso
      obtain ⟨hmem2, hrt2⟩ := sh2.2 f2 hf2
      obtain ⟨hlow2, v2, hv2, hv2ne, hv2low⟩ := formWordsFact f2 hmem2
      have hnone1 : (infer_form_and_route (pyStrip r1.dosage_form)).2 = none := sh1.1 hf1
      rw [hnone1, hrt2, hv2] at hrt
      simp only [Option.getD_some, Option.getD_none] at hrt
      exact hv2ne (by rw [← hv2low, ← hrt, strLowerEmpty])
  | some f1 =>
    obtain ⟨hmem1, hrt1⟩ := sh1.2 f1 hf1
    obtain ⟨hlow1, v1, hv1, hv1ne, hv1low⟩ := formWordsFact f1 hmem1
    cases hf2 : (infer_form_and_route (pyStrip r2.dosage_form)).1 with
    | none =>
      exfalso
      have hnone2 : (infer_form_and_route (pyStrip r2.dosage_form)).2 = none := sh2.1 hf2
      rw [hnone2, hrt1, hv1] at hrt
      simp only [Option.getD_some, Option.getD_none] at hrt
      exact hv1ne (by rw [← hv1low, hrt, strLowerEmpty])
    | some f2 =>
      obtain ⟨hmem2, hrt2⟩ := sh2.2 f2 hf2
      obtain ⟨hlow2, v2, hv2, hv2ne, hv2low⟩ := formWordsFact f2 hmem2
      rw [hf1, hf2] at hdf
      simp only [Option.getD_some] at hdf ⊢
      rw [hlow1, hlow2] at hdf
      rw [hdf]

theorem buildGo_mem (g : List String) :
    ∀ (rows : List Row) (seen : List DedupKey) (o : OutRec), o ∈ buildGo g seen rows →
      ∃ r, r ∈ rows ∧ eligibleRow r ∧ o = rowRec g r ∧ rowKey g r ∉ seen := by
  intro rows
  induction rows with
  | nil => intro seen o ho; simp [buildGo] at ho
  | cons r rs ih =>
    intro seen o ho
    rw [buildGo] at ho
    by_cases he : eligibleRow r
    · rw [if_pos he] at ho
      by_cases hk : rowKey g r ∈ seen
      · rw [if_pos hk] at ho
        obtain ⟨r', hr', he', ho', hk'⟩ := ih seen o ho
        exact ⟨r', List.mem_cons_of_mem _ hr', he', ho', hk'⟩
      · rw [if_neg hk] at ho
        rcases List.mem_cons.mp ho with ho | ho
        · exact ⟨r, List.mem_cons_self _ _, he, ho, hk⟩
        · obtain ⟨r', hr', he', ho', hk'⟩ := ih _ o ho
          exact ⟨r', List.mem_cons_of_mem _ hr', he', ho',
            fun hmem => hk' (List.mem_cons_of_mem _ hmem)⟩
    · rw [if_neg he] at ho
      obtain ⟨r', hr', he', ho', hk'⟩ := ih seen o ho
      exact ⟨r', List.mem_cons_of_mem _ hr', he', ho', hk'⟩

theorem buildGo_pairwise (g : List String) :
    ∀ (rows : List Row) (seen : List DedupKey),
      (buildGo g seen rows).Pairwise (fun a b => outTuple a ≠ outTuple b) := by
  intro rows
  induction rows with
  | nil => intro seen; simp [buildGo]
  | cons r rs ih =>
    intro seen
    rw [buildGo]
    by_cases he : eligibleRow r
    · rw [if_pos he]
      by_cases hk : rowKey g r ∈ seen
      · rw [if_pos hk]; exact ih seen
      · rw [if_neg hk]
        refine List.Pairwise.cons ?_ (ih _)
        intro b hb heq
        obtain ⟨r', _, _, hb', hk'⟩ := buildGo_mem g rs _ b hb
        apply hk'
        rw [hb'] at heq
        have := outTuple_eq_rowKey_eq g r r' heq
        rw [← this]
        exact List.mem_cons_self _ _
    · rw [if_neg he]; exact ih seen

/-- C2: the output of `build_brand_map` is deduplicated by the
case-normalized output tuple, first occurrence wins: no two emitted records
share the tuple, and of two rows yielding the same tuple (for instance two
rows identical except for case in the brand name) only the earlier row's
full record is emitted. -/
theorem claim_C2_dedup_case_insensitive_first_wins (generics : List String) :
    (∀ rows : List Row,
      (build_brand_map generics rows).Pairwise (fun a b => outTuple a ≠ outTuple b)) ∧
    (∀ r1 r2 : Row, eligibleRow r1 → eligibleRow r2 →
      outTuple (rowRec generics r1) = outTuple (rowRec generics r2) →
      build_brand_map generics [r1, r2] = [rowRec generics r1]) := by
  constructor
  · intro rows
    unfold build_brand_map
    exact buildGo_pairwise generics rows []
  · intro r1 r2 h1 h2 ht
    have hkey := outTuple_eq_rowKey_eq generics r1 r2 ht
    unfold build_brand_map
    rw [buildGo, if_pos h1, if_neg (List.not_mem_nil _)]
    rw [buildGo, if_pos h2, if_pos (by rw [← hkey]; exact List.mem_cons_self _ _)]
    rfl

/-- Two catalog rows identical except for the case of the brand name. -/
def rowAmoxil1 : Row := ⟨"Amoxil", "Amoxicillin", "Capsule", "500mg", "R-1"⟩

/-- The second copy, with the brand name upper-cased and another
registration number. -/
def rowAmoxil2 : Row := ⟨"AMOXIL", "Amoxicillin", "Capsule", "500mg", "R-2"⟩

theorem claim_C2_dedup_case_insensitive_first_wins_witness :
    build_brand_map [] [rowAmoxil1, rowAmoxil2] = [rowRec [] rowAmoxil1] :=
  (claim_C2_dedup_case_insensitive_first_wins []).2 rowAmoxil1 rowAmoxil2
    (by decide) (by decide) (by decide)

/-! ### Split/join infrastructure -/

/-- `consHead` never returns the empty list of parts. -/
theorem consHead_ne_nil (c : Char) (parts : List (List Char)) : consHead c parts ≠ [] := by
  cases parts <;> simp [consHead]

/-- `splitGo` never returns the empty list of parts. -/
theorem splitGo_ne_nil (q : List Char) : ∀ n s, splitGo q n s ≠ []
  | _, [] => by simp [splitGo]
  | n + 1, _ :: s => splitGo_ne_nil q n s
  | 0, c :: s => by
    unfold splitGo
    split
    · simp
    · exact consHead_ne_nil c _

/-- `splitOnL` never returns the empty list of parts. -/
theorem splitOnL_ne_nil (q s : List Char) : splitOnL q s ≠ [] := splitGo_ne_nil q 0 s

/-- Joining after `consHead` prepends the character to the joined string. -/
theorem interJoin_consHead (r : List Char) (c : Char) (parts : List (List Char))
    (h : parts ≠ []) : interJoin r (consHead c parts) = c :: interJoin r parts := by
  match parts with
  | [] => exact absurd rfl h
  | [a] => rfl
  | a :: b :: t => rfl

/-- Unfolding of `interJoin` at a cons with a non-empty tail. -/
theorem interJoin_cons (r : List Char) (a : List Char) (l : List (List Char)) (h : l ≠ []) :
    interJoin r (a :: l) = a ++ r ++ interJoin r l := by
  match l with
  | [] => exact absurd rfl h
  | b :: t => rfl

/-- `splitGo` with a pending skip counter equals the scan of the dropped
remainder. -/
theorem splitGo_skip (q : List Char) : ∀ n s, splitGo q n s = splitGo q 0 (s.drop n)
  | 0, s => by simp
  | n + 1, [] => by simp [splitGo]
  | n + 1, c :: s => by
    show splitGo q n s = _
    rw [splitGo_skip q n s]
    rfl

/-- Unfolding equation of the split scanner at skip state zero. -/
theorem splitGo_zero_cons (q : List Char) (c : Char) (s : List Char) :
    splitGo q 0 (c :: s) =
      if q.isPrefixOf (c :: s) then [] :: splitGo q (q.length - 1) s
      else consHead c (splitGo q 0 s) := rfl

/-- Equation for `splitOnL` at a match site. -/
theorem splitOnL_match (q : List Char) (hq : q ≠ []) (c : Char) (s : List Char)
    (hpre : q.isPrefixOf (c :: s)) :
    splitOnL q (c :: s) = [] :: splitOnL q ((c :: s).drop q.length) := by
  show splitGo q 0 (c :: s) = _
  rw [splitGo_zero_cons, if_pos hpre, splitGo_skip]
  match q with
  | [] => exact absurd rfl hq
  | d :: q' => rfl

/-- Equation for `splitOnL` at a non-match site. -/
theorem splitOnL_nomatch (q : List Char) (c : Char) (s : List Char)
    (h : ¬ q.isPrefixOf (c :: s)) :
    splitOnL q (c :: s) = consHead c (splitOnL q s) := by
  show splitGo q 0 (c :: s) = _
  rw [splitGo_zero_cons, if_neg h]
  rfl

/-- Joining the parts of a split with the pattern itself reconstructs the
input. -/
theorem splitOnL_recon_aux (q : List Char) (hq : q ≠ []) :
    ∀ n s, s.length ≤ n → interJoin q (splitOnL q s) = s := by
  intro n
  induction n with
  | zero =>
    intro s hs
    have : s = [] := List.eq_nil_of_length_eq_zero (Nat.le_zero.mp hs)
    subst this
    rfl
  | succ n ih =>
    intro s hs
    match s with
    | [] => rfl
    | c :: s' =>
      by_cases h : q.isPrefixOf (c :: s')
      · rw [splitOnL_match q hq c s' h]
        rw [interJoin_cons q [] _ (splitOnL_ne_nil q _)]
        have hq1 : 1 ≤ q.length := by
          cases q with
          | nil => exact absurd rfl hq
          | cons d q' => simp
        have hlen : ((c :: s').drop q.length).length ≤ n := by
          rw [List.length_drop]
          simp only [List.length_cons] at hs ⊢
          omega
        rw [ih _ hlen]
        have hpre : q <+: (c :: s') := List.isPrefixOf_iff_prefix.mp h
        obtain ⟨t, ht⟩ := hpre
        have hdrop : (c :: s').drop q.length = t := by
          rw [← ht]
          simp
        rw [hdrop]
        simpa using ht
      · rw [splitOnL_nomatch q c s' h]
        rw [interJoin_consHead q c _ (splitOnL_ne_nil q s')]
        have : s'.length ≤ n := by
          simp only [List.length_cons] at hs
          omega
        rw [ih s' this]

/-- Joining the parts of a split with the pattern reconstructs the input. -/
theorem splitOnL_recon (q : List Char) (hq : q ≠ []) (s : List Char) :
    interJoin q (splitOnL q s) = s :=
  splitOnL_recon_aux q hq s.length s le_rfl

/-! ### Occurrence decomposition lemmas -/

/-- An infix occurrence in an append lies in the left part, the right part,
or crosses the junction. -/
theorem infix_append_split {p a b : List Char} (h : p <:+: a ++ b) :
    p <:+: a ∨ p <:+: b ∨
      ∃ t u, p = t ++ u ∧ t ≠ [] ∧ u ≠ [] ∧ t <:+ a ∧ u <+: b := by
  obtain ⟨A, B, hAB⟩ := h
  have h1 : (A ++ p) ++ B = a ++ b := by simpa [List.append_assoc] using hAB
  rcases List.append_eq_append_iff.mp h1 with ⟨w, hw1, hw2⟩ | ⟨w, hw1, hw2⟩
  · exact Or.inl ⟨A, w, by rw [hw1, List.append_assoc]⟩
  · rcases List.append_eq_append_iff.mp hw1 with ⟨u, hu1, hu2⟩ | ⟨u, hu1, hu2⟩
    · match u with
      | [] =>
        refine Or.inr (Or.inl ⟨[], B, ?_⟩)
        simp only [List.nil_append] at hu2 ⊢
        rw [hw2, ← hu2]
      | u₀ :: u' =>
        match hww : w with
        | [] =>
          refine Or.inl ⟨A, [], ?_⟩
          subst hww
          simp only [List.append_nil] at hu2 ⊢
          rw [hu1, hu2]
        | w₀ :: w' =>
          subst hww
          exact Or.inr (Or.inr ⟨u₀ :: u', w₀ :: w', hu2, by simp, by simp,
            ⟨A, hu1.symm⟩, ⟨B, hw2.symm⟩⟩)
    · exact Or.inr (Or.inl ⟨u, B, by rw [hw2, hu2, List.append_assoc]⟩)

/-- An infix occurrence in a cons is a prefix occurrence or lies in the
tail. -/
theorem infix_cons_split {p : List Char} {c : Char} {l : List Char}
    (h : p <:+: c :: l) : p <+: c :: l ∨ p <:+: l := by
  obtain ⟨A, B, hAB⟩ := h
  match A with
  | [] => exact Or.inl ⟨B, by simpa using hAB⟩
  | d :: A' =>
    refine Or.inr ⟨A', B, ?_⟩
    simpa using congrArg List.tail hAB

/-- Two prefixes of a common list are comparable. -/
theorem prefix_append_or {u r x : List Char} (h : u <+: r ++ x) :
    u <+: r ∨ r <+: u := by
  obtain ⟨t, ht⟩ := h
  rcases List.append_eq_append_iff.mp ht with ⟨w, hw1, hw2⟩ | ⟨w, hw1, hw2⟩
  · exact Or.inl ⟨w, hw1.symm⟩
  · exact Or.inr ⟨w, hw1.symm⟩

/-- The join of parts around a distinguished part: the surrounding strings
end (begin) with the separator when parts precede (follow). -/
theorem interJoin_middle (r : List Char) (partsL : List (List Char))
    (part : List Char) (partsR : List (List Char)) :
    ∃ X Y, interJoin r (partsL ++ part :: partsR) = X ++ part ++ Y ∧
      (partsL = [] → X = []) ∧ (partsL ≠ [] → ∃ X₀, X = X₀ ++ r) ∧
      (partsR = [] → Y = []) ∧ (partsR ≠ [] → ∃ Y₀, Y = r ++ Y₀) := by
  induction partsL with
  | nil =>
    match partsR with
    | [] => exact ⟨[], [], by simp [interJoin], by simp, by simp, by simp, by simp⟩
    | b :: t =>
      refine ⟨[], r ++ interJoin r (b :: t), ?_, by simp, by simp, by simp,
        fun _ => ⟨interJoin r (b :: t), rfl⟩⟩
      rw [List.nil_append, interJoin_cons r part (b :: t) (by simp)]
      simp [List.append_assoc]
  | cons a L ihL =>
    obtain ⟨X', Y', hj, hX1, hX2, hY1, hY2⟩ := ihL
    refine ⟨a ++ r ++ X', Y', ?_, by simp, ?_, hY1, hY2⟩
    · rw [List.cons_append, interJoin_cons r a (L ++ part :: partsR) (by simp), hj]
      simp [List.append_assoc]
    · intro _
      match hL : L with
      | [] =>
        have : X' = [] := hX1 rfl
        exact ⟨a, by rw [this, List.append_nil]⟩
      | c :: L' =>
        obtain ⟨X₀, hX₀⟩ := hX2 (by simp [hL])
        exact ⟨a ++ r ++ X₀, by rw [hX₀]; simp [List.append_assoc]⟩

/-- A part of a split is an infix of the input. -/
theorem splitOnL_part_within {q s part : List Char} (hq : q ≠ [])
    (h : part ∈ splitOnL q s) : part <:+: s := by
  obtain ⟨L, R, hLR⟩ := List.append_of_mem h
  obtain ⟨X, Y, hj, -, -, -, -⟩ := interJoin_middle q L part R
  refine ⟨X, Y, ?_⟩
  rw [← hj, ← hLR, splitOnL_recon q hq s]

/-- Preservation of pattern absence through literal replacement: if no part
contains `p` and `p` cannot overlap the separator, the join avoids `p`. -/
theorem not_infix_interJoin (p r : List Char) (hp : p ≠ [])
    (h1 : ¬ p <:+: r)
    (h2 : ∀ k, k < r.length → ¬ (r.drop k <+: p))
    (h3 : ¬ r <:+: p)
    (h4 : ∀ k, 0 < k → k < p.length → ¬ (p.drop k <+: r)) :
    ∀ parts, (∀ part ∈ parts, ¬ p <:+: part) → ¬ p <:+: interJoin r parts := by
  intro parts
  induction parts with
  | nil =>
    intro _ h
    have hlen := h.length_le
    simp [interJoin] at hlen
    exact hp hlen
  | cons a l ihl =>
    intro hparts h
    match hl : l with
    | [] => exact hparts a (by simp) (by simpa [interJoin] using h)
    | b :: t =>
      rw [interJoin_cons r a (b :: t) (by simp), List.append_assoc] at h
      rcases infix_append_split h with ha | h' | ⟨t', u', hp', ht', hu', hta, hur⟩
      · exact hparts a (by simp) ha
      · rcases infix_append_split h' with hr | hj | ⟨t', u', hp', ht', hu', htr, huj⟩
        · exact h1 hr
        · exact ihl (fun part hm => hparts part (by simp [hm])) hj
        · obtain ⟨w, hw⟩ := htr
          have ht'len : 0 < t'.length := List.length_pos.mpr ht'
          have hk : w.length < r.length := by
            have hl := congrArg List.length hw
            simp only [List.length_append] at hl
            omega
          refine h2 w.length hk ?_
          have hdr : r.drop w.length = t' := by rw [← hw, List.drop_left]
          rw [hdr, hp']
          exact ⟨u', rfl⟩
      · rcases prefix_append_or hur with hu2 | hr2
        · have hlt : 0 < t'.length := List.length_pos.mpr ht'
          have hu'len : 0 < u'.length := List.length_pos.mpr hu'
          have hlt2 : t'.length < p.length := by
            have hl := congrArg List.length hp'
            simp only [List.length_append] at hl
            omega
          refine h4 t'.length hlt hlt2 ?_
          have hdp : p.drop t'.length = u' := by rw [hp', List.drop_left]
          rw [hdp]
          exact hu2
        · obtain ⟨w, hw⟩ := hr2
          exact h3 ⟨t', w, by rw [hp', ← hw, List.append_assoc]⟩


/-! ### Elimination of a pattern by its own replacement step -/

/-- After replacing `p` by `r`, no suffix `p.drop j` of `p` heads the output
of the scan of `s` when `p` does not match at the corresponding position
(`p.take j ++ s` does not start with `p`). -/
theorem elim_pref (p r : List Char) (hp : p ≠ []) (hr : r ≠ [])
    (h1 : ¬ p <:+: r)
    (h2 : ∀ k, k < r.length → ¬ (r.drop k <+: p))
    (h3 : ∀ j, 0 < j → j < p.length → ¬ (r <+: p.drop j))
    (h4 : ∀ j, 0 < j → j < p.length → (p.drop j <+: r) → (p.drop j <+: p)) :
    ∀ n s, s.length ≤ n → ∀ j, j < p.length →
      ¬ p.isPrefixOf (p.take j ++ s) →
      ¬ (p.drop j <+: interJoin r (splitOnL p s)) := by
  intro n
  induction n with
  | zero =>
    intro s hs j hj _ hu
    have hnil : s = [] := List.eq_nil_of_length_eq_zero (Nat.le_zero.mp hs)
    subst hnil
    have h0 : p.drop j = [] := List.prefix_nil.mp (by simpa [interJoin] using hu)
    have := congrArg List.length h0
    simp at this
    omega
  | succ n ih =>
    intro s hs j hj hpre hu
    match s with
    | [] =>
      have h0 : p.drop j = [] := List.prefix_nil.mp (by simpa [interJoin] using hu)
      have := congrArg List.length h0
      simp at this
      omega
    | c :: s' =>
      have hs' : s'.length ≤ n := by simp at hs; omega
      by_cases hm : p.isPrefixOf (c :: s')
      · rw [splitOnL_match p hp c s' hm,
          interJoin_cons r [] _ (splitOnL_ne_nil _ _), List.nil_append] at hu
        rcases prefix_append_or hu with hur | hru
        · by_cases hj0 : j = 0
          · subst hj0
            simp only [List.drop_zero] at hur
            exact h1 hur.isInfix
          · have hdp : p.drop j <+: p := h4 j (Nat.pos_of_ne_zero hj0) hj hur
            refine hpre ?_
            rw [List.isPrefixOf_iff_prefix]
            obtain ⟨rest, hrest⟩ := List.isPrefixOf_iff_prefix.mp hm
            rw [← hrest, ← List.append_assoc]
            have htk : p.drop j = p.take (p.length - j) := by
              rw [List.prefix_iff_eq_take.mp hdp, List.length_drop]
            have hsplit : p.take j ++ p.drop j = p := List.take_append_drop j p
            obtain ⟨t, ht⟩ := List.take_prefix (p.length - j) p
            have hpp : p <+: p.take j ++ p := by
              refine ⟨t, ?_⟩
              calc p ++ t = (p.take j ++ p.drop j) ++ t := by rw [hsplit]
                _ = p.take j ++ (p.take (p.length - j) ++ t) := by
                    rw [htk, List.append_assoc]
                _ = p.take j ++ p := by rw [ht]
            exact hpp.trans (List.prefix_append _ rest)
        · by_cases hj0 : j = 0
          · subst hj0
            simp only [List.drop_zero] at hru
            exact h2 0 (List.length_pos.mpr hr) (by simpa using hru)
          · exact h3 j (Nat.pos_of_ne_zero hj0) hj hru
      · rw [splitOnL_nomatch p c s' hm,
          interJoin_consHead r c _ (splitOnL_ne_nil _ _)] at hu
        have hdj : p.drop j = p[j] :: p.drop (j + 1) := List.drop_eq_getElem_cons hj
        rw [hdj] at hu
        obtain ⟨hc, hu'⟩ := List.cons_prefix_cons.mp hu
        have hkey : p.take (j + 1) ++ s' = p.take j ++ (c :: s') := by
          rw [List.take_succ, List.getElem?_eq_getElem hj]
          simp [hc]
        by_cases hj1 : j + 1 < p.length
        · refine ih s' hs' (j + 1) hj1 ?_ hu'
          rw [hkey]
          exact hpre
        · have hj1' : p.length = j + 1 := by omega
          refine hpre ?_
          rw [List.isPrefixOf_iff_prefix, ← hkey, ← hj1', List.take_length]
          exact List.prefix_append p s'

/-- Replacing `p` by `r` eliminates every occurrence of `p` when `r` cannot
recreate one: `p` is not inside `r`, no non-empty suffix of `r` starts `p`,
`r` is not embedded in `p` at a positive offset, and any suffix of `p` that
starts `r` also starts `p` (periodicity escape). -/
theorem elim_main (p r : List Char) (hp : p ≠ []) (hr : r ≠ [])
    (h1 : ¬ p <:+: r)
    (h2 : ∀ k, k < r.length → ¬ (r.drop k <+: p))
    (h3 : ∀ j, 0 < j → j < p.length → ¬ (r <+: p.drop j))
    (h4 : ∀ j, 0 < j → j < p.length → (p.drop j <+: r) → (p.drop j <+: p)) :
    ∀ n s, s.length ≤ n → ¬ p <:+: interJoin r (splitOnL p s) := by
  intro n
  induction n with
  | zero =>
    intro s hs h
    have hnil : s = [] := List.eq_nil_of_length_eq_zero (Nat.le_zero.mp hs)
    subst hnil
    exact hp (List.infix_nil.mp (by simpa [interJoin] using h))
  | succ n ih =>
    intro s hs h
    match s with
    | [] => exact hp (List.infix_nil.mp (by simpa [interJoin] using h))
    | c :: s' =>
      have hs' : s'.length ≤ n := by simp at hs; omega
      by_cases hm : p.isPrefixOf (c :: s')
      · rw [splitOnL_match p hp c s' hm,
          interJoin_cons r [] _ (splitOnL_ne_nil _ _), List.nil_append] at h
        rcases infix_append_split h with h' | h' | ⟨t', u', hp', ht', hu', htr, huj⟩
        · exact h1 h'
        · have hlen : ((c :: s').drop p.length).length ≤ n := by
            have hp1 : 1 ≤ p.length := List.length_pos.mpr hp
            have hd : ((c :: s').drop p.length).length = (c :: s').length - p.length :=
              List.length_drop _ _
            have hc : (c :: s').length = s'.length + 1 := by simp
            omega
          exact ih _ hlen h'
        · obtain ⟨w, hw⟩ := htr
          have ht'len : 0 < t'.length := List.length_pos.mpr ht'
          have hk : w.length < r.length := by
            have hl := congrArg List.length hw
            simp only [List.length_append] at hl
            omega
          refine h2 w.length hk ?_
          have hdr : r.drop w.length = t' := by rw [← hw, List.drop_left]
          rw [hdr, hp']
          exact ⟨u', rfl⟩
      · have hout : interJoin r (splitOnL p (c :: s')) =
            c :: interJoin r (splitOnL p s') := by
          rw [splitOnL_nomatch p c s' hm,
            interJoin_consHead r c _ (splitOnL_ne_nil _ _)]
        rw [hout] at h
        rcases infix_cons_split h with h' | h'
        · have helim := elim_pref p r hp hr h1 h2 h3 h4 (c :: s').length (c :: s')
            le_rfl 0 (List.length_pos.mpr hp) (by simpa using hm)
          rw [hout] at helim
          exact helim (by simpa using h')
        · exact ih s' hs' h'

/-- `rAll p r` eliminates `p` under the non-recreation side conditions. -/
theorem rAll_elim (p r : List Char) (hp : p ≠ []) (hr : r ≠ [])
    (h1 : ¬ p <:+: r)
    (h2 : ∀ k, k < r.length → ¬ (r.drop k <+: p))
    (h3 : ∀ j, 0 < j → j < p.length → ¬ (r <+: p.drop j))
    (h4 : ∀ j, 0 < j → j < p.length → (p.drop j <+: r) → (p.drop j <+: p))
    (s : List Char) : ¬ p <:+: rAll p r s := by
  unfold rAll
  rw [if_neg (by simpa [List.isEmpty_iff] using hp)]
  exact elim_main p r hp hr h1 h2 h3 h4 s.length s le_rfl

/-- `rAll q r` preserves the absence of an unrelated pattern `p` when `p`
cannot overlap the replacement string `r`. -/
theorem rAll_pres (p q r : List Char) (hp : p ≠ []) (hq : q ≠ [])
    (h1 : ¬ p <:+: r)
    (h2 : ∀ k, k < r.length → ¬ (r.drop k <+: p))
    (h3 : ¬ r <:+: p)
    (h4 : ∀ k, 0 < k → k < p.length → ¬ (p.drop k <+: r))
    (s : List Char) (hs : ¬ p <:+: s) : ¬ p <:+: rAll q r s := by
  unfold rAll
  rw [if_neg (by simpa [List.isEmpty_iff] using hq)]
  refine not_infix_interJoin p r hp h1 h2 h3 h4 _ ?_
  intro part hmem hinf
  exact hs (hinf.trans (splitOnL_part_within hq hmem))

/-- When `p` does not occur in `s`, the split is trivial. -/
theorem splitOnL_of_not_infix (p : List Char) :
    ∀ s, ¬ p <:+: s → splitOnL p s = [s] := by
  intro s
  induction s with
  | nil => intro _; rfl
  | cons c s' ihs =>
    intro hni
    have hm : ¬ p.isPrefixOf (c :: s') := by
      intro h
      exact hni (List.isPrefixOf_iff_prefix.mp h).isInfix
    rw [splitOnL_nomatch p c s' hm, ihs (fun h => hni (h.trans ⟨[c], [], by simp⟩))]
    rfl

/-- `rAll q r` is the identity when `q` does not occur. -/
theorem rAll_id (q r s : List Char) (hq : q ≠ []) (hni : ¬ q <:+: s) :
    rAll q r s = s := by
  unfold rAll
  rw [if_neg (by simpa [List.isEmpty_iff] using hq), splitOnL_of_not_infix q s hni]
  rfl

/-! ### Decomposition of a two-character occurrence in a join -/

/-- Where a two-character occurrence `a :: b :: _` can sit inside
`interJoin r parts`: inside a part (with the surrounding context exposed),
inside the separator, at a part-separator junction, at a separator-part
junction, or at a separator-separator junction. -/
def OccCases (r : List Char) (a b : Char) (parts : List (List Char))
    (A B : List Char) : Prop :=
  (∃ partsL part partsR pre post, parts = partsL ++ part :: partsR ∧
     part = pre ++ a :: b :: post ∧
     (partsL = [] → A = pre) ∧ (partsL ≠ [] → ∃ A₀, A = A₀ ++ r ++ pre) ∧
     (partsR = [] → B = post) ∧ (partsR ≠ [] → ∃ B₀, B = post ++ r ++ B₀)) ∨
  (∃ rL rR, r = rL ++ a :: b :: rR) ∨
  (∃ partsL part partsR pre, parts = partsL ++ part :: partsR ∧ partsR ≠ [] ∧
     part = pre ++ [a] ∧ r.head? = some b ∧ ∃ B₀, B = r.tail ++ B₀) ∨
  (∃ partsL part partsR post, parts = partsL ++ part :: partsR ∧ partsL ≠ [] ∧
     part = b :: post ∧ r.getLast? = some a ∧ ∃ A₀, A = A₀ ++ r.dropLast) ∨
  (r.getLast? = some a ∧ r.head? = some b ∧
     (∃ A₀, A = A₀ ++ r.dropLast) ∧ ∃ B₀, B = r.tail ++ B₀)

/-- Prepending one more part (and one separator) to a join preserves the
occurrence case analysis. -/
theorem occ_lift {r : List Char} {a b : Char} {x : List Char}
    {rest : List (List Char)} {A B v : List Char}
    (hA : A = x ++ r ++ v) (h : OccCases r a b rest v B) :
    OccCases r a b (x :: rest) A B := by
  rcases h with ⟨pL, pt, pR, pre, post, hparts, hpt, hA1, hA2, hB1, hB2⟩ | hII |
    ⟨pL, pt, pR, pre, hparts, hpR, hpt, hh, hB⟩ |
    ⟨pL, pt, pR, post, hparts, hpL, hpt, hl, A₀', hA'⟩ |
    ⟨hl, hh, ⟨A₀', hA'⟩, hB⟩
  · left
    refine ⟨x :: pL, pt, pR, pre, post, by simp [hparts], hpt, by simp, ?_, hB1, hB2⟩
    intro _
    rcases eq_or_ne pL [] with hpL | hpL
    · exact ⟨x, by rw [hA, hA1 hpL]⟩
    · obtain ⟨A₀, hA₀⟩ := hA2 hpL
      exact ⟨x ++ r ++ A₀, by rw [hA, hA₀]; simp [List.append_assoc]⟩
  · exact Or.inr (Or.inl hII)
  · exact Or.inr (Or.inr (Or.inl
      ⟨x :: pL, pt, pR, pre, by simp [hparts], hpR, hpt, hh, hB⟩))
  · exact Or.inr (Or.inr (Or.inr (Or.inl
      ⟨x :: pL, pt, pR, post, by simp [hparts], by simp, hpt, hl,
        ⟨x ++ r ++ A₀', by rw [hA, hA']; simp [List.append_assoc]⟩⟩)))
  · exact Or.inr (Or.inr (Or.inr (Or.inr
      ⟨hl, hh, ⟨x ++ r ++ A₀', by rw [hA, hA']; simp [List.append_assoc]⟩, hB⟩)))

/-- An occurrence whose first character closes the separator after the head
part: the remaining join starts with the second character. -/
theorem occ_head {r : List Char} {a b : Char} (x : List Char)
    (rest : List (List Char)) (hrest : rest ≠ []) {A B : List Char}
    (hlast : r.getLast? = some a) (hAx : A = x ++ r.dropLast)
    (hJ : interJoin r rest = b :: B) : OccCases r a b (x :: rest) A B := by
  match rest with
  | [] => exact absurd rfl hrest
  | part₁ :: rest' =>
    match part₁, rest' with
    | [], [] => simp [interJoin] at hJ
    | [], r' :: rest'' =>
      rw [interJoin_cons r [] _ (by simp), List.nil_append] at hJ
      match hrr : r with
      | [] => simp at hlast
      | r₀ :: rt =>
        rw [List.cons_append] at hJ
        injection hJ with hb hB'
        refine Or.inr (Or.inr (Or.inr (Or.inr ⟨hlast, by simp [hb], ⟨x, hAx⟩,
          ⟨interJoin (r₀ :: rt) (r' :: rest''), ?_⟩⟩)))
        simpa using hB'.symm
    | p₀ :: post₁, [] =>
      have hJ' : p₀ :: post₁ = b :: B := hJ
      injection hJ' with hb hB'
      exact Or.inr (Or.inr (Or.inr (Or.inl ⟨[x], p₀ :: post₁, [], post₁, rfl,
        by simp, by rw [hb], hlast, ⟨x, hAx⟩⟩)))
    | p₀ :: post₁, r' :: rest'' =>
      rw [interJoin_cons r _ _ (by simp), List.cons_append] at hJ
      injection hJ with hb hB'
      exact Or.inr (Or.inr (Or.inr (Or.inl ⟨[x], p₀ :: post₁, r' :: rest'', post₁,
        rfl, by simp, by rw [hb], hlast, ⟨x, hAx⟩⟩)))

/-- Full case analysis for a two-character occurrence in a join. -/
theorem interJoin_occ_two (r : List Char) (hr : r ≠ []) (a b : Char) :
    ∀ parts, parts ≠ [] → ∀ A B, interJoin r parts = A ++ a :: b :: B →
      OccCases r a b parts A B := by
  intro parts
  induction parts with
  | nil => intro h; exact absurd rfl h
  | cons x rest ih =>
    intro _ A B hj
    cases rest with
    | nil =>
      left
      exact ⟨[], x, [], A, B, rfl, by simpa [interJoin] using hj, fun _ => rfl,
        by simp, fun _ => rfl, by simp⟩
    | cons x₁ rest₁ =>
      rw [interJoin_cons r x (x₁ :: rest₁) (by simp), List.append_assoc] at hj
      rcases List.append_eq_append_iff.mp hj with ⟨w, hw1, hw2⟩ | ⟨w, hw1, hw2⟩
      · rcases List.append_eq_append_iff.mp hw2 with ⟨v, hv1, hv2⟩ | ⟨v, hv1, hv2⟩
        · exact occ_lift (by rw [hw1, hv1, ← List.append_assoc])
            (ih (by simp) v B hv2)
        · match v, hv1, hv2 with
          | [], hv1, hv2 =>
            refine occ_lift (v := []) ?_ (ih (by simp) [] B (by simpa using hv2.symm))
            rw [hw1, hv1]
            simp
          | [a'], hv1, hv2 =>
            simp only [List.cons_append, List.nil_append] at hv2
            injection hv2 with ha hJ
            refine occ_head x (x₁ :: rest₁) (by simp) ?_ ?_ hJ.symm
            · rw [hv1, ← ha, List.getLast?_concat]
            · rw [hw1, hv1, ← ha, List.dropLast_concat]
          | a' :: b' :: v', hv1, hv2 =>
            simp only [List.cons_append] at hv2
            injection hv2 with ha hv2'
            injection hv2' with hb hv2''
            exact Or.inr (Or.inl ⟨w, v', by rw [hv1, ha, hb]⟩)
      · match w, hw1, hw2 with
        | [], hw1, hw2 =>
          simp only [List.nil_append] at hw2
          match hrr : r, hw2 with
          | [], hw2 => exact absurd rfl hr
          | [r₀], hw2 =>
            simp only [List.cons_append, List.nil_append] at hw2
            injection hw2 with ha hJ
            refine occ_head x (x₁ :: rest₁) (by simp) ?_ ?_ hJ.symm
            · simp [ha]
            · rw [hw1]; simp
          | r₀ :: r₁ :: rt, hw2 =>
            simp only [List.cons_append] at hw2
            injection hw2 with ha hw2'
            injection hw2' with hb hw2''
            exact Or.inr (Or.inl ⟨[], rt, by simp [ha, hb]⟩)
        | [c₁], hw1, hw2 =>
          simp only [List.cons_append, List.nil_append] at hw2
          injection hw2 with ha hw2'
          match hrr : r, hw2' with
          | [], _ => exact absurd rfl hr
          | r₀ :: rt, hw2' =>
            simp only [List.cons_append] at hw2'
            injection hw2' with hb hB'
            refine Or.inr (Or.inr (Or.inl ⟨[], x, x₁ :: rest₁, A, rfl, by simp,
              by rw [hw1, ha], by simp [hb],
              ⟨interJoin (r₀ :: rt) (x₁ :: rest₁), ?_⟩⟩))
            simpa using hB'
        | c₁ :: c₂ :: w', hw1, hw2 =>
          simp only [List.cons_append] at hw2
          injection hw2 with ha hw2'
          injection hw2' with hb hw2''
          refine Or.inl ⟨[], x, x₁ :: rest₁, A, w', rfl, by rw [hw1, ha, hb], fun _ => rfl,
            by simp, by simp, fun _ => ⟨interJoin r (x₁ :: rest₁), by
              rw [hw2'']; simp [List.append_assoc]⟩⟩

/-! ### Part contexts: each part sits in the input with known neighbours -/

/-- Strict part context: each part of `parts` occurs in `s` at its scan
position; text before it is empty iff it is the first part and otherwise
ends with an `eL` character, text after it is empty iff it is the last part
and otherwise starts with an `eR` character. -/
def PartsCtx (eL eR : Char → Bool) (s : List Char)
    (parts : List (List Char)) : Prop :=
  ∀ partsL part partsR, parts = partsL ++ part :: partsR →
    ∃ X Y, s = X ++ part ++ Y ∧
      (partsL = [] → X = []) ∧
      (partsL ≠ [] → ∃ X₀ c, X = X₀ ++ [c] ∧ eL c = true) ∧
      (partsR = [] → Y = []) ∧
      (partsR ≠ [] → ∃ c Y₀, Y = c :: Y₀ ∧ eR c = true)

/-- Weak part context: surrounding text is empty or delimited by `eL`/`eR`
characters (used for the scanners that absorb separator runs). -/
def PartsCtxW (eL eR : Char → Bool) (s : List Char)
    (parts : List (List Char)) : Prop :=
  ∀ partsL part partsR, parts = partsL ++ part :: partsR →
    ∃ X Y, s = X ++ part ++ Y ∧
      (X = [] ∨ ∃ X₀ c, X = X₀ ++ [c] ∧ eL c = true) ∧
      (Y = [] ∨ ∃ c Y₀, Y = c :: Y₀ ∧ eR c = true)

/-- A decomposition of a singleton list of parts. -/
theorem singleton_decomp {α : Type} {x part : α} {partsL partsR : List α}
    (h : [x] = partsL ++ part :: partsR) :
    partsL = [] ∧ part = x ∧ partsR = [] := by
  match partsL, h with
  | [], h =>
    injection h with h1 h2
    exact ⟨rfl, h1.symm, h2.symm⟩
  | y :: l, h =>
    injection h with h1 h2
    have hlen := congrArg List.length h2
    simp at hlen
    omega

/-- A decomposition of a cons list of parts. -/
theorem cons_decomp {α : Type} {y part : α} {parts' partsL partsR : List α}
    (h : y :: parts' = partsL ++ part :: partsR) :
    (partsL = [] ∧ part = y ∧ partsR = parts') ∨
    (∃ partsL', partsL = y :: partsL' ∧ parts' = partsL' ++ part :: partsR) := by
  match partsL, h with
  | [], h =>
    injection h with h1 h2
    exact Or.inl ⟨rfl, h1.symm, h2.symm⟩
  | z :: l, h =>
    injection h with h1 h2
    exact Or.inr ⟨l, by rw [h1], h2⟩

/-- A decomposition of `consHead c parts` for non-empty `parts`. -/
theorem consHead_decomp {c : Char} {parts : List (List Char)}
    {partsL partsR : List (List Char)} {part : List Char}
    (hne : parts ≠ []) (h : consHead c parts = partsL ++ part :: partsR) :
    (partsL = [] ∧ ∃ part₀, part = c :: part₀ ∧ parts = part₀ :: partsR) ∨
    (∃ h₁ t₁ partsL', parts = h₁ :: t₁ ∧ partsL = (c :: h₁) :: partsL' ∧
       t₁ = partsL' ++ part :: partsR) := by
  match parts, hne with
  | h₁ :: t₁, _ =>
    rcases cons_decomp (h : (c :: h₁) :: t₁ = _) with ⟨hL, hp, hR⟩ | ⟨partsL', hL, hR⟩
    · exact Or.inl ⟨hL, h₁, hp, by rw [hR]⟩
    · exact Or.inr ⟨h₁, t₁, partsL', rfl, hL, hR⟩

/-- The scanners produce at least one part. -/
theorem ivSplit_ne_nil : ∀ (pW : Bool) (s : List Char), ivSplit pW s ≠ []
  | pW, c1 :: c2 :: rest => by
    unfold ivSplit
    split
    · simp
    · exact consHead_ne_nil c1 _
  | _, [c] => by simp [ivSplit]
  | _, [] => by simp [ivSplit]

/-- The `cc` scanner produces at least one part. -/
theorem ccSplit_ne_nil : ∀ (pAz : Bool) (s : List Char), ccSplit pAz s ≠ []
  | pAz, c1 :: c2 :: rest => by
    unfold ccSplit
    split
    · simp
    · exact consHead_ne_nil c1 _
  | _, [c] => by simp [ccSplit]
  | _, [] => by simp [ccSplit]

/-- The `gm` scanner produces at least one part. -/
theorem gmSplit_ne_nil : ∀ (pAz : Bool) (s : List Char), gmSplit pAz s ≠ []
  | pAz, c1 :: c2 :: c3 :: rest => by
    unfold gmSplit
    split
    · simp
    · split
      · simp
      · exact consHead_ne_nil c1 _
  | pAz, [c1, c2] => by
    unfold gmSplit
    split
    · simp
    · exact consHead_ne_nil c1 _
  | _, [c] => by simp [gmSplit]
  | _, [] => by simp [gmSplit]

/-- The junk-run scanner produces at least one part when it starts outside a
junk run. -/
theorem filterRun_ne_nil : ∀ (b : Bool) (s : List Char), b = false → filterRun b s ≠ []
  | _, [], h => by simp [filterRun]
  | b, c :: s, h => by
    unfold filterRun
    split
    · exact consHead_ne_nil c _
    · subst h
      simp

/-- Strict part context for the literal splitter. -/
theorem partsCtx_splitOnL (q : List Char) (hq : q ≠ []) (s : List Char)
    (eL eR : Char → Bool)
    (hL : ∀ c, q.getLast? = some c → eL c = true)
    (hR : ∀ c, q.head? = some c → eR c = true) :
    PartsCtx eL eR s (splitOnL q s) := by
  intro partsL part partsR hdec
  obtain ⟨X, Y, hj, hX1, hX2, hY1, hY2⟩ := interJoin_middle q partsL part partsR
  rw [← hdec, splitOnL_recon q hq s] at hj
  refine ⟨X, Y, hj, hX1, ?_, hY1, ?_⟩
  · intro h
    obtain ⟨X₀, hX₀⟩ := hX2 h
    refine ⟨X₀ ++ q.dropLast, q.getLast hq, ?_, hL _ (List.getLast?_eq_getLast q hq)⟩
    rw [hX₀, List.append_assoc, List.dropLast_append_getLast hq]
  · intro h
    obtain ⟨Y₀, hY₀⟩ := hY2 h
    refine ⟨q.head hq, q.tail ++ Y₀, ?_, hR _ (List.head?_eq_head hq)⟩
    rw [hY₀, ← List.cons_append, List.head_cons_tail]

/-- Strict part context for the standalone-`iv` scanner: separators are the
matched `iv` occurrences. -/
theorem partsCtx_ivSplit :
    ∀ n s, List.length s ≤ n → ∀ pW,
      PartsCtx (fun c => c == 'v') (fun c => c == 'i') s (ivSplit pW s) := by
  intro n
  induction n with
  | zero =>
    intro s hs pW partsL part partsR hdec
    have hnil : s = [] := List.eq_nil_of_length_eq_zero (Nat.le_zero.mp hs)
    subst hnil
    obtain ⟨hL, hp, hR⟩ := singleton_decomp (by simpa [ivSplit] using hdec)
    subst hL; subst hR
    exact ⟨[], [], by simp [hp], fun _ => rfl, by simp, fun _ => rfl, by simp⟩
  | succ n ih =>
    intro s hs pW partsL part partsR hdec
    match s, hs with
    | [], hs =>
      obtain ⟨hL, hp, hR⟩ := singleton_decomp (by simpa [ivSplit] using hdec)
      subst hL; subst hR
      exact ⟨[], [], by simp [hp], fun _ => rfl, by simp, fun _ => rfl, by simp⟩
    | [c], hs =>
      obtain ⟨hL, hp, hR⟩ := singleton_decomp (by simpa [ivSplit] using hdec)
      subst hL; subst hR
      exact ⟨[], [], by simp [hp], fun _ => rfl, by simp, fun _ => rfl, by simp⟩
    | c1 :: c2 :: rest, hs =>
      have heq : ivSplit pW (c1 :: c2 :: rest) =
          if c1 = 'i' ∧ c2 = 'v' ∧ pW = false ∧ headSat isWordCharE rest = false
          then [] :: ivSplit true rest
          else consHead c1 (ivSplit (isWordCharE c1) (c2 :: rest)) := rfl
      have hrest : rest.length ≤ n := by simp at hs; omega
      have hrest2 : (c2 :: rest).length ≤ n := by simp at hs ⊢; omega
      by_cases hm : c1 = 'i' ∧ c2 = 'v' ∧ pW = false ∧ headSat isWordCharE rest = false
      · rw [heq, if_pos hm] at hdec
        obtain ⟨hc1, hc2, hpW, hla⟩ := hm
        rcases cons_decomp hdec with ⟨hL, hp, hR⟩ | ⟨partsL', hL, hR⟩
        · subst hL
          refine ⟨[], c1 :: c2 :: rest, by simp [hp], fun _ => rfl, by simp, ?_, ?_⟩
          · intro hR0
            exact absurd (hR.symm.trans hR0) (ivSplit_ne_nil true rest)
          · intro _
            exact ⟨'i', 'v' :: rest, by rw [hc1, hc2], by decide⟩
        · obtain ⟨X', Y', hjr, hX1, hX2, hY1, hY2⟩ :=
            ih rest hrest true partsL' part partsR hR
          refine ⟨'i' :: 'v' :: X', Y', ?_, ?_, ?_, hY1, hY2⟩
          · rw [hc1, hc2, hjr]; simp
          · intro h0; rw [hL] at h0; simp at h0
          · intro _
            rcases eq_or_ne partsL' [] with hL' | hL'
            · rw [hX1 hL']
              exact ⟨['i'], 'v', rfl, by decide⟩
            · obtain ⟨X₀, c, hX₀, hec⟩ := hX2 hL'
              exact ⟨'i' :: 'v' :: X₀, c, by rw [hX₀]; rfl, hec⟩
      · rw [heq, if_neg hm] at hdec
        rcases consHead_decomp (ivSplit_ne_nil _ _) hdec with
          ⟨hL, part₀, hp, hparts⟩ | ⟨h₁, t₁, partsL', hparts, hL, hR⟩
        · obtain ⟨X', Y', hjr, hX1, hX2, hY1, hY2⟩ :=
            ih (c2 :: rest) hrest2 (isWordCharE c1) [] part₀ partsR (by simpa using hparts)
          have hX'nil : X' = [] := hX1 rfl
          subst hL
          refine ⟨[], Y', ?_, fun _ => rfl, by simp, hY1, hY2⟩
          rw [hX'nil] at hjr
          simp only [List.nil_append] at hjr ⊢
          rw [hp, hjr]
          simp
        · obtain ⟨X', Y', hjr, hX1, hX2, hY1, hY2⟩ :=
            ih (c2 :: rest) hrest2 (isWordCharE c1) (h₁ :: partsL') part partsR
              (by rw [hparts, hR]; simp)
          refine ⟨c1 :: X', Y', by simpa using congrArg (List.cons c1) hjr, ?_, ?_,
            hY1, hY2⟩
          · intro h0; rw [hL] at h0; simp at h0
          · intro _
            obtain ⟨X₀, c, hX₀, hec⟩ := hX2 (by simp)
            exact ⟨c1 :: X₀, c, by rw [hX₀]; rfl, hec⟩

/-- Strict part context for the `cc` scanner: separators are the matched
`cc` occurrences. -/
theorem partsCtx_ccSplit :
    ∀ n s, List.length s ≤ n → ∀ pAz,
      PartsCtx (fun c => c == 'c') (fun c => c == 'c') s (ccSplit pAz s) := by
  intro n
  induction n with
  | zero =>
    intro s hs pAz partsL part partsR hdec
    have hnil : s = [] := List.eq_nil_of_length_eq_zero (Nat.le_zero.mp hs)
    subst hnil
    obtain ⟨hL, hp, hR⟩ := singleton_decomp (by simpa [ccSplit] using hdec)
    subst hL; subst hR
    exact ⟨[], [], by simp [hp], fun _ => rfl, by simp, fun _ => rfl, by simp⟩
  | succ n ih =>
    intro s hs pAz partsL part partsR hdec
    match s, hs with
    | [], hs =>
      obtain ⟨hL, hp, hR⟩ := singleton_decomp (by simpa [ccSplit] using hdec)
      subst hL; subst hR
      exact ⟨[], [], by simp [hp], fun _ => rfl, by simp, fun _ => rfl, by simp⟩
    | [c], hs =>
      obtain ⟨hL, hp, hR⟩ := singleton_decomp (by simpa [ccSplit] using hdec)
      subst hL; subst hR
      exact ⟨[], [], by simp [hp], fun _ => rfl, by simp, fun _ => rfl, by simp⟩
    | c1 :: c2 :: rest, hs =>
      have heq : ccSplit pAz (c1 :: c2 :: rest) =
          if c1 = 'c' ∧ c2 = 'c' ∧ pAz = false ∧ headSat azLower rest = false
          then [] :: ccSplit true rest
          else consHead c1 (ccSplit (azLower c1) (c2 :: rest)) := rfl
      have hrest : rest.length ≤ n := by simp at hs; omega
      have hrest2 : (c2 :: rest).length ≤ n := by simp at hs ⊢; omega
      by_cases hm : c1 = 'c' ∧ c2 = 'c' ∧ pAz = false ∧ headSat azLower rest = false
      · rw [heq, if_pos hm] at hdec
        obtain ⟨hc1, hc2, hpAz, hla⟩ := hm
        rcases cons_decomp hdec with ⟨hL, hp, hR⟩ | ⟨partsL', hL, hR⟩
        · subst hL
          refine ⟨[], c1 :: c2 :: rest, by simp [hp], fun _ => rfl, by simp, ?_, ?_⟩
          · intro hR0
            exact absurd (hR.symm.trans hR0) (ccSplit_ne_nil true rest)
          · intro _
            exact ⟨'c', 'c' :: rest, by rw [hc1, hc2], by decide⟩
        · obtain ⟨X', Y', hjr, hX1, hX2, hY1, hY2⟩ :=
            ih rest hrest true partsL' part partsR hR
          refine ⟨'c' :: 'c' :: X', Y', ?_, ?_, ?_, hY1, hY2⟩
          · rw [hc1, hc2, hjr]; simp
          · intro h0; rw [hL] at h0; simp at h0
          · intro _
            rcases eq_or_ne partsL' [] with hL' | hL'
            · rw [hX1 hL']
              exact ⟨['c'], 'c', rfl, by decide⟩
            · obtain ⟨X₀, c, hX₀, hec⟩ := hX2 hL'
              exact ⟨'c' :: 'c' :: X₀, c, by rw [hX₀]; rfl, hec⟩
      · rw [heq, if_neg hm] at hdec
        rcases consHead_decomp (ccSplit_ne_nil _ _) hdec with
          ⟨hL, part₀, hp, hparts⟩ | ⟨h₁, t₁, partsL', hparts, hL, hR⟩
        · obtain ⟨X', Y', hjr, hX1, hX2, hY1, hY2⟩ :=
            ih (c2 :: rest) hrest2 (azLower c1) [] part₀ partsR (by simpa using hparts)
          have hX'nil : X' = [] := hX1 rfl
          subst hL
          refine ⟨[], Y', ?_, fun _ => rfl, by simp, hY1, hY2⟩
          rw [hX'nil] at hjr
          simp only [List.nil_append] at hjr ⊢
          rw [hp, hjr]
          simp
        · obtain ⟨X', Y', hjr, hX1, hX2, hY1, hY2⟩ :=
            ih (c2 :: rest) hrest2 (azLower c1) (h₁ :: partsL') part partsR
              (by rw [hparts, hR]; simp)
          refine ⟨c1 :: X', Y', by simpa using congrArg (List.cons c1) hjr, ?_, ?_,
            hY1, hY2⟩
          · intro h0; rw [hL] at h0; simp at h0
          · intro _
            obtain ⟨X₀, c, hX₀, hec⟩ := hX2 (by simp)
            exact ⟨c1 :: X₀, c, by rw [hX₀]; rfl, hec⟩

/-- Strict part context for the `gm`/`gms` unit-token scanner: separators
are the matched `gm`/`gms` occurrences (ending in `m` or `s`, starting with
`g`). -/
theorem partsCtx_gmSplit :
    ∀ n s, List.length s ≤ n → ∀ pAz,
      PartsCtx (fun c => c == 'm' || c == 's') (fun c => c == 'g') s
        (gmSplit pAz s) := by
  intro n
  induction n with
  | zero =>
    intro s hs pAz partsL part partsR hdec
    have hnil : s = [] := List.eq_nil_of_length_eq_zero (Nat.le_zero.mp hs)
    subst hnil
    obtain ⟨hL, hp, hR⟩ := singleton_decomp (by simpa [gmSplit] using hdec)
    subst hL; subst hR
    exact ⟨[], [], by simp [hp], fun _ => rfl, by simp, fun _ => rfl, by simp⟩
  | succ n ih =>
    intro s hs pAz partsL part partsR hdec
    match s, hs with
    | [], hs =>
      obtain ⟨hL, hp, hR⟩ := singleton_decomp (by simpa [gmSplit] using hdec)
      subst hL; subst hR
      exact ⟨[], [], by simp [hp], fun _ => rfl, by simp, fun _ => rfl, by simp⟩
    | [c], hs =>
      obtain ⟨hL, hp, hR⟩ := singleton_decomp (by simpa [gmSplit] using hdec)
      subst hL; subst hR
      exact ⟨[], [], by simp [hp], fun _ => rfl, by simp, fun _ => rfl, by simp⟩
    | [c1, c2], hs =>
      have heq : gmSplit pAz [c1, c2] =
          if c1 = 'g' ∧ c2 = 'm' ∧ pAz = false then [[], []]
          else consHead c1 (gmSplit (azLower c1) [c2]) := rfl
      by_cases hm : c1 = 'g' ∧ c2 = 'm' ∧ pAz = false
      · rw [heq, if_pos hm] at hdec
        obtain ⟨hc1, hc2, hpAz⟩ := hm
        rcases cons_decomp hdec with ⟨hL, hp, hR⟩ | ⟨partsL', hL, hR⟩
        · subst hL
          refine ⟨[], [c1, c2], by simp [hp], fun _ => rfl, by simp, ?_, ?_⟩
          · intro hR0
            rw [hR0] at hR
            simp at hR
          · intro _
            exact ⟨'g', ['m'], by rw [hc1, hc2], by decide⟩
        · obtain ⟨hL', hp', hR'⟩ := singleton_decomp hR
          subst hL'
          subst hR'
          subst hL
          refine ⟨[c1, c2], [], by simp [hp'], by simp, ?_, fun _ => rfl, by simp⟩
          intro _
          exact ⟨[c1], c2, rfl, by rw [hc2]; decide⟩
      · rw [heq, if_neg hm] at hdec
        have hsingle : consHead c1 (gmSplit (azLower c1) [c2]) = [[c1, c2]] := rfl
        rw [hsingle] at hdec
        obtain ⟨hL, hp, hR⟩ := singleton_decomp hdec
        subst hL; subst hR
        exact ⟨[], [], by simp [hp], fun _ => rfl, by simp, fun _ => rfl, by simp⟩
    | c1 :: c2 :: c3 :: rest, hs =>
      have heq : gmSplit pAz (c1 :: c2 :: c3 :: rest) =
          if c1 = 'g' ∧ c2 = 'm' ∧ pAz = false ∧ c3 = 's' ∧
              headSat azLower rest = false
          then [] :: gmSplit true rest
          else if c1 = 'g' ∧ c2 = 'm' ∧ pAz = false ∧ azLower c3 = false
          then [] :: gmSplit true (c3 :: rest)
          else consHead c1 (gmSplit (azLower c1) (c2 :: c3 :: rest)) := rfl
      have hrest : rest.length ≤ n := by simp at hs; omega
      have hrest2 : (c3 :: rest).length ≤ n := by simp at hs ⊢; omega
      have hrest3 : (c2 :: c3 :: rest).length ≤ n := by simp at hs ⊢; omega
      by_cases hm1 : c1 = 'g' ∧ c2 = 'm' ∧ pAz = false ∧ c3 = 's' ∧
          headSat azLower rest = false
      · rw [heq, if_pos hm1] at hdec
        obtain ⟨hc1, hc2, hpAz, hc3, hla⟩ := hm1
        rcases cons_decomp hdec with ⟨hL, hp, hR⟩ | ⟨partsL', hL, hR⟩
        · subst hL
          refine ⟨[], c1 :: c2 :: c3 :: rest, by simp [hp], fun _ => rfl, by simp,
            ?_, ?_⟩
          · intro hR0
            exact absurd (hR.symm.trans hR0) (gmSplit_ne_nil true rest)
          · intro _
            exact ⟨'g', 'm' :: 's' :: rest, by rw [hc1, hc2, hc3], by decide⟩
        · obtain ⟨X', Y', hjr, hX1, hX2, hY1, hY2⟩ :=
            ih rest hrest true partsL' part partsR hR
          refine ⟨'g' :: 'm' :: 's' :: X', Y', ?_, ?_, ?_, hY1, hY2⟩
          · rw [hc1, hc2, hc3, hjr]; simp
          · intro h0; rw [hL] at h0; simp at h0
          · intro _
            rcases eq_or_ne partsL' [] with hL' | hL'
            · rw [hX1 hL']
              exact ⟨['g', 'm'], 's', rfl, by decide⟩
            · obtain ⟨X₀, c, hX₀, hec⟩ := hX2 hL'
              exact ⟨'g' :: 'm' :: 's' :: X₀, c, by rw [hX₀]; rfl, hec⟩
      · by_cases hm2 : c1 = 'g' ∧ c2 = 'm' ∧ pAz = false ∧ azLower c3 = false
        · rw [heq, if_neg hm1, if_pos hm2] at hdec
          obtain ⟨hc1, hc2, hpAz, hc3⟩ := hm2
          rcases cons_decomp hdec with ⟨hL, hp, hR⟩ | ⟨partsL', hL, hR⟩
          · subst hL
            refine ⟨[], c1 :: c2 :: c3 :: rest, by simp [hp], fun _ => rfl, by simp,
              ?_, ?_⟩
            · intro hR0
              exact absurd (hR.symm.trans hR0) (gmSplit_ne_nil true (c3 :: rest))
            · intro _
              exact ⟨'g', 'm' :: c3 :: rest, by rw [hc1, hc2], by decide⟩
          · obtain ⟨X', Y', hjr, hX1, hX2, hY1, hY2⟩ :=
              ih (c3 :: rest) hrest2 true partsL' part partsR hR
            refine ⟨'g' :: 'm' :: X', Y', ?_, ?_, ?_, hY1, hY2⟩
            · rw [hc1, hc2, hjr]; simp
            · intro h0; rw [hL] at h0; simp at h0
            · intro _
              rcases eq_or_ne partsL' [] with hL' | hL'
              · rw [hX1 hL']
                exact ⟨['g'], 'm', rfl, by decide⟩
              · obtain ⟨X₀, c, hX₀, hec⟩ := hX2 hL'
                exact ⟨'g' :: 'm' :: X₀, c, by rw [hX₀]; rfl, hec⟩
        · rw [heq, if_neg hm1, if_neg hm2] at hdec
          rcases consHead_decomp (gmSplit_ne_nil _ _) hdec with
            ⟨hL, part₀, hp, hparts⟩ | ⟨h₁, t₁, partsL', hparts, hL, hR⟩
          · obtain ⟨X', Y', hjr, hX1, hX2, hY1, hY2⟩ :=
              ih (c2 :: c3 :: rest) hrest3 (azLower c1) [] part₀ partsR
                (by simpa using hparts)
            have hX'nil : X' = [] := hX1 rfl
            subst hL
            refine ⟨[], Y', ?_, fun _ => rfl, by simp, hY1, hY2⟩
            rw [hX'nil] at hjr
            simp only [List.nil_append] at hjr ⊢
            rw [hp, hjr]
            simp
          · obtain ⟨X', Y', hjr, hX1, hX2, hY1, hY2⟩ :=
              ih (c2 :: c3 :: rest) hrest3 (azLower c1) (h₁ :: partsL') part partsR
                (by rw [hparts, hR]; simp)
            refine ⟨c1 :: X', Y', by simpa using congrArg (List.cons c1) hjr, ?_, ?_,
              hY1, hY2⟩
            · intro h0; rw [hL] at h0; simp at h0
            · intro _
              obtain ⟨X₀, c, hX₀, hec⟩ := hX2 (by simp)
              exact ⟨c1 :: X₀, c, by rw [hX₀]; rfl, hec⟩

/-- The word scanner inside a word returns no part only on empty input. -/
theorem wordsAux_true_nil (s : List Char) (h : wordsAux true s = []) : s = [] := by
  match s with
  | [] => rfl
  | c :: t =>
    unfold wordsAux at h
    split at h
    · simp at h
    · exact absurd h (consHead_ne_nil c _)

/-- Part context for the whitespace word scanner, tracking the in-word
state: the first part starts at the scan position when inside a word. -/
theorem wordsCtx :
    ∀ n s, List.length s ≤ n → ∀ inW partsL part partsR,
      wordsAux inW s = partsL ++ part :: partsR →
      ∃ X Y, s = X ++ part ++ Y ∧
        (partsL = [] → inW = true → X = []) ∧
        (partsL ≠ [] → X ≠ []) ∧
        (X = [] ∨ ∃ X₀ c, X = X₀ ++ [c] ∧ pyIsSpace c = true) ∧
        (Y = [] ∨ ∃ c Y₀, Y = c :: Y₀ ∧ pyIsSpace c = true) := by
  intro n
  induction n with
  | zero =>
    intro s hs inW partsL part partsR hdec
    have hnil : s = [] := List.eq_nil_of_length_eq_zero (Nat.le_zero.mp hs)
    subst hnil
    simp [wordsAux] at hdec
  | succ n ih =>
    intro s hs inW partsL part partsR hdec
    match s, hs with
    | [], hs => simp [wordsAux] at hdec
    | c :: s', hs =>
      have hs' : s'.length ≤ n := by simp at hs; omega
      by_cases hsp : pyIsSpace c = true
      · match inW, hdec with
        | true, hdec =>
          rw [show wordsAux true (c :: s') = [] :: wordsAux false s' by
            conv_lhs => unfold wordsAux
            rw [if_pos hsp]
            rfl] at hdec
          rcases cons_decomp hdec with ⟨hL, hp, hR⟩ | ⟨partsL', hL, hR⟩
          · subst hL
            exact ⟨[], c :: s', by simp [hp], fun _ _ => rfl, by simp, Or.inl rfl,
              Or.inr ⟨c, s', rfl, hsp⟩⟩
          · obtain ⟨X', Y', hjr, -, -, hXd, hYd⟩ :=
              ih s' hs' false partsL' part partsR hR
            refine ⟨c :: X', Y', by simpa using congrArg (List.cons c) hjr,
              ?_, by simp, ?_, hYd⟩
            · intro h0; rw [hL] at h0; simp at h0
            · rcases hXd with hX0 | ⟨X₀, c', hX₀, hec⟩
              · exact Or.inr ⟨[], c, by rw [hX0]; simp, hsp⟩
              · exact Or.inr ⟨c :: X₀, c', by rw [hX₀]; rfl, hec⟩
        | false, hdec =>
          rw [show wordsAux false (c :: s') = wordsAux false s' by
            conv_lhs => unfold wordsAux
            rw [if_pos hsp]
            rfl] at hdec
          obtain ⟨X', Y', hjr, -, -, hXd, hYd⟩ :=
            ih s' hs' false partsL part partsR hdec
          refine ⟨c :: X', Y', by simpa using congrArg (List.cons c) hjr,
            fun _ h => by simp at h, by simp, ?_, hYd⟩
          rcases hXd with hX0 | ⟨X₀, c', hX₀, hec⟩
          · exact Or.inr ⟨[], c, by rw [hX0]; simp, hsp⟩
          · exact Or.inr ⟨c :: X₀, c', by rw [hX₀]; rfl, hec⟩
      · rw [show wordsAux inW (c :: s') = consHead c (wordsAux true s') by
          conv_lhs => unfold wordsAux
          rw [if_neg hsp]] at hdec
        rcases eq_or_ne (wordsAux true s') [] with hw | hw
        · have hs'nil : s' = [] := wordsAux_true_nil s' hw
          subst hs'nil
          rw [hw] at hdec
          obtain ⟨hL, hp, hR⟩ := singleton_decomp hdec
          subst hL; subst hR
          exact ⟨[], [], by simp [hp], fun _ _ => rfl, by simp, Or.inl rfl,
            Or.inl rfl⟩
        · rcases consHead_decomp hw hdec with
            ⟨hL, part₀, hp, hparts⟩ | ⟨h₁, t₁, partsL', hparts, hL, hR⟩
          · obtain ⟨X', Y', hjr, hst, -, -, hYd⟩ :=
              ih s' hs' true [] part₀ partsR (by simpa using hparts)
            have hX'nil : X' = [] := hst rfl rfl
            subst hL
            refine ⟨[], Y', ?_, fun _ _ => rfl, by simp, Or.inl rfl, hYd⟩
            rw [hX'nil] at hjr
            simp only [List.nil_append] at hjr ⊢
            rw [hp, hjr]
            simp
          · obtain ⟨X', Y', hjr, -, hne, hXd, hYd⟩ :=
              ih s' hs' true (h₁ :: partsL') part partsR (by rw [hparts, hR]; simp)
            have hX'ne : X' ≠ [] := hne (by simp)
            refine ⟨c :: X', Y', by simpa using congrArg (List.cons c) hjr,
              ?_, by simp, ?_, hYd⟩
            · intro h0; rw [hL] at h0; simp at h0
            · rcases hXd with hX0 | ⟨X₀, c', hX₀, hec⟩
              · exact absurd hX0 hX'ne
              · exact Or.inr ⟨c :: X₀, c', by rw [hX₀]; rfl, hec⟩

/-- The junk-run scanner never returns an empty list of parts. -/
theorem filterRun_ne_nil' : ∀ (b : Bool) (s : List Char), filterRun b s ≠ []
  | _, [] => by simp [filterRun]
  | b, c :: s => by
    unfold filterRun
    split
    · exact consHead_ne_nil c _
    · split
      · exact filterRun_ne_nil' true s
      · simp

/-- Part context for the junk-run scanner, tracking the in-junk state. -/
theorem filterCtx :
    ∀ n s, List.length s ≤ n → ∀ inJ partsL part partsR,
      filterRun inJ s = partsL ++ part :: partsR →
      ∃ X Y, s = X ++ part ++ Y ∧
        (partsL = [] → inJ = false → X = []) ∧
        (partsL ≠ [] → X ≠ []) ∧
        (X = [] ∨ ∃ X₀ c, X = X₀ ++ [c] ∧ allowedChar c = false) ∧
        (Y = [] ∨ ∃ c Y₀, Y = c :: Y₀ ∧ allowedChar c = false) := by
  intro n
  induction n with
  | zero =>
    intro s hs inJ partsL part partsR hdec
    have hnil : s = [] := List.eq_nil_of_length_eq_zero (Nat.le_zero.mp hs)
    subst hnil
    obtain ⟨hL, hp, hR⟩ := singleton_decomp (by simpa [filterRun] using hdec)
    subst hL; subst hR
    exact ⟨[], [], by simp [hp], fun _ _ => rfl, by simp, Or.inl rfl, Or.inl rfl⟩
  | succ n ih =>
    intro s hs inJ partsL part partsR hdec
    match s, hs with
    | [], hs =>
      obtain ⟨hL, hp, hR⟩ := singleton_decomp (by simpa [filterRun] using hdec)
      subst hL; subst hR
      exact ⟨[], [], by simp [hp], fun _ _ => rfl, by simp, Or.inl rfl, Or.inl rfl⟩
    | c :: s', hs =>
      have hs' : s'.length ≤ n := by simp at hs; omega
      by_cases hal : allowedChar c = true
      · rw [show filterRun inJ (c :: s') = consHead c (filterRun false s') by
          conv_lhs => unfold filterRun
          rw [if_pos hal]] at hdec
        rcases consHead_decomp (filterRun_ne_nil' false s') hdec with
          ⟨hL, part₀, hp, hparts⟩ | ⟨h₁, t₁, partsL', hparts, hL, hR⟩
        · obtain ⟨X', Y', hjr, hst, -, -, hYd⟩ :=
            ih s' hs' false [] part₀ partsR (by simpa using hparts)
          have hX'nil : X' = [] := hst rfl rfl
          subst hL
          refine ⟨[], Y', ?_, fun _ _ => rfl, by simp, Or.inl rfl, hYd⟩
          rw [hX'nil] at hjr
          simp only [List.nil_append] at hjr ⊢
          rw [hp, hjr]
          simp
        · obtain ⟨X', Y', hjr, -, hne, hXd, hYd⟩ :=
            ih s' hs' false (h₁ :: partsL') part partsR (by rw [hparts, hR]; simp)
          have hX'ne : X' ≠ [] := hne (by simp)
          refine ⟨c :: X', Y', by simpa using congrArg (List.cons c) hjr,
            ?_, by simp, ?_, hYd⟩
          · intro h0; rw [hL] at h0; simp at h0
          · rcases hXd with hX0 | ⟨X₀, c', hX₀, hec⟩
            · exact absurd hX0 hX'ne
            · exact Or.inr ⟨c :: X₀, c', by rw [hX₀]; rfl, hec⟩
      · have haf : allowedChar c = false := by
          revert hal; cases allowedChar c <;> simp
        match inJ, hdec with
        | true, hdec =>
          rw [show filterRun true (c :: s') = filterRun true s' by
            conv_lhs => unfold filterRun
            rw [if_neg (by rw [haf]; simp)]
            rfl] at hdec
          obtain ⟨X', Y', hjr, -, -, hXd, hYd⟩ :=
            ih s' hs' true partsL part partsR hdec
          refine ⟨c :: X', Y', by simpa using congrArg (List.cons c) hjr,
            fun _ h => by simp at h, by simp, ?_, hYd⟩
          rcases hXd with hX0 | ⟨X₀, c', hX₀, hec⟩
          · exact Or.inr ⟨[], c, by rw [hX0]; simp, haf⟩
          · exact Or.inr ⟨c :: X₀, c', by rw [hX₀]; rfl, hec⟩
        | false, hdec =>
          rw [show filterRun false (c :: s') = [] :: filterRun true s' by
            conv_lhs => unfold filterRun
            rw [if_neg (by rw [haf]; simp)]
            rfl] at hdec
          rcases cons_decomp hdec with ⟨hL, hp, hR⟩ | ⟨partsL', hL, hR⟩
          · subst hL
            exact ⟨[], c :: s', by simp [hp], fun _ _ => rfl, by simp, Or.inl rfl,
              Or.inr ⟨c, s', rfl, haf⟩⟩
          · obtain ⟨X', Y', hjr, -, -, hXd, hYd⟩ :=
              ih s' hs' true partsL' part partsR hR
            refine ⟨c :: X', Y', by simpa using congrArg (List.cons c) hjr,
              ?_, by simp, ?_, hYd⟩
            · intro h0; rw [hL] at h0; simp at h0
            · rcases hXd with hX0 | ⟨X₀, c', hX₀, hec⟩
              · exact Or.inr ⟨[], c, by rw [hX0]; simp, haf⟩
              · exact Or.inr ⟨c :: X₀, c', by rw [hX₀]; rfl, hec⟩

/-! ### Lookaround guards as occurrence predicates -/

/-- The head of an append with a non-empty left list. -/
theorem head?_append_ne {l1 l2 : List Char} (h : l1 ≠ []) :
    (l1 ++ l2).head? = l1.head? := by
  cases l1 with
  | nil => exact absurd rfl h
  | cons c t => simp

/-- A regex lookaround evaluated on an optional character (`none` at the
string boundary). -/
def azOptB : Option Char → Bool
  | none => false
  | some c => azLower c

/-- Word-character lookaround on an optional character. -/
def wOptB : Option Char → Bool
  | none => false
  | some c => isWordCharE c

/-- Every `iv` occurrence carries a word character on one side, so the
`\biv\b` pattern has no match. -/
def okIV (s : List Char) : Prop :=
  ∀ A B, s = A ++ 'i' :: 'v' :: B → wOptB A.getLast? = true ∨ wOptB B.head? = true

/-- Every `cc` occurrence carries an ASCII letter on one side, so the
guarded `cc` pattern has no match. -/
def okCC (s : List Char) : Prop :=
  ∀ A B, s = A ++ 'c' :: 'c' :: B → azOptB A.getLast? = true ∨ azOptB B.head? = true

/-- Every `gm` occurrence is blocked: a letter before it, or a letter after
it that does not itself start a matchable `gms`. -/
def okGM (s : List Char) : Prop :=
  ∀ A B, s = A ++ 'g' :: 'm' :: B →
    azOptB A.getLast? = true ∨
      (azOptB B.head? = true ∧ (B.head? = some 's' → azOptB B.tail.head? = true))

/-- `wOptB` of a head option agrees with the scanner's lookahead test. -/
theorem wOptB_head (l : List Char) : wOptB l.head? = headSat isWordCharE l := by
  cases l <;> rfl

/-- `azOptB` of a head option agrees with the scanner's lookahead test. -/
theorem azOptB_head (l : List Char) : azOptB l.head? = headSat azLower l := by
  cases l <;> rfl

/-- A guard-free string is returned whole by the `iv` scanner. -/
theorem ivSplit_of_okIV :
    ∀ n s, List.length s ≤ n → ∀ X, okIV (X ++ s) →
      ivSplit (wOptB X.getLast?) s = [s] := by
  intro n
  induction n with
  | zero =>
    intro s hs X hok
    have hnil : s = [] := List.eq_nil_of_length_eq_zero (Nat.le_zero.mp hs)
    subst hnil
    rfl
  | succ n ih =>
    intro s hs X hok
    match s, hs with
    | [], hs => rfl
    | [c], hs => rfl
    | c1 :: c2 :: rest, hs =>
      have hrest2 : (c2 :: rest).length ≤ n := by simp at hs ⊢; omega
      have heq : ivSplit (wOptB X.getLast?) (c1 :: c2 :: rest) =
          if c1 = 'i' ∧ c2 = 'v' ∧ wOptB X.getLast? = false ∧
              headSat isWordCharE rest = false
          then [] :: ivSplit true rest
          else consHead c1 (ivSplit (isWordCharE c1) (c2 :: rest)) := rfl
      have hm : ¬ (c1 = 'i' ∧ c2 = 'v' ∧ wOptB X.getLast? = false ∧
          headSat isWordCharE rest = false) := by
        rintro ⟨hc1, hc2, hpW, hla⟩
        subst hc1; subst hc2
        rcases hok X rest rfl with h | h
        · rw [hpW] at h; exact absurd h (by simp)
        · rw [wOptB_head, hla] at h; exact absurd h (by simp)
      rw [heq, if_neg hm]
      have hih := ih (c2 :: rest) hrest2 (X ++ [c1])
        (by rw [List.append_assoc]; exact hok)
      rw [List.getLast?_append_of_ne_nil X (by simp)] at hih
      simp only [List.getLast?_singleton] at hih
      rw [show wOptB (some c1) = isWordCharE c1 from rfl] at hih
      rw [hih]
      rfl

/-- A guard-free string is returned whole by the `cc` scanner. -/
theorem ccSplit_of_okCC :
    ∀ n s, List.length s ≤ n → ∀ X, okCC (X ++ s) →
      ccSplit (azOptB X.getLast?) s = [s] := by
  intro n
  induction n with
  | zero =>
    intro s hs X hok
    have hnil : s = [] := List.eq_nil_of_length_eq_zero (Nat.le_zero.mp hs)
    subst hnil
    rfl
  | succ n ih =>
    intro s hs X hok
    match s, hs with
    | [], hs => rfl
    | [c], hs => rfl
    | c1 :: c2 :: rest, hs =>
      have hrest2 : (c2 :: rest).length ≤ n := by simp at hs ⊢; omega
      have heq : ccSplit (azOptB X.getLast?) (c1 :: c2 :: rest) =
          if c1 = 'c' ∧ c2 = 'c' ∧ azOptB X.getLast? = false ∧
              headSat azLower rest = false
          then [] :: ccSplit true rest
          else consHead c1 (ccSplit (azLower c1) (c2 :: rest)) := rfl
      have hm : ¬ (c1 = 'c' ∧ c2 = 'c' ∧ azOptB X.getLast? = false ∧
          headSat azLower rest = false) := by
        rintro ⟨hc1, hc2, hpAz, hla⟩
        subst hc1; subst hc2
        rcases hok X rest rfl with h | h
        · rw [hpAz] at h; exact absurd h (by simp)
        · rw [azOptB_head, hla] at h; exact absurd h (by simp)
      rw [heq, if_neg hm]
      have hih := ih (c2 :: rest) hrest2 (X ++ [c1])
        (by rw [List.append_assoc]; exact hok)
      rw [List.getLast?_append_of_ne_nil X (by simp)] at hih
      simp only [List.getLast?_singleton] at hih
      rw [show azOptB (some c1) = azLower c1 from rfl] at hih
      rw [hih]
      rfl

/-- A guard-free string is returned whole by the `gm` scanner. -/
theorem gmSplit_of_okGM :
    ∀ n s, List.length s ≤ n → ∀ X, okGM (X ++ s) →
      gmSplit (azOptB X.getLast?) s = [s] := by
  intro n
  induction n with
  | zero =>
    intro s hs X hok
    have hnil : s = [] := List.eq_nil_of_length_eq_zero (Nat.le_zero.mp hs)
    subst hnil
    rfl
  | succ n ih =>
    intro s hs X hok
    match s, hs with
    | [], hs => rfl
    | [c], hs => rfl
    | [c1, c2], hs =>
      have heq : gmSplit (azOptB X.getLast?) [c1, c2] =
          if c1 = 'g' ∧ c2 = 'm' ∧ azOptB X.getLast? = false then [[], []]
          else consHead c1 (gmSplit (azLower c1) [c2]) := rfl
      have hm : ¬ (c1 = 'g' ∧ c2 = 'm' ∧ azOptB X.getLast? = false) := by
        rintro ⟨hc1, hc2, hpAz⟩
        subst hc1; subst hc2
        rcases hok X [] rfl with h | ⟨h, -⟩
        · rw [hpAz] at h; exact absurd h (by simp)
        · exact absurd h (by simp [azOptB])
      rw [heq, if_neg hm]
      rfl
    | c1 :: c2 :: c3 :: rest, hs =>
      have hrest3 : (c2 :: c3 :: rest).length ≤ n := by simp at hs ⊢; omega
      have heq : gmSplit (azOptB X.getLast?) (c1 :: c2 :: c3 :: rest) =
          if c1 = 'g' ∧ c2 = 'm' ∧ azOptB X.getLast? = false ∧ c3 = 's' ∧
              headSat azLower rest = false
          then [] :: gmSplit true rest
          else if c1 = 'g' ∧ c2 = 'm' ∧ azOptB X.getLast? = false ∧
              azLower c3 = false
          then [] :: gmSplit true (c3 :: rest)
          else consHead c1 (gmSplit (azLower c1) (c2 :: c3 :: rest)) := rfl
      have hm1 : ¬ (c1 = 'g' ∧ c2 = 'm' ∧ azOptB X.getLast? = false ∧ c3 = 's' ∧
          headSat azLower rest = false) := by
        rintro ⟨hc1, hc2, hpAz, hc3, hla⟩
        subst hc1; subst hc2; subst hc3
        rcases hok X ('s' :: rest) rfl with h | ⟨-, h⟩
        · rw [hpAz] at h; exact absurd h (by simp)
        · have := h rfl
          rw [show ('s' :: rest).tail = rest from rfl, azOptB_head, hla] at this
          exact absurd this (by simp)
      have hm2 : ¬ (c1 = 'g' ∧ c2 = 'm' ∧ azOptB X.getLast? = false ∧
          azLower c3 = false) := by
        rintro ⟨hc1, hc2, hpAz, hc3⟩
        subst hc1; subst hc2
        rcases hok X (c3 :: rest) rfl with h | ⟨h, -⟩
        · rw [hpAz] at h; exact absurd h (by simp)
        · rw [show azOptB (c3 :: rest).head? = azLower c3 from rfl, hc3] at h
          exact absurd h (by simp)
      rw [heq, if_neg hm1, if_neg hm2]
      have hih := ih (c2 :: c3 :: rest) hrest3 (X ++ [c1])
        (by rw [List.append_assoc]; exact hok)
      rw [List.getLast?_append_of_ne_nil X (by simp)] at hih
      simp only [List.getLast?_singleton] at hih
      rw [show azOptB (some c1) = azLower c1 from rfl] at hih
      rw [hih]
      rfl

/-- `ivReplace` is the identity on guard-free strings. -/
theorem ivReplace_of_okIV (s : List Char) (h : okIV s) : ivReplace s = s := by
  unfold ivReplace
  rw [show ivSplit false s = [s] from by
    have := ivSplit_of_okIV s.length s le_rfl [] (by simpa using h)
    simpa using this]
  rfl

/-- `ccReplace` is the identity on guard-free strings. -/
theorem ccReplace_of_okCC (s : List Char) (h : okCC s) : ccReplace s = s := by
  unfold ccReplace
  rw [show ccSplit false s = [s] from by
    have := ccSplit_of_okCC s.length s le_rfl [] (by simpa using h)
    simpa using this]
  rfl

/-- `gmReplace` is the identity on guard-free strings. -/
theorem gmReplace_of_okGM (s : List Char) (h : okGM s) : gmReplace s = s := by
  unfold gmReplace
  rw [show gmSplit false s = [s] from by
    have := gmSplit_of_okGM s.length s le_rfl [] (by simpa using h)
    simpa using this]
  rfl

/-- Occurrences of `cc` inside a part of the `cc` scan are guarded: a letter
ends the text before, the part follows a match, the lookbehind state was
set, a letter follows, or the part precedes a match. -/
theorem ccSplit_est :
    ∀ n s, List.length s ≤ n → ∀ pAz partsL part partsR pre post,
      ccSplit pAz s = partsL ++ part :: partsR →
      part = pre ++ 'c' :: 'c' :: post →
      (∃ c, pre.getLast? = some c ∧ azLower c = true) ∨
      (pre = [] ∧ partsL ≠ []) ∨
      (pre = [] ∧ partsL = [] ∧ pAz = true) ∨
      (∃ c, post.head? = some c ∧ azLower c = true) ∨
      (post = [] ∧ partsR ≠ []) := by
  intro n
  induction n with
  | zero =>
    intro s hs pAz partsL part partsR pre post hdec hpt
    have hnil : s = [] := List.eq_nil_of_length_eq_zero (Nat.le_zero.mp hs)
    subst hnil
    obtain ⟨-, hp, -⟩ := singleton_decomp (by simpa [ccSplit] using hdec)
    rw [hpt] at hp
    have := congrArg List.length hp
    simp at this
  | succ n ih =>
    intro s hs pAz partsL part partsR pre post hdec hpt
    match s, hs with
    | [], hs =>
      obtain ⟨-, hp, -⟩ := singleton_decomp (by simpa [ccSplit] using hdec)
      rw [hpt] at hp
      have := congrArg List.length hp
      simp at this
    | [c], hs =>
      obtain ⟨-, hp, -⟩ := singleton_decomp (by simpa [ccSplit] using hdec)
      rw [hpt] at hp
      have := congrArg List.length hp
      simp at this
      omega
    | c1 :: c2 :: rest, hs =>
      have hrest : rest.length ≤ n := by simp at hs; omega
      have hrest2 : (c2 :: rest).length ≤ n := by simp at hs ⊢; omega
      have heq : ccSplit pAz (c1 :: c2 :: rest) =
          if c1 = 'c' ∧ c2 = 'c' ∧ pAz = false ∧ headSat azLower rest = false
          then [] :: ccSplit true rest
          else consHead c1 (ccSplit (azLower c1) (c2 :: rest)) := rfl
      by_cases hm : c1 = 'c' ∧ c2 = 'c' ∧ pAz = false ∧ headSat azLower rest = false
      · rw [heq, if_pos hm] at hdec
        rcases cons_decomp hdec with ⟨hL, hp, hR⟩ | ⟨partsL', hL, hR⟩
        · rw [hpt] at hp
          have := congrArg List.length hp
          simp at this
        · rcases ih rest hrest true partsL' part partsR pre post hR hpt with
            h | ⟨h1, h2⟩ | ⟨h1, -, -⟩ | h | h
          · exact Or.inl h
          · exact Or.inr (Or.inl ⟨h1, by rw [hL]; simp⟩)
          · exact Or.inr (Or.inl ⟨h1, by rw [hL]; simp⟩)
          · exact Or.inr (Or.inr (Or.inr (Or.inl h)))
          · exact Or.inr (Or.inr (Or.inr (Or.inr h)))
      · rw [heq, if_neg hm] at hdec
        rcases consHead_decomp (ccSplit_ne_nil _ _) hdec with
          ⟨hL, part₀, hp, hparts⟩ | ⟨h₁, t₁, partsL', hparts, hL, hR⟩
        · match pre, hpt with
          | [], hpt =>
            subst hL
            rw [List.nil_append] at hpt
            rw [hpt] at hp
            injection hp with hc1 hpart₀
            obtain ⟨X, Y, hj, hX1, -, hY1, -⟩ :=
              partsCtx_ccSplit (c1 :: c2 :: rest).length (c1 :: c2 :: rest) le_rfl
                pAz [] part partsR (by rw [heq, if_neg hm]; exact hdec)
            rw [hX1 rfl, List.nil_append, hpt] at hj
            have hj' : c1 :: c2 :: rest = 'c' :: 'c' :: (post ++ Y) := by
              simpa using hj
            injection hj' with hc1' hj''
            injection hj'' with hc2' hrestEq
            have hnm : pAz = true ∨ headSat azLower rest = true := by
              by_cases hpz : pAz = true
              · exact Or.inl hpz
              · right
                by_cases hla : headSat azLower rest = true
                · exact hla
                · exact absurd ⟨hc1', hc2', by revert hpz; cases pAz <;> simp,
                    by revert hla; cases headSat azLower rest <;> simp⟩ hm
            rcases hnm with hpz | hla
            · exact Or.inr (Or.inr (Or.inl ⟨rfl, rfl, hpz⟩))
            · match post, hrestEq with
              | d :: post', hrestEq =>
                subst hrestEq
                exact Or.inr (Or.inr (Or.inr (Or.inl ⟨d, rfl, by simpa [headSat] using hla⟩)))
              | [], hrestEq =>
                match partsR, hY1 with
                | p :: pR, _ => exact Or.inr (Or.inr (Or.inr (Or.inr ⟨rfl, by simp⟩)))
                | [], hY1 =>
                  exfalso
                  have h0 : rest = [] := by
                    rw [hY1 rfl] at hrestEq
                    simpa using hrestEq
                  rw [h0] at hla
                  simp [headSat] at hla
          | c₁' :: pre', hpt =>
            subst hL
            rw [hpt] at hp
            injection hp with hc1 hpart₀
            rcases ih (c2 :: rest) hrest2 (azLower c1) [] part₀ partsR pre' post
              (by simpa using hparts) hpart₀.symm with
              h | ⟨h1, h2⟩ | ⟨h1, -, h3⟩ | h | h
            · obtain ⟨c, hc, haz⟩ := h
              refine Or.inl ⟨c, ?_, haz⟩
              have hpre' : pre' ≠ [] := by
                intro h0
                rw [h0] at hc
                simp at hc
              rw [show c₁' :: pre' = [c₁'] ++ pre' from rfl,
                List.getLast?_append_of_ne_nil _ hpre']
              exact hc
            · simp at h2
            · subst h1
              exact Or.inl ⟨c₁', rfl, by rw [hc1]; exact h3⟩
            · exact Or.inr (Or.inr (Or.inr (Or.inl h)))
            · exact Or.inr (Or.inr (Or.inr (Or.inr h)))
        · rcases ih (c2 :: rest) hrest2 (azLower c1) (h₁ :: partsL') part partsR
            pre post (by rw [hparts, hR]; simp) hpt with
            h | ⟨h1, h2⟩ | ⟨h1, h2, -⟩ | h | h
          · exact Or.inl h
          · exact Or.inr (Or.inl ⟨h1, by rw [hL]; simp⟩)
          · simp at h2
          · exact Or.inr (Or.inr (Or.inr (Or.inl h)))
          · exact Or.inr (Or.inr (Or.inr (Or.inr h)))

/-- Occurrences of `iv` inside a part of the `iv` scan are guarded by word
characters in the same way. -/
theorem ivSplit_est :
    ∀ n s, List.length s ≤ n → ∀ pAz partsL part partsR pre post,
      ivSplit pAz s = partsL ++ part :: partsR →
      part = pre ++ 'i' :: 'v' :: post →
      (∃ c, pre.getLast? = some c ∧ isWordCharE c = true) ∨
      (pre = [] ∧ partsL ≠ []) ∨
      (pre = [] ∧ partsL = [] ∧ pAz = true) ∨
      (∃ c, post.head? = some c ∧ isWordCharE c = true) ∨
      (post = [] ∧ partsR ≠ []) := by
  intro n
  induction n with
  | zero =>
    intro s hs pAz partsL part partsR pre post hdec hpt
    have hnil : s = [] := List.eq_nil_of_length_eq_zero (Nat.le_zero.mp hs)
    subst hnil
    obtain ⟨-, hp, -⟩ := singleton_decomp (by simpa [ivSplit] using hdec)
    rw [hpt] at hp
    have := congrArg List.length hp
    simp at this
  | succ n ih =>
    intro s hs pAz partsL part partsR pre post hdec hpt
    match s, hs with
    | [], hs =>
      obtain ⟨-, hp, -⟩ := singleton_decomp (by simpa [ivSplit] using hdec)
      rw [hpt] at hp
      have := congrArg List.length hp
      simp at this
    | [c], hs =>
      obtain ⟨-, hp, -⟩ := singleton_decomp (by simpa [ivSplit] using hdec)
      rw [hpt] at hp
      have := congrArg List.length hp
      simp at this
      omega
    | c1 :: c2 :: rest, hs =>
      have hrest : rest.length ≤ n := by simp at hs; omega
      have hrest2 : (c2 :: rest).length ≤ n := by simp at hs ⊢; omega
      have heq : ivSplit pAz (c1 :: c2 :: rest) =
          if c1 = 'i' ∧ c2 = 'v' ∧ pAz = false ∧ headSat isWordCharE rest = false
          then [] :: ivSplit true rest
          else consHead c1 (ivSplit (isWordCharE c1) (c2 :: rest)) := rfl
      by_cases hm : c1 = 'i' ∧ c2 = 'v' ∧ pAz = false ∧ headSat isWordCharE rest = false
      · rw [heq, if_pos hm] at hdec
        rcases cons_decomp hdec with ⟨hL, hp, hR⟩ | ⟨partsL', hL, hR⟩
        · rw [hpt] at hp
          have := congrArg List.length hp
          simp at this
        · rcases ih rest hrest true partsL' part partsR pre post hR hpt with
            h | ⟨h1, h2⟩ | ⟨h1, -, -⟩ | h | h
          · exact Or.inl h
          · exact Or.inr (Or.inl ⟨h1, by rw [hL]; simp⟩)
          · exact Or.inr (Or.inl ⟨h1, by rw [hL]; simp⟩)
          · exact Or.inr (Or.inr (Or.inr (Or.inl h)))
          · exact Or.inr (Or.inr (Or.inr (Or.inr h)))
      · rw [heq, if_neg hm] at hdec
        rcases consHead_decomp (ivSplit_ne_nil _ _) hdec with
          ⟨hL, part₀, hp, hparts⟩ | ⟨h₁, t₁, partsL', hparts, hL, hR⟩
        · match pre, hpt with
          | [], hpt =>
            subst hL
            rw [List.nil_append] at hpt
            rw [hpt] at hp
            injection hp with hc1 hpart₀
            obtain ⟨X, Y, hj, hX1, -, hY1, -⟩ :=
              partsCtx_ivSplit (c1 :: c2 :: rest).length (c1 :: c2 :: rest) le_rfl
                pAz [] part partsR (by rw [heq, if_neg hm]; exact hdec)
            rw [hX1 rfl, List.nil_append, hpt] at hj
            have hj' : c1 :: c2 :: rest = 'i' :: 'v' :: (post ++ Y) := by
              simpa using hj
            injection hj' with hc1' hj''
            injection hj'' with hc2' hrestEq
            have hnm : pAz = true ∨ headSat isWordCharE rest = true := by
              by_cases hpz : pAz = true
              · exact Or.inl hpz
              · right
                by_cases hla : headSat isWordCharE rest = true
                · exact hla
                · exact absurd ⟨hc1', hc2', by revert hpz; cases pAz <;> simp,
                    by revert hla; cases headSat isWordCharE rest <;> simp⟩ hm
            rcases hnm with hpz | hla
            · exact Or.inr (Or.inr (Or.inl ⟨rfl, rfl, hpz⟩))
            · match post, hrestEq with
              | d :: post', hrestEq =>
                subst hrestEq
                exact Or.inr (Or.inr (Or.inr (Or.inl ⟨d, rfl, by simpa [headSat] using hla⟩)))
              | [], hrestEq =>
                match partsR, hY1 with
                | p :: pR, _ => exact Or.inr (Or.inr (Or.inr (Or.inr ⟨rfl, by simp⟩)))
                | [], hY1 =>
                  exfalso
                  have h0 : rest = [] := by
                    rw [hY1 rfl] at hrestEq
                    simpa using hrestEq
                  rw [h0] at hla
                  simp [headSat] at hla
          | c₁' :: pre', hpt =>
            subst hL
            rw [hpt] at hp
            injection hp with hc1 hpart₀
            rcases ih (c2 :: rest) hrest2 (isWordCharE c1) [] part₀ partsR pre' post
              (by simpa using hparts) hpart₀.symm with
              h | ⟨h1, h2⟩ | ⟨h1, -, h3⟩ | h | h
            · obtain ⟨c, hc, haz⟩ := h
              refine Or.inl ⟨c, ?_, haz⟩
              have hpre' : pre' ≠ [] := by
                intro h0
                rw [h0] at hc
                simp at hc
              rw [show c₁' :: pre' = [c₁'] ++ pre' from rfl,
                List.getLast?_append_of_ne_nil _ hpre']
              exact hc
            · simp at h2
            · subst h1
              exact Or.inl ⟨c₁', rfl, by rw [hc1]; exact h3⟩
            · exact Or.inr (Or.inr (Or.inr (Or.inl h)))
            · exact Or.inr (Or.inr (Or.inr (Or.inr h)))
        · rcases ih (c2 :: rest) hrest2 (isWordCharE c1) (h₁ :: partsL') part partsR
            pre post (by rw [hparts, hR]; simp) hpt with
            h | ⟨h1, h2⟩ | ⟨h1, h2, -⟩ | h | h
          · exact Or.inl h
          · exact Or.inr (Or.inl ⟨h1, by rw [hL]; simp⟩)
          · simp at h2
          · exact Or.inr (Or.inr (Or.inr (Or.inl h)))
          · exact Or.inr (Or.inr (Or.inr (Or.inr h)))

/-- Occurrences of `gm` inside a part of the `gm` scan are guarded: the
lookbehind held, or the following letter blocks the match (and an `s` there
is itself followed by a letter or by the next match). -/
theorem gmSplit_est :
    ∀ n s, List.length s ≤ n → ∀ pAz partsL part partsR pre post,
      gmSplit pAz s = partsL ++ part :: partsR →
      part = pre ++ 'g' :: 'm' :: post →
      (∃ c, pre.getLast? = some c ∧ azLower c = true) ∨
      (pre = [] ∧ partsL ≠ []) ∨
      (pre = [] ∧ partsL = [] ∧ pAz = true) ∨
      (∃ c post', post = c :: post' ∧ azLower c = true ∧
         (c = 's' → (∃ d post'', post' = d :: post'' ∧ azLower d = true) ∨
            (post' = [] ∧ partsR ≠ []))) ∨
      (post = [] ∧ partsR ≠ []) := by
  intro n
  induction n with
  | zero =>
    intro s hs pAz partsL part partsR pre post hdec hpt
    have hnil : s = [] := List.eq_nil_of_length_eq_zero (Nat.le_zero.mp hs)
    subst hnil
    obtain ⟨-, hp, -⟩ := singleton_decomp (by simpa [gmSplit] using hdec)
    rw [hpt] at hp
    have := congrArg List.length hp
    simp at this
  | succ n ih =>
    intro s hs pAz partsL part partsR pre post hdec hpt
    match s, hs with
    | [], hs =>
      obtain ⟨-, hp, -⟩ := singleton_decomp (by simpa [gmSplit] using hdec)
      rw [hpt] at hp
      have := congrArg List.length hp
      simp at this
    | [c], hs =>
      obtain ⟨-, hp, -⟩ := singleton_decomp (by simpa [gmSplit] using hdec)
      rw [hpt] at hp
      have := congrArg List.length hp
      simp at this
      omega
    | [c1, c2], hs =>
      have heq : gmSplit pAz [c1, c2] =
          if c1 = 'g' ∧ c2 = 'm' ∧ pAz = false then [[], []]
          else consHead c1 (gmSplit (azLower c1) [c2]) := rfl
      by_cases hm : c1 = 'g' ∧ c2 = 'm' ∧ pAz = false
      · rw [heq, if_pos hm] at hdec
        rcases cons_decomp hdec with ⟨-, hp, -⟩ | ⟨partsL', -, hR⟩
        · rw [hpt] at hp
          have := congrArg List.length hp
          simp at this
        · obtain ⟨-, hp, -⟩ := singleton_decomp hR
          rw [hpt] at hp
          have := congrArg List.length hp
          simp at this
      · rw [heq, if_neg hm] at hdec
        have hsingle : consHead c1 (gmSplit (azLower c1) [c2]) = [[c1, c2]] := rfl
        rw [hsingle] at hdec
        obtain ⟨hL, hp, hR⟩ := singleton_decomp hdec
        rw [hpt] at hp
        have hlen := congrArg List.length hp
        simp at hlen
        have hpre0 : pre = [] := List.eq_nil_of_length_eq_zero (by omega)
        have hpost0 : post = [] := List.eq_nil_of_length_eq_zero (by omega)
        subst hpre0; subst hpost0
        simp only [List.nil_append] at hp
        injection hp with hg hp'
        injection hp' with hm2 hp''
        refine Or.inr (Or.inr (Or.inl ⟨rfl, hL, ?_⟩))
        by_cases hpz : pAz = true
        · exact hpz
        · exact absurd ⟨hg.symm, hm2.symm, by revert hpz; cases pAz <;> simp⟩ hm
    | c1 :: c2 :: c3 :: rest, hs =>
      have hrest : rest.length ≤ n := by simp at hs; omega
      have hrest2 : (c3 :: rest).length ≤ n := by simp at hs ⊢; omega
      have hrest3 : (c2 :: c3 :: rest).length ≤ n := by simp at hs ⊢; omega
      have heq : gmSplit pAz (c1 :: c2 :: c3 :: rest) =
          if c1 = 'g' ∧ c2 = 'm' ∧ pAz = false ∧ c3 = 's' ∧
              headSat azLower rest = false
          then [] :: gmSplit true rest
          else if c1 = 'g' ∧ c2 = 'm' ∧ pAz = false ∧ azLower c3 = false
          then [] :: gmSplit true (c3 :: rest)
          else consHead c1 (gmSplit (azLower c1) (c2 :: c3 :: rest)) := rfl
      by_cases hm1 : c1 = 'g' ∧ c2 = 'm' ∧ pAz = false ∧ c3 = 's' ∧
          headSat azLower rest = false
      · rw [heq, if_pos hm1] at hdec
        rcases cons_decomp hdec with ⟨-, hp, -⟩ | ⟨partsL', hL, hR⟩
        · rw [hpt] at hp
          have := congrArg List.length hp
          simp at this
        · rcases ih rest hrest true partsL' part partsR pre post hR hpt with
            h | ⟨h1, h2⟩ | ⟨h1, -, -⟩ | h | h
          · exact Or.inl h
          · exact Or.inr (Or.inl ⟨h1, by rw [hL]; simp⟩)
          · exact Or.inr (Or.inl ⟨h1, by rw [hL]; simp⟩)
          · exact Or.inr (Or.inr (Or.inr (Or.inl h)))
          · exact Or.inr (Or.inr (Or.inr (Or.inr h)))
      · by_cases hm2 : c1 = 'g' ∧ c2 = 'm' ∧ pAz = false ∧ azLower c3 = false
        · rw [heq, if_neg hm1, if_pos hm2] at hdec
          rcases cons_decomp hdec with ⟨-, hp, -⟩ | ⟨partsL', hL, hR⟩
          · rw [hpt] at hp
            have := congrArg List.length hp
            simp at this
          · rcases ih (c3 :: rest) hrest2 true partsL' part partsR pre post hR hpt
              with h | ⟨h1, h2⟩ | ⟨h1, -, -⟩ | h | h
            · exact Or.inl h
            · exact Or.inr (Or.inl ⟨h1, by rw [hL]; simp⟩)
            · exact Or.inr (Or.inl ⟨h1, by rw [hL]; simp⟩)
            · exact Or.inr (Or.inr (Or.inr (Or.inl h)))
            · exact Or.inr (Or.inr (Or.inr (Or.inr h)))
        · rw [heq, if_neg hm1, if_neg hm2] at hdec
          rcases consHead_decomp (gmSplit_ne_nil _ _) hdec with
            ⟨hL, part₀, hp, hparts⟩ | ⟨h₁, t₁, partsL', hparts, hL, hR⟩
          · match pre, hpt with
            | [], hpt =>
              subst hL
              rw [List.nil_append] at hpt
              rw [hpt] at hp
              injection hp with hc1 hpart₀
              obtain ⟨X, Y, hj, hX1, -, hY1, -⟩ :=
                partsCtx_gmSplit (c1 :: c2 :: c3 :: rest).length
                  (c1 :: c2 :: c3 :: rest) le_rfl pAz [] part partsR
                  (by rw [heq, if_neg hm1, if_neg hm2]; exact hdec)
              rw [hX1 rfl, List.nil_append, hpt] at hj
              have hj' : c1 :: c2 :: c3 :: rest = 'g' :: 'm' :: (post ++ Y) := by
                simpa using hj
              injection hj' with hc1' hj''
              injection hj'' with hc2' hrestEq
              by_cases hpz : pAz = true
              · exact Or.inr (Or.inr (Or.inl ⟨rfl, rfl, hpz⟩))
              · have hpzf : pAz = false := by revert hpz; cases pAz <;> simp
                have hc3az : azLower c3 = true := by
                  by_cases h3 : azLower c3 = true
                  · exact h3
                  · exact absurd ⟨hc1', hc2', hpzf,
                      by revert h3; cases azLower c3 <;> simp⟩ hm2
                match post, hrestEq with
                | c :: post', hrestEq =>
                  injection hrestEq with hcc3 hrestEq'
                  refine Or.inr (Or.inr (Or.inr (Or.inl ⟨c, post', rfl,
                    by rw [← hcc3]; exact hc3az, ?_⟩)))
                  intro hcs
                  have hc3s : c3 = 's' := hcc3.trans hcs
                  have hla : headSat azLower rest = true := by
                    by_cases hla' : headSat azLower rest = true
                    · exact hla'
                    · exact absurd ⟨hc1', hc2', hpzf, hc3s,
                        by revert hla'; cases headSat azLower rest <;> simp⟩ hm1
                  match post', hrestEq' with
                  | d :: post'', hrestEq' =>
                    refine Or.inl ⟨d, post'', rfl, ?_⟩
                    rw [hrestEq'] at hla
                    simpa [headSat] using hla
                  | [], hrestEq' =>
                    match partsR, hY1 with
                    | p :: pR, _ => exact Or.inr ⟨rfl, by simp⟩
                    | [], hY1 =>
                      exfalso
                      have h0 : rest = [] := by
                        rw [hY1 rfl] at hrestEq'
                        simpa using hrestEq'
                      rw [h0] at hla
                      simp [headSat] at hla
                | [], hrestEq =>
                  match partsR, hY1 with
                  | p :: pR, _ => exact Or.inr (Or.inr (Or.inr (Or.inr ⟨rfl, by simp⟩)))
                  | [], hY1 =>
                    exfalso
                    rw [hY1 rfl] at hrestEq
                    simp at hrestEq
            | c₁' :: pre', hpt =>
              subst hL
              rw [hpt] at hp
              injection hp with hc1 hpart₀
              rcases ih (c2 :: c3 :: rest) hrest3 (azLower c1) [] part₀ partsR
                pre' post (by simpa using hparts) hpart₀.symm with
                h | ⟨h1, h2⟩ | ⟨h1, -, h3⟩ | h | h
              · obtain ⟨c, hc, haz⟩ := h
                refine Or.inl ⟨c, ?_, haz⟩
                have hpre' : pre' ≠ [] := by
                  intro h0
                  rw [h0] at hc
                  simp at hc
                rw [show c₁' :: pre' = [c₁'] ++ pre' from rfl,
                  List.getLast?_append_of_ne_nil _ hpre']
                exact hc
              · simp at h2
              · subst h1
                exact Or.inl ⟨c₁', rfl, by rw [hc1]; exact h3⟩
              · exact Or.inr (Or.inr (Or.inr (Or.inl h)))
              · exact Or.inr (Or.inr (Or.inr (Or.inr h)))
          · rcases ih (c2 :: c3 :: rest) hrest3 (azLower c1) (h₁ :: partsL') part
              partsR pre post (by rw [hparts, hR]; simp) hpt with
              h | ⟨h1, h2⟩ | ⟨h1, h2, -⟩ | h | h
            · exact Or.inl h
            · exact Or.inr (Or.inl ⟨h1, by rw [hL]; simp⟩)
            · simp at h2
            · exact Or.inr (Or.inr (Or.inr (Or.inl h)))
            · exact Or.inr (Or.inr (Or.inr (Or.inr h)))

/-- After the `cc` replacement, every remaining `cc` occurrence is guarded. -/
theorem okCC_ccReplace (s : List Char) : okCC (ccReplace s) := by
  intro A B hAB
  rcases interJoin_occ_two ['m', 'l'] (by simp) 'c' 'c' (ccSplit false s)
      (ccSplit_ne_nil false s) A B hAB with
    ⟨pL, pt, pR, pre, post, hparts, hpt, hA1, hA2, hB1, hB2⟩ |
    ⟨rL, rR, hr⟩ |
    ⟨pL, pt, pR, pre, hparts, hpR, hpt, hh, hB⟩ |
    ⟨pL, pt, pR, post, hparts, hpL, hpt, hl, A₀, hA₀⟩ |
    ⟨hl, hh, hA₀, hB₀⟩
  · rcases ccSplit_est s.length s le_rfl false pL pt pR pre post hparts hpt with
      ⟨c, hc, haz⟩ | ⟨hpre, hLne⟩ | ⟨-, -, hfalse⟩ | ⟨c, hc, haz⟩ | ⟨hpost, hRne⟩
    · left
      have hpren : pre ≠ [] := by intro h0; rw [h0] at hc; simp at hc
      rcases eq_or_ne pL [] with hL0 | hL0
      · rw [hA1 hL0, hc]; exact haz
      · obtain ⟨A₀, hA₀⟩ := hA2 hL0
        rw [hA₀, List.getLast?_append_of_ne_nil _ hpren, hc]
        exact haz
    · left
      obtain ⟨A₀, hA₀⟩ := hA2 hLne
      rw [hA₀, hpre, List.append_nil,
        List.getLast?_append_of_ne_nil _ (by simp : (['m', 'l'] : List Char) ≠ [])]
      decide
    · exact absurd hfalse (by simp)
    · right
      have hpostn : post ≠ [] := by intro h0; rw [h0] at hc; simp at hc
      rcases eq_or_ne pR [] with hR0 | hR0
      · rw [hB1 hR0, hc]; exact haz
      · obtain ⟨B₀, hB₀⟩ := hB2 hR0
        rw [hB₀, head?_append_ne (by simp [hpostn]), head?_append_ne hpostn, hc]
        exact haz
    · right
      obtain ⟨B₀, hB₀⟩ := hB2 hRne
      rw [hB₀, hpost, List.nil_append,
        head?_append_ne (by simp : (['m', 'l'] : List Char) ≠ [])]
      decide
  · exact absurd (show (['c', 'c'] : List Char) <:+: ['m', 'l'] from
      ⟨rL, rR, by rw [List.append_assoc]; exact hr.symm⟩) (by decide)
  · exact absurd hh (by decide)
  · exact absurd hl (by decide)
  · exact absurd hl (by decide)

/-- After the `iv` replacement, every remaining `iv` occurrence has a word
character beside it. -/
theorem okIV_ivReplace (s : List Char) : okIV (ivReplace s) := by
  intro A B hAB
  rcases interJoin_occ_two
      ['i', 'n', 't', 'r', 'a', 'v', 'e', 'n', 'o', 'u', 's'] (by simp) 'i' 'v'
      (ivSplit false s) (ivSplit_ne_nil false s) A B hAB with
    ⟨pL, pt, pR, pre, post, hparts, hpt, hA1, hA2, hB1, hB2⟩ |
    ⟨rL, rR, hr⟩ |
    ⟨pL, pt, pR, pre, hparts, hpR, hpt, hh, hB⟩ |
    ⟨pL, pt, pR, post, hparts, hpL, hpt, hl, A₀, hA₀⟩ |
    ⟨hl, hh, hA₀, hB₀⟩
  · rcases ivSplit_est s.length s le_rfl false pL pt pR pre post hparts hpt with
      ⟨c, hc, hw⟩ | ⟨hpre, hLne⟩ | ⟨-, -, hfalse⟩ | ⟨c, hc, hw⟩ | ⟨hpost, hRne⟩
    · left
      have hpren : pre ≠ [] := by intro h0; rw [h0] at hc; simp at hc
      rcases eq_or_ne pL [] with hL0 | hL0
      · rw [hA1 hL0, hc]; exact hw
      · obtain ⟨A₀, hA₀⟩ := hA2 hL0
        rw [hA₀, List.getLast?_append_of_ne_nil _ hpren, hc]
        exact hw
    · left
      obtain ⟨A₀, hA₀⟩ := hA2 hLne
      rw [hA₀, hpre, List.append_nil,
        List.getLast?_append_of_ne_nil _
          (by simp : (['i', 'n', 't', 'r', 'a', 'v', 'e', 'n', 'o', 'u', 's'] :
            List Char) ≠ [])]
      decide
    · exact absurd hfalse (by simp)
    · right
      have hpostn : post ≠ [] := by intro h0; rw [h0] at hc; simp at hc
      rcases eq_or_ne pR [] with hR0 | hR0
      · rw [hB1 hR0, hc]; exact hw
      · obtain ⟨B₀, hB₀⟩ := hB2 hR0
        rw [hB₀, head?_append_ne (by simp [hpostn]), head?_append_ne hpostn, hc]
        exact hw
    · right
      obtain ⟨B₀, hB₀⟩ := hB2 hRne
      rw [hB₀, hpost, List.nil_append,
        head?_append_ne
          (by simp : (['i', 'n', 't', 'r', 'a', 'v', 'e', 'n', 'o', 'u', 's'] :
            List Char) ≠ [])]
      decide
  · exact absurd (show (['i', 'v'] : List Char) <:+:
        ['i', 'n', 't', 'r', 'a', 'v', 'e', 'n', 'o', 'u', 's'] from
      ⟨rL, rR, by rw [List.append_assoc]; exact hr.symm⟩) (by decide)
  · exact absurd hh (by decide)
  · exact absurd hl (by decide)
  · exact absurd hl (by decide)

/-- Non-first parts of the `gm` scan are empty or start with a non-letter:
the lookahead that allowed the preceding match rejects a letter. -/
theorem gmSplit_next_part :
    ∀ n s, List.length s ≤ n → ∀ pAz partsL part partsR,
      gmSplit pAz s = partsL ++ part :: partsR → partsL ≠ [] →
      part = [] ∨ ∃ c t, part = c :: t ∧ azLower c = false := by
  intro n
  induction n with
  | zero =>
    intro s hs pAz partsL part partsR hdec hne
    have hnil : s = [] := List.eq_nil_of_length_eq_zero (Nat.le_zero.mp hs)
    subst hnil
    obtain ⟨hL, -, -⟩ := singleton_decomp (by simpa [gmSplit] using hdec)
    exact absurd hL hne
  | succ n ih =>
    intro s hs pAz partsL part partsR hdec hne
    match s, hs with
    | [], hs =>
      obtain ⟨hL, -, -⟩ := singleton_decomp (by simpa [gmSplit] using hdec)
      exact absurd hL hne
    | [c], hs =>
      obtain ⟨hL, -, -⟩ := singleton_decomp (by simpa [gmSplit] using hdec)
      exact absurd hL hne
    | [c1, c2], hs =>
      have heq : gmSplit pAz [c1, c2] =
          if c1 = 'g' ∧ c2 = 'm' ∧ pAz = false then [[], []]
          else consHead c1 (gmSplit (azLower c1) [c2]) := rfl
      by_cases hm : c1 = 'g' ∧ c2 = 'm' ∧ pAz = false
      · rw [heq, if_pos hm] at hdec
        rcases cons_decomp hdec with ⟨hL, -, -⟩ | ⟨partsL', -, hR⟩
        · exact absurd hL hne
        · obtain ⟨-, hp, -⟩ := singleton_decomp hR
          exact Or.inl hp
      · rw [heq, if_neg hm] at hdec
        have hsingle : consHead c1 (gmSplit (azLower c1) [c2]) = [[c1, c2]] := rfl
        rw [hsingle] at hdec
        obtain ⟨hL, -, -⟩ := singleton_decomp hdec
        exact absurd hL hne
    | c1 :: c2 :: c3 :: rest, hs =>
      have hrest : rest.length ≤ n := by simp at hs; omega
      have hrest2 : (c3 :: rest).length ≤ n := by simp at hs ⊢; omega
      have hrest3 : (c2 :: c3 :: rest).length ≤ n := by simp at hs ⊢; omega
      have heq : gmSplit pAz (c1 :: c2 :: c3 :: rest) =
          if c1 = 'g' ∧ c2 = 'm' ∧ pAz = false ∧ c3 = 's' ∧
              headSat azLower rest = false
          then [] :: gmSplit true rest
          else if c1 = 'g' ∧ c2 = 'm' ∧ pAz = false ∧ azLower c3 = false
          then [] :: gmSplit true (c3 :: rest)
          else consHead c1 (gmSplit (azLower c1) (c2 :: c3 :: rest)) := rfl
      by_cases hm1 : c1 = 'g' ∧ c2 = 'm' ∧ pAz = false ∧ c3 = 's' ∧
          headSat azLower rest = false
      · rw [heq, if_pos hm1] at hdec
        rcases cons_decomp hdec with ⟨hL, -, -⟩ | ⟨partsL', hL, hR⟩
        · exact absurd hL hne
        · rcases eq_or_ne partsL' [] with hL0 | hL0
          · subst hL0
            obtain ⟨X, Y, hj, hX1, -, -, -⟩ :=
              partsCtx_gmSplit rest.length rest le_rfl true [] part partsR hR
            rw [hX1 rfl, List.nil_append] at hj
            match part, hj with
            | [], _ => exact Or.inl rfl
            | c :: t, hj =>
              refine Or.inr ⟨c, t, rfl, ?_⟩
              obtain ⟨-, -, -, -, hla⟩ := hm1
              rw [hj] at hla
              simpa [headSat] using hla
          · exact ih rest hrest true partsL' part partsR hR hL0
      · by_cases hm2 : c1 = 'g' ∧ c2 = 'm' ∧ pAz = false ∧ azLower c3 = false
        · rw [heq, if_neg hm1, if_pos hm2] at hdec
          rcases cons_decomp hdec with ⟨hL, -, -⟩ | ⟨partsL', hL, hR⟩
          · exact absurd hL hne
          · rcases eq_or_ne partsL' [] with hL0 | hL0
            · subst hL0
              obtain ⟨X, Y, hj, hX1, -, -, -⟩ :=
                partsCtx_gmSplit (c3 :: rest).length (c3 :: rest) le_rfl true []
                  part partsR hR
              rw [hX1 rfl, List.nil_append] at hj
              match part, hj with
              | [], _ => exact Or.inl rfl
              | c :: t, hj =>
                refine Or.inr ⟨c, t, rfl, ?_⟩
                obtain ⟨-, -, -, hc3⟩ := hm2
                injection hj with hc hrest'
                rw [← hc]
                exact hc3
            · exact ih (c3 :: rest) hrest2 true partsL' part partsR hR hL0
        · rw [heq, if_neg hm1, if_neg hm2] at hdec
          rcases consHead_decomp (gmSplit_ne_nil _ _) hdec with
            ⟨hL, -, -, -⟩ | ⟨h₁, t₁, partsL', hparts, hL, hR⟩
          · exact absurd hL hne
          · exact ih (c2 :: c3 :: rest) hrest3 (azLower c1) (h₁ :: partsL') part
              partsR (by rw [hparts, hR]; simp) (by simp)

/-- After the `gm` replacement, every remaining `gm` occurrence is blocked. -/
theorem okGM_gmReplace (s : List Char) : okGM (gmReplace s) := by
  intro A B hAB
  rcases interJoin_occ_two ['g'] (by simp) 'g' 'm' (gmSplit false s)
      (gmSplit_ne_nil false s) A B hAB with
    ⟨pL, pt, pR, pre, post, hparts, hpt, hA1, hA2, hB1, hB2⟩ |
    ⟨rL, rR, hr⟩ |
    ⟨pL, pt, pR, pre, hparts, hpR, hpt, hh, hB⟩ |
    ⟨pL, pt, pR, post, hparts, hpL, hpt, hl, A₀, hA₀⟩ |
    ⟨hl, hh, hA₀, hB₀⟩
  · rcases gmSplit_est s.length s le_rfl false pL pt pR pre post hparts hpt with
      ⟨c, hc, haz⟩ | ⟨hpre, hLne⟩ | ⟨-, -, hfalse⟩ |
      ⟨c, post', hpostEq, haz, hcs⟩ | ⟨hpost, hRne⟩
    · left
      have hpren : pre ≠ [] := by intro h0; rw [h0] at hc; simp at hc
      rcases eq_or_ne pL [] with hL0 | hL0
      · rw [hA1 hL0, hc]; exact haz
      · obtain ⟨A₀, hA₀⟩ := hA2 hL0
        rw [hA₀, List.getLast?_append_of_ne_nil _ hpren, hc]
        exact haz
    · left
      obtain ⟨A₀, hA₀⟩ := hA2 hLne
      rw [hA₀, hpre, List.append_nil,
        List.getLast?_append_of_ne_nil _ (by simp : (['g'] : List Char) ≠ [])]
      decide
    · exact absurd hfalse (by simp)
    · right
      rcases eq_or_ne pR [] with hR0 | hR0
      · rw [hB1 hR0, hpostEq]
        refine ⟨haz, ?_⟩
        intro hs'
        have hcs' : c = 's' := by
          simp only [List.head?_cons] at hs'
          exact Option.some.inj hs'
        rcases hcs hcs' with ⟨d, post'', hpe, hazd⟩ | ⟨hpe, hRn⟩
        · show azOptB post'.head? = true
          rw [hpe]
          exact hazd
        · exact absurd hR0 hRn
      · obtain ⟨B₀, hB₀⟩ := hB2 hR0
        rw [hB₀, hpostEq]
        have hBform : (c :: post') ++ ['g'] ++ B₀ = c :: (post' ++ ['g'] ++ B₀) := by
          simp
        rw [hBform]
        refine ⟨haz, ?_⟩
        intro hs'
        have hcs' : c = 's' := by
          simp only [List.head?_cons] at hs'
          exact Option.some.inj hs'
        rcases hcs hcs' with ⟨d, post'', hpe, hazd⟩ | ⟨hpe, -⟩
        · show azOptB ((post' ++ ['g'] ++ B₀).head?) = true
          rw [hpe]
          rw [show ((d :: post'' ++ ['g'] ++ B₀) : List Char).head? = some d from rfl]
          exact hazd
        · show azOptB ((post' ++ ['g'] ++ B₀).head?) = true
          rw [hpe]
          rw [show (([] ++ ['g'] ++ B₀) : List Char).head? = some 'g' from rfl]
          decide
    · right
      obtain ⟨B₀, hB₀⟩ := hB2 hRne
      rw [hB₀, hpost, List.nil_append]
      refine ⟨?_, ?_⟩
      · rw [show ((['g'] ++ B₀) : List Char).head? = some 'g' from rfl]
        decide
      · intro h
        rw [show ((['g'] ++ B₀) : List Char).head? = some 'g' from rfl] at h
        exact absurd h (by decide)
  · exact absurd (show (['g', 'm'] : List Char) <:+: ['g'] from
      ⟨rL, rR, by rw [List.append_assoc]; exact hr.symm⟩) (by decide)
  · exact absurd hh (by decide)
  · rcases gmSplit_next_part s.length s le_rfl false pL pt pR hparts hpL with
      hnil | ⟨c, t, hct, hcaz⟩
    · rw [hnil] at hpt
      simp at hpt
    · rw [hct] at hpt
      injection hpt with hcm hrest0
      rw [hcm] at hcaz
      exact absurd hcaz (by decide)
  · exact absurd hh (by decide)

/-- The `cc` guard survives a replacement step whose separator and
replacement cannot interact with `cc` (letter-edged replacement). -/
theorem okCC_transfer_A (r : List Char) (hr : r ≠ [])
    (eL eR : Char → Bool) (s : List Char) (parts : List (List Char))
    (hne : parts ≠ [])
    (hctx : PartsCtx eL eR s parts)
    (hok : okCC s)
    (hrl : azOptB r.getLast? = true) (hrh : azOptB r.head? = true)
    (hII : ¬ (['c', 'c'] : List Char) <:+: r)
    (hIII : r.head? ≠ some 'c')
    (hIV : r.getLast? ≠ some 'c') :
    okCC (interJoin r parts) := by
  intro A B hAB
  rcases interJoin_occ_two r hr 'c' 'c' parts hne A B hAB with
    ⟨pL, pt, pR, pre, post, hparts, hpt, hA1, hA2, hB1, hB2⟩ |
    ⟨rL, rR, hrr⟩ |
    ⟨pL, pt, pR, pre, hparts, hpR, hpt, hh, hB⟩ |
    ⟨pL, pt, pR, post, hparts, hpL, hpt, hl, A₀, hA₀⟩ |
    ⟨hl, hh, hA₀, hB₀⟩
  · obtain ⟨X, Y, hj, hX1, hX2, hY1, hY2⟩ := hctx pL pt pR hparts
    have hsock := hok (X ++ pre) (post ++ Y)
      (by rw [hj, hpt]; simp [List.append_assoc])
    rcases hsock with hleft | hright
    · left
      rcases eq_or_ne pre [] with hpre0 | hpre0
      · subst hpre0
        rw [List.append_nil] at hleft
        rcases eq_or_ne X [] with hX0 | hX0
        · rw [hX0] at hleft
          simp [azOptB] at hleft
        · have hpLne : pL ≠ [] := fun h0 => hX0 (hX1 h0)
          obtain ⟨A₀, hA₀⟩ := hA2 hpLne
          rw [hA₀, List.append_nil, List.getLast?_append_of_ne_nil _ hr]
          exact hrl
      · rw [List.getLast?_append_of_ne_nil _ hpre0] at hleft
        rcases eq_or_ne pL [] with hL0 | hL0
        · rw [hA1 hL0]
          exact hleft
        · obtain ⟨A₀, hA₀⟩ := hA2 hL0
          rw [hA₀, List.getLast?_append_of_ne_nil _ hpre0]
          exact hleft
    · right
      rcases eq_or_ne post [] with hpost0 | hpost0
      · subst hpost0
        rw [List.nil_append] at hright
        rcases eq_or_ne Y [] with hY0 | hY0
        · rw [hY0] at hright
          simp [azOptB] at hright
        · have hpRne : pR ≠ [] := fun h0 => hY0 (hY1 h0)
          obtain ⟨B₀, hB₀⟩ := hB2 hpRne
          rw [hB₀, List.nil_append, head?_append_ne hr]
          exact hrh
      · rw [head?_append_ne hpost0] at hright
        rcases eq_or_ne pR [] with hR0 | hR0
        · rw [hB1 hR0]
          exact hright
        · obtain ⟨B₀, hB₀⟩ := hB2 hR0
          rw [hB₀, head?_append_ne (by simp [hpost0]), head?_append_ne hpost0]
          exact hright
  · exact absurd (show (['c', 'c'] : List Char) <:+: r from
      ⟨rL, rR, by rw [List.append_assoc]; exact hrr.symm⟩) hII
  · exact absurd hh hIII
  · exact absurd hl hIV
  · exact absurd hl hIV

/-- The `cc` guard survives the space-separated steps (junk filtering and
whitespace collapapsing): space-like neighbours are not letters, so the guard
lives inside the parts. -/
theorem okCC_transfer_B (r : List Char) (hr : r ≠ [])
    (eL eR : Char → Bool) (s : List Char) (parts : List (List Char))
    (hne : parts ≠ [])
    (hctx : PartsCtxW eL eR s parts)
    (hok : okCC s)
    (heL : ∀ c, eL c = true → azLower c = false)
    (heR : ∀ c, eR c = true → azLower c = false)
    (hII : ¬ (['c', 'c'] : List Char) <:+: r)
    (hIII : r.head? ≠ some 'c')
    (hIV : r.getLast? ≠ some 'c') :
    okCC (interJoin r parts) := by
  intro A B hAB
  rcases interJoin_occ_two r hr 'c' 'c' parts hne A B hAB with
    ⟨pL, pt, pR, pre, post, hparts, hpt, hA1, hA2, hB1, hB2⟩ |
    ⟨rL, rR, hrr⟩ |
    ⟨pL, pt, pR, pre, hparts, hpR, hpt, hh, hB⟩ |
    ⟨pL, pt, pR, post, hparts, hpL, hpt, hl, A₀, hA₀⟩ |
    ⟨hl, hh, hA₀, hB₀⟩
  · obtain ⟨X, Y, hj, hXd, hYd⟩ := hctx pL pt pR hparts
    have hsock := hok (X ++ pre) (post ++ Y)
      (by rw [hj, hpt]; simp [List.append_assoc])
    rcases hsock with hleft | hright
    · rcases eq_or_ne pre [] with hpre0 | hpre0
      · subst hpre0
        rw [List.append_nil] at hleft
        rcases hXd with hX0 | ⟨X₀, c, hX₀, hec⟩
        · rw [hX0] at hleft
          simp [azOptB] at hleft
        · rw [hX₀, List.getLast?_concat] at hleft
          have := heL c hec
          rw [show azOptB (some c) = azLower c from rfl, this] at hleft
          simp at hleft
      · left
        rw [List.getLast?_append_of_ne_nil _ hpre0] at hleft
        rcases eq_or_ne pL [] with hL0 | hL0
        · rw [hA1 hL0]
          exact hleft
        · obtain ⟨A₀, hA₀⟩ := hA2 hL0
          rw [hA₀, List.getLast?_append_of_ne_nil _ hpre0]
          exact hleft
    · rcases eq_or_ne post [] with hpost0 | hpost0
      · subst hpost0
        rw [List.nil_append] at hright
        rcases hYd with hY0 | ⟨c, Y₀, hY₀, hec⟩
        · rw [hY0] at hright
          simp [azOptB] at hright
        · rw [hY₀] at hright
          have := heR c hec
          rw [show azOptB (c :: Y₀).head? = azLower c from rfl, this] at hright
          simp at hright
      · right
        rw [head?_append_ne hpost0] at hright
        rcases eq_or_ne pR [] with hR0 | hR0
        · rw [hB1 hR0]
          exact hright
        · obtain ⟨B₀, hB₀⟩ := hB2 hR0
          rw [hB₀, head?_append_ne (by simp [hpost0]), head?_append_ne hpost0]
          exact hright
  · exact absurd (show (['c', 'c'] : List Char) <:+: r from
      ⟨rL, rR, by rw [List.append_assoc]; exact hrr.symm⟩) hII
  · exact absurd hh hIII
  · exact absurd hl hIV
  · exact absurd hl hIV

/-- The `iv` guard survives a replacement step whose separator and
replacement cannot interact with `iv` (word-edged replacement). -/
theorem okIV_transfer_A (r : List Char) (hr : r ≠ [])
    (eL eR : Char → Bool) (s : List Char) (parts : List (List Char))
    (hne : parts ≠ [])
    (hctx : PartsCtx eL eR s parts)
    (hok : okIV s)
    (hrl : wOptB r.getLast? = true) (hrh : wOptB r.head? = true)
    (hII : ¬ (['i', 'v'] : List Char) <:+: r)
    (hIII : r.head? ≠ some 'v')
    (hIV : r.getLast? ≠ some 'i') :
    okIV (interJoin r parts) := by
  intro A B hAB
  rcases interJoin_occ_two r hr 'i' 'v' parts hne A B hAB with
    ⟨pL, pt, pR, pre, post, hparts, hpt, hA1, hA2, hB1, hB2⟩ |
    ⟨rL, rR, hrr⟩ |
    ⟨pL, pt, pR, pre, hparts, hpR, hpt, hh, hB⟩ |
    ⟨pL, pt, pR, post, hparts, hpL, hpt, hl, A₀, hA₀⟩ |
    ⟨hl, hh, hA₀, hB₀⟩
  · obtain ⟨X, Y, hj, hX1, hX2, hY1, hY2⟩ := hctx pL pt pR hparts
    have hsock := hok (X ++ pre) (post ++ Y)
      (by rw [hj, hpt]; simp [List.append_assoc])
    rcases hsock with hleft | hright
    · left
      rcases eq_or_ne pre [] with hpre0 | hpre0
      · subst hpre0
        rw [List.append_nil] at hleft
        rcases eq_or_ne X [] with hX0 | hX0
        · rw [hX0] at hleft
          simp [wOptB] at hleft
        · have hpLne : pL ≠ [] := fun h0 => hX0 (hX1 h0)
          obtain ⟨A₀, hA₀⟩ := hA2 hpLne
          rw [hA₀, List.append_nil, List.getLast?_append_of_ne_nil _ hr]
          exact hrl
      · rw [List.getLast?_append_of_ne_nil _ hpre0] at hleft
        rcases eq_or_ne pL [] with hL0 | hL0
        · rw [hA1 hL0]
          exact hleft
        · obtain ⟨A₀, hA₀⟩ := hA2 hL0
          rw [hA₀, List.getLast?_append_of_ne_nil _ hpre0]
          exact hleft
    · right
      rcases eq_or_ne post [] with hpost0 | hpost0
      · subst hpost0
        rw [List.nil_append] at hright
        rcases eq_or_ne Y [] with hY0 | hY0
        · rw [hY0] at hright
          simp [wOptB] at hright
        · have hpRne : pR ≠ [] := fun h0 => hY0 (hY1 h0)
          obtain ⟨B₀, hB₀⟩ := hB2 hpRne
          rw [hB₀, List.nil_append, head?_append_ne hr]
          exact hrh
      · rw [head?_append_ne hpost0] at hright
        rcases eq_or_ne pR [] with hR0 | hR0
        · rw [hB1 hR0]
          exact hright
        · obtain ⟨B₀, hB₀⟩ := hB2 hR0
          rw [hB₀, head?_append_ne (by simp [hpost0]), head?_append_ne hpost0]
          exact hright
  · exact absurd (show (['i', 'v'] : List Char) <:+: r from
      ⟨rL, rR, by rw [List.append_assoc]; exact hrr.symm⟩) hII
  · exact absurd hh hIII
  · exact absurd hl hIV
  · exact absurd hl hIV

/-- The `iv` guard survives the space-separated steps (junk filtering and
whitespace collapsing): space-like neighbours are not letters, so the guard
lives inside the parts. -/
theorem okIV_transfer_B (r : List Char) (hr : r ≠ [])
    (eL eR : Char → Bool) (s : List Char) (parts : List (List Char))
    (hne : parts ≠ [])
    (hctx : PartsCtxW eL eR s parts)
    (hok : okIV s)
    (heL : ∀ c, eL c = true → isWordCharE c = false)
    (heR : ∀ c, eR c = true → isWordCharE c = false)
    (hII : ¬ (['i', 'v'] : List Char) <:+: r)
    (hIII : r.head? ≠ some 'v')
    (hIV : r.getLast? ≠ some 'i') :
    okIV (interJoin r parts) := by
  intro A B hAB
  rcases interJoin_occ_two r hr 'i' 'v' parts hne A B hAB with
    ⟨pL, pt, pR, pre, post, hparts, hpt, hA1, hA2, hB1, hB2⟩ |
    ⟨rL, rR, hrr⟩ |
    ⟨pL, pt, pR, pre, hparts, hpR, hpt, hh, hB⟩ |
    ⟨pL, pt, pR, post, hparts, hpL, hpt, hl, A₀, hA₀⟩ |
    ⟨hl, hh, hA₀, hB₀⟩
  · obtain ⟨X, Y, hj, hXd, hYd⟩ := hctx pL pt pR hparts
    have hsock := hok (X ++ pre) (post ++ Y)
      (by rw [hj, hpt]; simp [List.append_assoc])
    rcases hsock with hleft | hright
    · rcases eq_or_ne pre [] with hpre0 | hpre0
      · subst hpre0
        rw [List.append_nil] at hleft
        rcases hXd with hX0 | ⟨X₀, c, hX₀, hec⟩
        · rw [hX0] at hleft
          simp [wOptB] at hleft
        · rw [hX₀, List.getLast?_concat] at hleft
          have := heL c hec
          rw [show wOptB (some c) = isWordCharE c from rfl, this] at hleft
          simp at hleft
      · left
        rw [List.getLast?_append_of_ne_nil _ hpre0] at hleft
        rcases eq_or_ne pL [] with hL0 | hL0
        · rw [hA1 hL0]
          exact hleft
        · obtain ⟨A₀, hA₀⟩ := hA2 hL0
          rw [hA₀, List.getLast?_append_of_ne_nil _ hpre0]
          exact hleft
    · rcases eq_or_ne post [] with hpost0 | hpost0
      · subst hpost0
        rw [List.nil_append] at hright
        rcases hYd with hY0 | ⟨c, Y₀, hY₀, hec⟩
        · rw [hY0] at hright
          simp [wOptB] at hright
        · rw [hY₀] at hright
          have := heR c hec
          rw [show wOptB (c :: Y₀).head? = isWordCharE c from rfl, this] at hright
          simp at hright
      · right
        rw [head?_append_ne hpost0] at hright
        rcases eq_or_ne pR [] with hR0 | hR0
        · rw [hB1 hR0]
          exact hright
        · obtain ⟨B₀, hB₀⟩ := hB2 hR0
          rw [hB₀, head?_append_ne (by simp [hpost0]), head?_append_ne hpost0]
          exact hright
  · exact absurd (show (['i', 'v'] : List Char) <:+: r from
      ⟨rL, rR, by rw [List.append_assoc]; exact hrr.symm⟩) hII
  · exact absurd hh hIII
  · exact absurd hl hIV
  · exact absurd hl hIV

/-- The `gm` guard survives a replacement step whose replacement string is
letter-edged, does not start with `s`, and meets the junction conditions
for `m`-initial and `g`-final replacements (the `mg` insertion). -/
theorem okGM_transfer_A (r : List Char) (hr : r ≠ [])
    (eL eR : Char → Bool) (s : List Char) (parts : List (List Char))
    (hne : parts ≠ [])
    (hctx : PartsCtx eL eR s parts)
    (hok : okGM s)
    (hrl : azOptB r.getLast? = true) (hrh : azOptB r.head? = true)
    (hrhs : r.head? ≠ some 's')
    (hII : ¬ (['g', 'm'] : List Char) <:+: r)
    (hIII : r.head? = some 'm' →
      ∃ d, r.tail.head? = some d ∧ azLower d = true ∧ d ≠ 's')
    (hIV : r.getLast? = some 'g' →
      ∃ d, r.dropLast.getLast? = some d ∧ azLower d = true) :
    okGM (interJoin r parts) := by
  intro A B hAB
  rcases interJoin_occ_two r hr 'g' 'm' parts hne A B hAB with
    ⟨pL, pt, pR, pre, post, hparts, hpt, hA1, hA2, hB1, hB2⟩ |
    ⟨rL, rR, hrr⟩ |
    ⟨pL, pt, pR, pre, hparts, hpR, hpt, hh, B₀, hB₀⟩ |
    ⟨pL, pt, pR, post, hparts, hpL, hpt, hl, A₀, hA₀⟩ |
    ⟨hl, hh, ⟨A₀, hA₀⟩, B₀, hB₀⟩
  · obtain ⟨X, Y, hj, hX1, hX2, hY1, hY2⟩ := hctx pL pt pR hparts
    have hsock := hok (X ++ pre) (post ++ Y)
      (by rw [hj, hpt]; simp [List.append_assoc])
    rcases hsock with hleft | ⟨hr1, hr2⟩
    · left
      rcases eq_or_ne pre [] with hpre0 | hpre0
      · subst hpre0
        rw [List.append_nil] at hleft
        rcases eq_or_ne X [] with hX0 | hX0
        · rw [hX0] at hleft
          simp [azOptB] at hleft
        · have hpLne : pL ≠ [] := fun h0 => hX0 (hX1 h0)
          obtain ⟨A₀, hA₀⟩ := hA2 hpLne
          rw [hA₀, List.append_nil, List.getLast?_append_of_ne_nil _ hr]
          exact hrl
      · rw [List.getLast?_append_of_ne_nil _ hpre0] at hleft
        rcases eq_or_ne pL [] with hL0 | hL0
        · rw [hA1 hL0]
          exact hleft
        · obtain ⟨A₀, hA₀⟩ := hA2 hL0
          rw [hA₀, List.getLast?_append_of_ne_nil _ hpre0]
          exact hleft
    · right
      match post, hr1, hr2 with
      | [], hr1, hr2 =>
        rw [List.nil_append] at hr1 hr2
        rcases eq_or_ne Y [] with hY0 | hY0
        · rw [hY0] at hr1
          simp [azOptB] at hr1
        · have hpRne : pR ≠ [] := fun h0 => hY0 (hY1 h0)
          obtain ⟨B₀, hB₀⟩ := hB2 hpRne
          rw [hB₀, List.nil_append]
          refine ⟨by rw [head?_append_ne hr]; exact hrh, ?_⟩
          intro hhs
          rw [head?_append_ne hr] at hhs
          exact absurd hhs hrhs
      | [c], hr1, hr2 =>
        have hhead : ((c :: Y).head? : Option Char) = some c := rfl
        rw [show ([c] ++ Y : List Char) = c :: Y from rfl] at hr1 hr2
        rw [hhead] at hr1 hr2
        rcases eq_or_ne pR [] with hR0 | hR0
        · rw [hB1 hR0]
          refine ⟨hr1, ?_⟩
          intro hcs
          have hc : c = 's' := by
            simp only [List.head?_cons] at hcs
            exact Option.some.inj hcs
          have hy := hr2 (by rw [hc])
          rw [show (c :: Y).tail = Y from rfl] at hy
          rw [hY1 hR0] at hy
          simp [azOptB] at hy
        · obtain ⟨B₀, hB₀⟩ := hB2 hR0
          rw [hB₀]
          have hBform : ([c] ++ r ++ B₀ : List Char) = c :: (r ++ B₀) := by simp
          rw [hBform]
          refine ⟨hr1, ?_⟩
          intro _
          show azOptB ((r ++ B₀).head?) = true
          rw [head?_append_ne hr]
          exact hrh
      | c1 :: c2 :: post', hr1, hr2 =>
        have h1 : ((c1 :: c2 :: post') ++ Y : List Char).head? = some c1 := rfl
        rw [h1] at hr1 hr2
        have h2 : ((c1 :: c2 :: post') ++ Y : List Char).tail.head? = some c2 := rfl
        rw [h2] at hr2
        rcases eq_or_ne pR [] with hR0 | hR0
        · rw [hB1 hR0]
          exact ⟨hr1, fun hcs => by
            rw [show (c1 :: c2 :: post').tail.head? = some c2 from rfl]
            exact hr2 hcs⟩
        · obtain ⟨B₀, hB₀⟩ := hB2 hR0
          rw [hB₀]
          have hBform : ((c1 :: c2 :: post') ++ r ++ B₀ : List Char) =
              c1 :: c2 :: (post' ++ r ++ B₀) := by simp
          rw [hBform]
          exact ⟨hr1, fun hcs => by
            rw [show (c1 :: c2 :: (post' ++ r ++ B₀)).tail.head? = some c2 from rfl]
            exact hr2 hcs⟩
  · exact absurd (show (['g', 'm'] : List Char) <:+: r from
      ⟨rL, rR, by rw [List.append_assoc]; exact hrr.symm⟩) hII
  · obtain ⟨d, hd, hdaz, hds⟩ := hIII hh
    right
    have htail : r.tail ≠ [] := by
      intro h0
      rw [h0] at hd
      simp at hd
    rw [hB₀, head?_append_ne htail, hd]
    refine ⟨hdaz, ?_⟩
    intro hds'
    exact absurd (Option.some.inj hds') hds
  · obtain ⟨d, hd, hdaz⟩ := hIV hl
    left
    have hdrop : r.dropLast ≠ [] := by
      intro h0
      rw [h0] at hd
      simp at hd
    rw [hA₀, List.getLast?_append_of_ne_nil _ hdrop, hd]
    exact hdaz
  · obtain ⟨d, hd, hdaz⟩ := hIV hl
    left
    have hdrop : r.dropLast ≠ [] := by
      intro h0
      rw [h0] at hd
      simp at hd
    rw [hA₀, List.getLast?_append_of_ne_nil _ hdrop, hd]
    exact hdaz

/-- The `gm` guard survives the space-separated steps: space-like neighbours
are not letters, so the guard lives inside the parts. -/
theorem okGM_transfer_B (r : List Char) (hr : r ≠ [])
    (eL eR : Char → Bool) (s : List Char) (parts : List (List Char))
    (hne : parts ≠ [])
    (hctx : PartsCtxW eL eR s parts)
    (hok : okGM s)
    (heL : ∀ c, eL c = true → azLower c = false)
    (heR : ∀ c, eR c = true → azLower c = false)
    (hII : ¬ (['g', 'm'] : List Char) <:+: r)
    (hIII : r.head? ≠ some 'm')
    (hIV : r.getLast? ≠ some 'g') :
    okGM (interJoin r parts) := by
  intro A B hAB
  rcases interJoin_occ_two r hr 'g' 'm' parts hne A B hAB with
    ⟨pL, pt, pR, pre, post, hparts, hpt, hA1, hA2, hB1, hB2⟩ |
    ⟨rL, rR, hrr⟩ |
    ⟨pL, pt, pR, pre, hparts, hpR, hpt, hh, B₀, hB₀⟩ |
    ⟨pL, pt, pR, post, hparts, hpL, hpt, hl, A₀, hA₀⟩ |
    ⟨hl, hh, ⟨A₀, hA₀⟩, B₀, hB₀⟩
  · obtain ⟨X, Y, hj, hXd, hYd⟩ := hctx pL pt pR hparts
    have hsock := hok (X ++ pre) (post ++ Y)
      (by rw [hj, hpt]; simp [List.append_assoc])
    rcases hsock with hleft | ⟨hr1, hr2⟩
    · rcases eq_or_ne pre [] with hpre0 | hpre0
      · subst hpre0
        rw [List.append_nil] at hleft
        rcases hXd with hX0 | ⟨X₀, c, hX₀, hec⟩
        · rw [hX0] at hleft
          simp [azOptB] at hleft
        · rw [hX₀, List.getLast?_concat] at hleft
          have := heL c hec
          rw [show azOptB (some c) = azLower c from rfl, this] at hleft
          simp at hleft
      · left
        rw [List.getLast?_append_of_ne_nil _ hpre0] at hleft
        rcases eq_or_ne pL [] with hL0 | hL0
        · rw [hA1 hL0]
          exact hleft
        · obtain ⟨A₀, hA₀⟩ := hA2 hL0
          rw [hA₀, List.getLast?_append_of_ne_nil _ hpre0]
          exact hleft
    · right
      match post, hr1, hr2 with
      | [], hr1, hr2 =>
        exfalso
        rw [List.nil_append] at hr1
        rcases hYd with hY0 | ⟨c, Y₀, hY₀, hec⟩
        · rw [hY0] at hr1
          simp [azOptB] at hr1
        · rw [hY₀] at hr1
          have := heR c hec
          rw [show azOptB (c :: Y₀).head? = azLower c from rfl, this] at hr1
          simp at hr1
      | [c], hr1, hr2 =>
        rw [show ([c] ++ Y : List Char) = c :: Y from rfl,
          show ((c :: Y : List Char)).head? = some c from rfl] at hr1 hr2
        have hcnots : c ≠ 's' := by
          intro hc
          have hy := hr2 (by rw [hc])
          rw [show (c :: Y).tail = Y from rfl] at hy
          rcases hYd with hY0 | ⟨d, Y₀, hY₀, hed⟩
          · rw [hY0] at hy
            simp [azOptB] at hy
          · rw [hY₀] at hy
            have := heR d hed
            rw [show azOptB (d :: Y₀).head? = azLower d from rfl, this] at hy
            simp at hy
        rcases eq_or_ne pR [] with hR0 | hR0
        · rw [hB1 hR0]
          exact ⟨hr1, fun hcs => absurd (Option.some.inj hcs) hcnots⟩
        · obtain ⟨B₀, hB₀⟩ := hB2 hR0
          rw [hB₀]
          have hBform : ([c] ++ r ++ B₀ : List Char) = c :: (r ++ B₀) := by simp
          rw [hBform]
          exact ⟨hr1, fun hcs => absurd (Option.some.inj hcs) hcnots⟩
      | c1 :: c2 :: post', hr1, hr2 =>
        rw [show ((c1 :: c2 :: post') ++ Y : List Char).head? = some c1 from rfl]
          at hr1 hr2
        rw [show ((c1 :: c2 :: post') ++ Y : List Char).tail.head? = some c2
          from rfl] at hr2
        rcases eq_or_ne pR [] with hR0 | hR0
        · rw [hB1 hR0]
          exact ⟨hr1, fun hcs => by
            rw [show (c1 :: c2 :: post').tail.head? = some c2 from rfl]
            exact hr2 hcs⟩
        · obtain ⟨B₀, hB₀⟩ := hB2 hR0
          rw [hB₀]
          have hBform : ((c1 :: c2 :: post') ++ r ++ B₀ : List Char) =
              c1 :: c2 :: (post' ++ r ++ B₀) := by simp
          rw [hBform]
          exact ⟨hr1, fun hcs => by
            rw [show (c1 :: c2 :: (post' ++ r ++ B₀)).tail.head? = some c2 from rfl]
            exact hr2 hcs⟩
  · exact absurd (show (['g', 'm'] : List Char) <:+: r from
      ⟨rL, rR, by rw [List.append_assoc]; exact hrr.symm⟩) hII
  · exact absurd hh hIII
  · exact absurd hl hIV
  · exact absurd hl hIV

/-! ### Step corollaries -/

/-- `rAll` with a non-empty pattern is the join of the split parts. -/
theorem rAll_eq (q r s : List Char) (hq : q ≠ []) :
    rAll q r s = interJoin r (splitOnL q s) := by
  unfold rAll
  rw [if_neg (by simpa [List.isEmpty_iff] using hq)]

/-- Each part of a strict parts context is an infix of the input. -/
theorem PartsCtx.part_within {eL eR : Char → Bool} {s : List Char}
    {parts : List (List Char)} (h : PartsCtx eL eR s parts) {part : List Char}
    (hm : part ∈ parts) : part <:+: s := by
  obtain ⟨L, R, hLR⟩ := List.append_of_mem hm
  obtain ⟨X, Y, hj, -, -, -, -⟩ := h L part R hLR
  exact ⟨X, Y, hj.symm⟩

/-- Each part of a weak parts context is an infix of the input. -/
theorem PartsCtxW.partW_within {eL eR : Char → Bool} {s : List Char}
    {parts : List (List Char)} (h : PartsCtxW eL eR s parts) {part : List Char}
    (hm : part ∈ parts) : part <:+: s := by
  obtain ⟨L, R, hLR⟩ := List.append_of_mem hm
  obtain ⟨X, Y, hj, -, -⟩ := h L part R hLR
  exact ⟨X, Y, hj.symm⟩

/-- The weak parts context of the word scanner. -/
theorem partsCtxW_wordsOf (s : List Char) :
    PartsCtxW pyIsSpace pyIsSpace s (wordsOf s) := by
  intro partsL part partsR hdec
  obtain ⟨X, Y, hj, -, -, hXd, hYd⟩ :=
    wordsCtx s.length s le_rfl false partsL part partsR hdec
  exact ⟨X, Y, hj, hXd, hYd⟩

/-- The weak parts context of the junk-run scanner. -/
theorem partsCtxW_filterRun (s : List Char) :
    PartsCtxW (fun c => !allowedChar c) (fun c => !allowedChar c) s
      (filterRun false s) := by
  intro partsL part partsR hdec
  obtain ⟨X, Y, hj, -, -, hXd, hYd⟩ :=
    filterCtx s.length s le_rfl false partsL part partsR hdec
  refine ⟨X, Y, hj, ?_, ?_⟩
  · rcases hXd with h | ⟨X₀, c, hX₀, hc⟩
    · exact Or.inl h
    · exact Or.inr ⟨X₀, c, hX₀, by simp [hc]⟩
  · rcases hYd with h | ⟨c, Y₀, hY₀, hc⟩
    · exact Or.inl h
    · exact Or.inr ⟨c, Y₀, hY₀, by simp [hc]⟩

/-- Pattern absence is preserved by the `cc` replacement when the pattern
cannot overlap `ml`. -/
theorem pres_ccReplace (p : List Char) (hp : p ≠ [])
    (h1 : ¬ p <:+: ['m', 'l'])
    (h2 : ∀ k, k < 2 → ¬ ((['m', 'l'] : List Char).drop k <+: p))
    (h3 : ¬ (['m', 'l'] : List Char) <:+: p)
    (h4 : ∀ k, 0 < k → k < p.length → ¬ (p.drop k <+: ['m', 'l']))
    {z : List Char} (hz : ¬ p <:+: z) : ¬ p <:+: ccReplace z := by
  unfold ccReplace
  refine not_infix_interJoin p ['m', 'l'] hp h1 (by simpa using h2) h3 h4 _ ?_
  intro part hm hinf
  exact hz (hinf.trans ((partsCtx_ccSplit z.length z le_rfl false).part_within hm))

/-- Pattern absence is preserved by the `gm` replacement when the pattern
cannot overlap `g`. -/
theorem pres_gmReplace (p : List Char) (hp : p ≠ [])
    (h1 : ¬ p <:+: ['g'])
    (h2 : ∀ k, k < 1 → ¬ ((['g'] : List Char).drop k <+: p))
    (h3 : ¬ (['g'] : List Char) <:+: p)
    (h4 : ∀ k, 0 < k → k < p.length → ¬ (p.drop k <+: ['g']))
    {z : List Char} (hz : ¬ p <:+: z) : ¬ p <:+: gmReplace z := by
  unfold gmReplace
  refine not_infix_interJoin p ['g'] hp h1 (by simpa using h2) h3 h4 _ ?_
  intro part hm hinf
  exact hz (hinf.trans ((partsCtx_gmSplit z.length z le_rfl false).part_within hm))

/-- Pattern absence is preserved by whitespace collapsing when the pattern
cannot overlap a space. -/
theorem pres_collapseWs (p : List Char) (hp : p ≠ [])
    (h1 : ¬ p <:+: [' '])
    (h2 : ∀ k, k < 1 → ¬ (([' '] : List Char).drop k <+: p))
    (h3 : ¬ ([' '] : List Char) <:+: p)
    (h4 : ∀ k, 0 < k → k < p.length → ¬ (p.drop k <+: [' ']))
    {z : List Char} (hz : ¬ p <:+: z) : ¬ p <:+: collapseWs z := by
  unfold collapseWs
  refine not_infix_interJoin p [' '] hp h1 (by simpa using h2) h3 h4 _ ?_
  intro part hm hinf
  exact hz (hinf.trans ((partsCtxW_wordsOf z).partW_within hm))

/-- The `gm` replacement cannot create a `μg` occurrence: the inserted `g`
follows a matched `gm`, whose own `g` already followed the part. -/
theorem pres_gmReplace_mug {z : List Char} (hz : ¬ (['μ', 'g'] : List Char) <:+: z) :
    ¬ (['μ', 'g'] : List Char) <:+: gmReplace z := by
  intro h
  obtain ⟨A, B, hAB⟩ := h
  rcases interJoin_occ_two ['g'] (by simp) 'μ' 'g' (gmSplit false z)
      (gmSplit_ne_nil false z) A B
      (by rw [show interJoin ['g'] (gmSplit false z) = gmReplace z from rfl,
            ← hAB]
          simp [List.append_assoc]) with
    ⟨pL, pt, pR, pre, post, hparts, hpt, -, -, -, -⟩ |
    ⟨rL, rR, hrr⟩ |
    ⟨pL, pt, pR, pre, hparts, hpR, hpt, -, -⟩ |
    ⟨pL, pt, pR, post, hparts, hpL, hpt, hl, -, -⟩ |
    ⟨hl, -, -, -⟩
  · have hinf : (['μ', 'g'] : List Char) <:+: pt := by
      refine ⟨pre, post, ?_⟩
      rw [hpt]
      simp
    refine hz (hinf.trans ?_)
    exact (partsCtx_gmSplit z.length z le_rfl false).part_within
      (hparts ▸ List.mem_append_right pL (List.mem_cons_self pt pR))
  · have hlen := congrArg List.length hrr
    simp at hlen
    omega
  · obtain ⟨X, Y, hj, -, -, hY1, hY2⟩ :=
      partsCtx_gmSplit z.length z le_rfl false pL pt pR hparts
    obtain ⟨c, Y₀, hY₀, hc⟩ := hY2 hpR
    have hcg : c = 'g' := by
      revert hc
      simp
    refine hz ⟨X ++ pre, Y₀, ?_⟩
    rw [hj, hpt, hY₀, hcg]
    simp [List.append_assoc]
  · simp at hl
  · simp at hl

/-! ### Character-level facts -/

/-- A successful association-list lookup produces a member. -/
theorem mem_of_lookup {l : List (Char × List Char)} {k : Char} {v : List Char}
    (h : l.lookup k = some v) : (k, v) ∈ l := by
  induction l with
  | nil => simp [List.lookup] at h
  | cons p t ih =>
    obtain ⟨k1, v1⟩ := p
    rw [show ((k1, v1) :: t).lookup k = if k == k1 then some v1 else t.lookup k by
      rw [List.lookup_cons]
      cases k == k1 <;> rfl] at h
    by_cases hk : k == k1
    · rw [if_pos hk] at h
      have h1 : k1 = k := by have := eq_of_beq hk; rw [this]
      have h2 : v1 = v := by simpa using h
      rw [← h1, ← h2]
      exact List.mem_cons_self _ _
    · rw [if_neg hk] at h
      exact List.mem_cons_of_mem _ (ih h)

/-- A lookup for a key below every table key misses. -/
theorem lookup_none_big {l : List (Char × List Char)}
    (hl : ∀ p ∈ l, 0xAA ≤ (p.1).toNat) {c : Char} (hc : c.toNat < 0xAA) :
    l.lookup c = none := by
  induction l with
  | nil => rfl
  | cons p t ih =>
    obtain ⟨k1, v1⟩ := p
    rw [show ((k1, v1) :: t).lookup c = if c == k1 then some v1 else t.lookup c by
      rw [List.lookup_cons]
      cases c == k1 <;> rfl]
    have hbig : 170 ≤ k1.toNat := hl (k1, v1) (List.mem_cons_self _ t)
    have hne : c ≠ k1 := by
      intro h0
      rw [← h0] at hbig
      omega
    rw [if_neg (by simpa using hne)]
    exact ih (fun q hq => hl q (List.mem_cons_of_mem _ hq))

/-- Every key of the NFKD table is at least U+00AA. -/
theorem nfkdTable_keys_big : ∀ p ∈ nfkdTable, 0xAA ≤ (p.1).toNat := by decide

/-- Every character in an NFKD decomposition is itself NFKD-fixed. -/
theorem nfkd_image_good (c d : Char) (hd : d ∈ nfkdChar c) :
    nfkdTable.lookup d = none := by
  unfold nfkdChar at hd
  cases hl : nfkdTable.lookup c with
  | none =>
    rw [hl] at hd
    simp at hd
    rw [hd]
    exact hl
  | some v =>
    rw [hl] at hd
    simp at hd
    have hmem : (c, v) ∈ nfkdTable := mem_of_lookup hl
    have hall : ∀ p ∈ nfkdTable, ∀ d ∈ p.2, nfkdTable.lookup d = none := by decide
    exact hall (c, v) hmem d hd

/-- Characters below the combining block are not combining marks. -/
theorem isCombining_small (x : Char) (h : x.toNat < 0x300) :
    isCombining x = false := by
  unfold isCombining
  have h1 : ¬ ((0x300 : UInt32) ≤ x.val) := by
    intro hle
    have h0 : (0x300 : UInt32).toNat ≤ x.val.toNat := hle
    have h2 : x.toNat = x.val.toNat := rfl
    have h3 : (0x300 : UInt32).toNat = 768 := rfl
    omega
  simp [h1]

/-- Lower-casing preserves NFKD-fixedness and non-combining status. -/
theorem toLower_keeps (c : Char) (h2 : nfkdTable.lookup c = none)
    (h3 : isCombining c = false) :
    nfkdTable.lookup c.toLower = none ∧ isCombining c.toLower = false := by
  by_cases h : c.toNat ≥ 65 ∧ c.toNat ≤ 90
  · have hv2 : (c.toNat + 32).isValidChar := by left; omega
    have e := chOfNatToNat (c.toNat + 32) hv2
    have h1 : c.toLower = Char.ofNat (c.toNat + 32) := by
      unfold Char.toLower
      simp [h]
    rw [h1]
    constructor
    · exact lookup_none_big nfkdTable_keys_big (by rw [e]; omega)
    · exact isCombining_small _ (by rw [e]; omega)
  · have h1 : c.toLower = c := by
      unfold Char.toLower
      simp [h]
    rw [h1]
    exact ⟨h2, h3⟩

/-- Membership in a `consHead` result. -/
theorem consHead_mem {c : Char} {parts : List (List Char)} {part : List Char}
    (h : part ∈ consHead c parts) :
    (parts = [] ∧ part = [c]) ∨
    (∃ h₁ t, parts = h₁ :: t ∧ (part = c :: h₁ ∨ part ∈ t)) := by
  match parts, h with
  | [], h =>
    left
    exact ⟨rfl, by simpa [consHead] using h⟩
  | h₁ :: t, h =>
    right
    refine ⟨h₁, t, rfl, ?_⟩
    simpa [consHead] using h

/-- Characters of a join come from the separator or from a part. -/
theorem interJoin_chars {r : List Char} {parts : List (List Char)} {c : Char}
    (h : c ∈ interJoin r parts) : c ∈ r ∨ ∃ part ∈ parts, c ∈ part := by
  induction parts with
  | nil => simp [interJoin] at h
  | cons a l ih =>
    match l, h with
    | [], h => exact Or.inr ⟨a, by simp, by simpa [interJoin] using h⟩
    | b :: t, h =>
      rw [interJoin_cons r a (b :: t) (by simp)] at h
      simp only [List.mem_append] at h
      rcases h with (ha | hr) | hj
      · exact Or.inr ⟨a, by simp, ha⟩
      · exact Or.inl hr
      · rcases ih hj with hr | ⟨part, hm, hc⟩
        · exact Or.inl hr
        · exact Or.inr ⟨part, by simp [hm], hc⟩

/-- Characters of `rAll` output come from the replacement or the input. -/
theorem rAll_sub {q r z : List Char} (hq : q ≠ []) {c : Char}
    (h : c ∈ rAll q r z) : c ∈ r ∨ c ∈ z := by
  rw [rAll_eq q r z hq] at h
  rcases interJoin_chars h with hr | ⟨part, hm, hc⟩
  · exact Or.inl hr
  · exact Or.inr ((splitOnL_part_within hq hm).subset hc)

/-- Characters of the `cc` replacement come from `ml` or the input. -/
theorem ccReplace_sub {z : List Char} {c : Char} (h : c ∈ ccReplace z) :
    c ∈ (['m', 'l'] : List Char) ∨ c ∈ z := by
  rcases interJoin_chars h with hr | ⟨part, hm, hc⟩
  · exact Or.inl hr
  · exact Or.inr
      (((partsCtx_ccSplit z.length z le_rfl false).part_within hm).subset hc)

/-- Characters of the `gm` replacement come from `g` or the input. -/
theorem gmReplace_sub {z : List Char} {c : Char} (h : c ∈ gmReplace z) :
    c ∈ (['g'] : List Char) ∨ c ∈ z := by
  rcases interJoin_chars h with hr | ⟨part, hm, hc⟩
  · exact Or.inl hr
  · exact Or.inr
      (((partsCtx_gmSplit z.length z le_rfl false).part_within hm).subset hc)

/-- Characters of the `iv` replacement come from `intravenous` or the input. -/
theorem ivReplace_sub {z : List Char} {c : Char} (h : c ∈ ivReplace z) :
    c ∈ (['i', 'n', 't', 'r', 'a', 'v', 'e', 'n', 'o', 'u', 's'] : List Char) ∨
      c ∈ z := by
  rcases interJoin_chars h with hr | ⟨part, hm, hc⟩
  · exact Or.inl hr
  · exact Or.inr
      (((partsCtx_ivSplit z.length z le_rfl false).part_within hm).subset hc)

/-- Characters of the collapsed string come from a space or the input. -/
theorem collapseWs_sub {z : List Char} {c : Char} (h : c ∈ collapseWs z) :
    c = ' ' ∨ c ∈ z := by
  rcases interJoin_chars h with hr | ⟨part, hm, hc⟩
  · exact Or.inl (by simpa using hr)
  · exact Or.inr (((partsCtxW_wordsOf z).partW_within hm).subset hc)

/-! ### Character-wise step identities -/

/-- NFKD-stripping fixes a string of NFKD-fixed non-combining characters. -/
theorem nfkdStrip_id (s : List Char)
    (h : ∀ c ∈ s, nfkdTable.lookup c = none ∧ isCombining c = false) :
    nfkdStrip s = s := by
  induction s with
  | nil => rfl
  | cons c t ih =>
    obtain ⟨h1, h2⟩ := h c (by simp)
    have hc : nfkdChar c = [c] := by unfold nfkdChar; rw [h1]; rfl
    unfold nfkdStrip
    simp only [List.map_cons, List.flatten_cons, List.filter_append]
    rw [hc]
    have ih' := ih (fun d hd => h d (by simp [hd]))
    unfold nfkdStrip at ih'
    rw [ih']
    simp [h2]

/-- Lower-casing fixes a string of lower-case-fixed characters. -/
theorem pyLower_id (s : List Char) (h : ∀ c ∈ s, c.toLower = c) : pyLower s = s := by
  unfold pyLower
  rw [List.map_congr_left h]
  simp

/-- The junk scan keeps an all-allowed string whole. -/
theorem filterRun_allowed_id (s : List Char)
    (h : ∀ c ∈ s, allowedChar c = true) : filterRun false s = [s] := by
  induction s with
  | nil => rfl
  | cons c t ih =>
    rw [show filterRun false (c :: t) = consHead c (filterRun false t) by
      conv_lhs => unfold filterRun
      rw [if_pos (h c (by simp))]]
    rw [ih (fun d hd => h d (by simp [hd]))]
    rfl

/-- The junk filter fixes an all-allowed string. -/
theorem filterJunk_id (s : List Char) (h : ∀ c ∈ s, allowedChar c = true) :
    filterJunk s = s := by
  unfold filterJunk
  rw [filterRun_allowed_id s h]
  rfl

/-- Characters in junk-scan parts are allowed characters of the input. -/
theorem filterRun_chars :
    ∀ n s, List.length s ≤ n → ∀ b part, part ∈ filterRun b s →
      ∀ c ∈ part, allowedChar c = true ∧ c ∈ s := by
  intro n
  induction n with
  | zero =>
    intro s hs b part hm c hc
    have hnil : s = [] := List.eq_nil_of_length_eq_zero (Nat.le_zero.mp hs)
    subst hnil
    simp [filterRun] at hm
    rw [hm] at hc
    simp at hc
  | succ n ih =>
    intro s hs b part hm c hc
    match s, hs with
    | [], hs =>
      simp [filterRun] at hm
      rw [hm] at hc
      simp at hc
    | d :: s', hs =>
      have hs' : s'.length ≤ n := by simp at hs; omega
      by_cases hal : allowedChar d = true
      · rw [show filterRun b (d :: s') = consHead d (filterRun false s') by
          conv_lhs => unfold filterRun
          rw [if_pos hal]] at hm
        rcases consHead_mem hm with ⟨hp0, hpart⟩ | ⟨h₁, t, hparts, hcase⟩
        · exact absurd hp0 (filterRun_ne_nil' false s')
        · rcases hcase with hpart | hmem
          · rw [hpart] at hc
            rcases List.mem_cons.mp hc with hcd | hch
            · subst hcd
              exact ⟨hal, by simp⟩
            · have := ih s' hs' false h₁ (by rw [hparts]; simp) c hch
              exact ⟨this.1, by simp [this.2]⟩
          · have := ih s' hs' false part (by rw [hparts]; simp [hmem]) c hc
            exact ⟨this.1, by simp [this.2]⟩
      · have haf : allowedChar d = false := by
          revert hal; cases allowedChar d <;> simp
        match b, hm with
        | true, hm =>
          rw [show filterRun true (d :: s') = filterRun true s' by
            conv_lhs => unfold filterRun
            rw [if_neg (by rw [haf]; simp)]
            rfl] at hm
          have := ih s' hs' true part hm c hc
          exact ⟨this.1, by simp [this.2]⟩
        | false, hm =>
          rw [show filterRun false (d :: s') = [] :: filterRun true s' by
            conv_lhs => unfold filterRun
            rw [if_neg (by rw [haf]; simp)]
            rfl] at hm
          rcases List.mem_cons.mp hm with hp0 | hmem
          · rw [hp0] at hc
            simp at hc
          · have := ih s' hs' true part hmem c hc
            exact ⟨this.1, by simp [this.2]⟩

/-- Every character of the junk-filtered string is allowed. -/
theorem filterJunk_allowed {z : List Char} {c : Char} (h : c ∈ filterJunk z) :
    allowedChar c = true := by
  rcases interJoin_chars h with hr | ⟨part, hm, hc⟩
  · simp at hr
    rw [hr]
    decide
  · exact (filterRun_chars z.length z le_rfl false part hm c hc).1

/-! ### Whitespace collapsing -/

/-- Words contain no whitespace characters. -/
theorem wordsAux_spacefree :
    ∀ n s, List.length s ≤ n → ∀ inW part, part ∈ wordsAux inW s →
      ∀ c ∈ part, pyIsSpace c = false := by
  intro n
  induction n with
  | zero =>
    intro s hs inW part hm c hc
    have hnil : s = [] := List.eq_nil_of_length_eq_zero (Nat.le_zero.mp hs)
    subst hnil
    simp [wordsAux] at hm
  | succ n ih =>
    intro s hs inW part hm c hc
    match s, hs with
    | [], hs => simp [wordsAux] at hm
    | d :: s', hs =>
      have hs' : s'.length ≤ n := by simp at hs; omega
      by_cases hsp : pyIsSpace d = true
      · match inW, hm with
        | true, hm =>
          rw [show wordsAux true (d :: s') = [] :: wordsAux false s' by
            conv_lhs => unfold wordsAux
            rw [if_pos hsp]
            rfl] at hm
          rcases List.mem_cons.mp hm with hp0 | hmem
          · rw [hp0] at hc
            simp at hc
          · exact ih s' hs' false part hmem c hc
        | false, hm =>
          rw [show wordsAux false (d :: s') = wordsAux false s' by
            conv_lhs => unfold wordsAux
            rw [if_pos hsp]
            rfl] at hm
          exact ih s' hs' false part hm c hc
      · rw [show wordsAux inW (d :: s') = consHead d (wordsAux true s') by
          conv_lhs => unfold wordsAux
          rw [if_neg hsp]] at hm
        have hdf : pyIsSpace d = false := by
          revert hsp; cases pyIsSpace d <;> simp
        rcases consHead_mem hm with ⟨-, hpart⟩ | ⟨h₁, t, hparts, hcase⟩
        · rw [hpart] at hc
          simp at hc
          rw [hc]
          exact hdf
        · rcases hcase with hpart | hmem
          · rw [hpart] at hc
            rcases List.mem_cons.mp hc with hcd | hch
            · subst hcd
              exact hdf
            · exact ih s' hs' true h₁ (by rw [hparts]; simp) c hch
          · exact ih s' hs' true part (by rw [hparts]; simp [hmem]) c hc

/-- Words are non-empty (with only the head of an in-word scan exempt). -/
theorem wordsAux_parts_ne :
    ∀ n s, List.length s ≤ n →
      (∀ part ∈ wordsAux false s, part ≠ []) ∧
      (∀ part ∈ (wordsAux true s).tail, part ≠ []) := by
  intro n
  induction n with
  | zero =>
    intro s hs
    have hnil : s = [] := List.eq_nil_of_length_eq_zero (Nat.le_zero.mp hs)
    subst hnil
    exact ⟨by simp [wordsAux], by simp [wordsAux]⟩
  | succ n ih =>
    intro s hs
    match s, hs with
    | [], hs => exact ⟨by simp [wordsAux], by simp [wordsAux]⟩
    | d :: s', hs =>
      have hs' : s'.length ≤ n := by simp at hs; omega
      obtain ⟨ihf, iht⟩ := ih s' hs'
      by_cases hsp : pyIsSpace d = true
      · have e1 : wordsAux true (d :: s') = [] :: wordsAux false s' := by
          conv_lhs => unfold wordsAux
          rw [if_pos hsp]
          rfl
        have e2 : wordsAux false (d :: s') = wordsAux false s' := by
          conv_lhs => unfold wordsAux
          rw [if_pos hsp]
          rfl
        constructor
        · rw [e2]
          exact ihf
        · rw [e1]
          exact ihf
      · have e3 : ∀ b, wordsAux b (d :: s') = consHead d (wordsAux true s') := by
          intro b
          conv_lhs => unfold wordsAux
          rw [if_neg hsp]
        have key : ∀ part ∈ consHead d (wordsAux true s'), part ≠ [] := by
          intro part hm
          rcases consHead_mem hm with ⟨-, hpart⟩ | ⟨h₁, t, hparts, hcase⟩
          · rw [hpart]; simp
          · rcases hcase with hpart | hmem
            · rw [hpart]; simp
            · refine iht part ?_
              rw [hparts]
              simpa using hmem
        have keyt : ∀ part ∈ (consHead d (wordsAux true s')).tail, part ≠ [] := by
          intro part hm
          refine key part ?_
          cases hw : wordsAux true s' with
          | nil =>
            rw [hw] at hm
            simp [consHead] at hm
          | cons h₁ t =>
            rw [hw] at hm
            simp only [consHead] at hm ⊢
            simp at hm
            simp [hm]
        rw [e3 false, e3 true]
        exact ⟨key, keyt⟩

/-- A space-free non-empty string is one word, in either scanner state. -/
theorem wordsAux_single :
    ∀ (w : List Char), w ≠ [] → (∀ c ∈ w, pyIsSpace c = false) → ∀ inW,
      wordsAux inW w = [w] := by
  intro w
  induction w with
  | nil => intro h; exact absurd rfl h
  | cons c t ih =>
    intro _ hsf inW
    have hc : pyIsSpace c = false := hsf c (by simp)
    rw [show wordsAux inW (c :: t) = consHead c (wordsAux true t) by
      conv_lhs => unfold wordsAux
      rw [if_neg (by rw [hc]; simp)]]
    match t with
    | [] => rfl
    | d :: t' =>
      rw [ih (by simp) (fun e he => hsf e (by simp [he])) true]
      rfl

/-- A word followed by a space and more text splits off as one word. -/
theorem wordsAux_word_sep :
    ∀ (w : List Char), w ≠ [] → (∀ c ∈ w, pyIsSpace c = false) → ∀ inW t,
      wordsAux inW (w ++ ' ' :: t) = w :: wordsAux false t := by
  intro w
  induction w with
  | nil => intro h; exact absurd rfl h
  | cons c w' ih =>
    intro _ hsf inW t
    have hc : pyIsSpace c = false := hsf c (by simp)
    rw [show (c :: w') ++ ' ' :: t = c :: (w' ++ ' ' :: t) from rfl]
    rw [show wordsAux inW (c :: (w' ++ ' ' :: t)) =
        consHead c (wordsAux true (w' ++ ' ' :: t)) by
      conv_lhs => unfold wordsAux
      rw [if_neg (by rw [hc]; simp)]]
    match w' with
    | [] =>
      rw [show ([] : List Char) ++ ' ' :: t = ' ' :: t from rfl]
      rw [show wordsAux true (' ' :: t) = [] :: wordsAux false t by
        conv_lhs => unfold wordsAux
        rw [if_pos (by decide)]
        rfl]
      rfl
    | d :: w'' =>
      rw [ih (by simp) (fun e he => hsf e (by simp [he])) true t]
      rfl

/-- Splitting a join of non-empty space-free words recovers the words. -/
theorem wordsOf_interJoin (ws : List (List Char))
    (h1 : ∀ w ∈ ws, w ≠ []) (h2 : ∀ w ∈ ws, ∀ c ∈ w, pyIsSpace c = false) :
    wordsOf (interJoin [' '] ws) = ws := by
  induction ws with
  | nil => rfl
  | cons w ws' ih =>
    match ws' with
    | [] =>
      show wordsAux false w = [w]
      exact wordsAux_single w (h1 w (by simp)) (h2 w (by simp)) false
    | v :: ws'' =>
      rw [interJoin_cons [' '] w (v :: ws'') (by simp), List.append_assoc]
      show wordsAux false (w ++ (' ' :: interJoin [' '] (v :: ws''))) = _
      rw [wordsAux_word_sep w (h1 w (by simp)) (h2 w (by simp)) false _]
      rw [show wordsAux false (interJoin [' '] (v :: ws'')) =
        wordsOf (interJoin [' '] (v :: ws'')) from rfl]
      rw [ih (fun u hu => h1 u (by simp [hu])) (fun u hu => h2 u (by simp [hu]))]

/-- Whitespace collapsing is idempotent. -/
theorem collapseWs_idem (z : List Char) : collapseWs (collapseWs z) = collapseWs z := by
  unfold collapseWs
  rw [show wordsOf (interJoin [' '] (wordsOf z)) = wordsOf z from
    wordsOf_interJoin (wordsOf z) (fun w hw => (wordsAux_parts_ne z.length z le_rfl).1 w hw)
      (fun w hw c hc => wordsAux_spacefree z.length z le_rfl false w hw c hc)]

/-! ### Character-class glue -/

/-- Characters below `a` are not lowercase letters. -/
theorem azLower_false_small (c : Char) (h : c.toNat < 97) : azLower c = false := by
  unfold azLower
  have h1 : ¬ (('a' : Char) ≤ c) := by
    intro hle
    have h0 : ('a' : Char).toNat ≤ c.toNat := hle
    have h2 : ('a' : Char).toNat = 97 := rfl
    omega
  simp [h1]

/-- Characters below `0` (other than the word mark) are not word characters. -/
theorem isWordCharE_false_small (c : Char) (h : c.toNat < 48) :
    isWordCharE c = false := by
  unfold isWordCharE
  have hd : c.isDigit = false := by
    unfold Char.isDigit
    have h1 : ¬ ((48 : UInt32) ≤ c.val) := by
      intro hle
      have h0 : (48 : UInt32).toNat ≤ c.val.toNat := hle
      have h2 : c.toNat = c.val.toNat := rfl
      have h3 : (48 : UInt32).toNat = 48 := rfl
      omega
    simp [h1]
  have hu : c.isUpper = false := by
    unfold Char.isUpper
    have h1 : ¬ ((65 : UInt32) ≤ c.val) := by
      intro hle
      have h0 : (65 : UInt32).toNat ≤ c.val.toNat := hle
      have h2 : c.toNat = c.val.toNat := rfl
      have h3 : (65 : UInt32).toNat = 65 := rfl
      omega
    simp [h1]
  have hl : c.isLower = false := by
    unfold Char.isLower
    have h1 : ¬ ((97 : UInt32) ≤ c.val) := by
      intro hle
      have h0 : (97 : UInt32).toNat ≤ c.val.toNat := hle
      have h2 : c.toNat = c.val.toNat := rfl
      have h3 : (97 : UInt32).toNat = 97 := rfl
      omega
    simp [h1]
  have ha : c.isAlphanum = false := by
    unfold Char.isAlphanum Char.isAlpha
    rw [hd, hu, hl]
    rfl
  have hv : ¬ ((128 : UInt32) ≤ c.val) := by
    intro hle
    have h0 : (128 : UInt32).toNat ≤ c.val.toNat := hle
    have h2 : c.toNat = c.val.toNat := rfl
    have h3 : (128 : UInt32).toNat = 128 := rfl
    omega
  have hm : c ≠ '_' := by
    intro h0
    rw [h0] at h
    simp at h
  rw [ha]
  simp [hm, hv]

/-- Whitespace characters are not lowercase letters. -/
theorem space_not_az (c : Char) (h : pyIsSpace c = true) : azLower c = false := by
  apply azLower_false_small
  unfold pyIsSpace at h
  simp only [Bool.or_eq_true, decide_eq_true_eq] at h
  rcases h with ((((h | h) | h) | h) | h) | h
  · rw [h]; decide
  · rw [h]; decide
  · rw [h]; decide
  · rw [h]; decide
  · have h2 : c.toNat = c.val.toNat := rfl
    rw [h] at h2
    have h3 : (11 : UInt32).toNat = 11 := rfl
    omega
  · have h2 : c.toNat = c.val.toNat := rfl
    rw [h] at h2
    have h3 : (12 : UInt32).toNat = 12 := rfl
    omega

/-- Whitespace characters are not word characters. -/
theorem space_not_word (c : Char) (h : pyIsSpace c = true) :
    isWordCharE c = false := by
  apply isWordCharE_false_small
  unfold pyIsSpace at h
  simp only [Bool.or_eq_true, decide_eq_true_eq] at h
  rcases h with ((((h | h) | h) | h) | h) | h
  · rw [h]; decide
  · rw [h]; decide
  · rw [h]; decide
  · rw [h]; decide
  · have h2 : c.toNat = c.val.toNat := rfl
    rw [h] at h2
    have h3 : (11 : UInt32).toNat = 11 := rfl
    omega
  · have h2 : c.toNat = c.val.toNat := rfl
    rw [h] at h2
    have h3 : (12 : UInt32).toNat = 12 := rfl
    omega

/-- Lowercase letters are word characters. -/
theorem az_imp_word (c : Char) (h : azLower c = true) : isWordCharE c = true := by
  unfold azLower at h
  simp at h
  obtain ⟨h1, h2⟩ := h
  have hl : c.isLower = true := by
    unfold Char.isLower
    have ha : ('a' : Char).toNat ≤ c.toNat := h1
    have hz : c.toNat ≤ ('z' : Char).toNat := h2
    have e1 : ('a' : Char).toNat = 97 := rfl
    have e2 : ('z' : Char).toNat = 122 := rfl
    have e3 : c.toNat = c.val.toNat := rfl
    have g1 : (97 : UInt32) ≤ c.val := by
      show (97 : UInt32).toNat ≤ c.val.toNat
      have : (97 : UInt32).toNat = 97 := rfl
      omega
    have g2 : c.val ≤ (122 : UInt32) := by
      show c.val.toNat ≤ (122 : UInt32).toNat
      have : (122 : UInt32).toNat = 122 := rfl
      omega
    simp [g1, g2]
  unfold isWordCharE Char.isAlphanum Char.isAlpha
  rw [hl]
  simp

/-- Lowercase letters are allowed characters. -/
theorem az_imp_allowed (c : Char) (h : azLower c = true) :
    allowedChar c = true := by
  unfold allowedChar
  rw [az_imp_word c h]
  rfl

/-- Non-allowed characters are not lowercase letters. -/
theorem junk_not_az (c : Char) (h : (!allowedChar c) = true) :
    azLower c = false := by
  by_cases haz : azLower c = true
  · rw [az_imp_allowed c haz] at h
    simp at h
  · revert haz
    cases azLower c <;> simp

/-- Non-allowed characters are not word characters. -/
theorem junk_not_word (c : Char) (h : (!allowedChar c) = true) :
    isWordCharE c = false := by
  by_cases hw : isWordCharE c = true
  · have : allowedChar c = true := by
      unfold allowedChar
      rw [hw]
      rfl
    rw [this] at h
    simp at h
  · revert hw
    cases isWordCharE c <;> simp

/-! ### Per-step guard corollaries -/

/-- An empty join satisfies any of the guards vacuously. -/
theorem okCC_nil : okCC [] := by
  intro A B hAB
  have := congrArg List.length hAB
  simp at this
  omega

/-- An empty join satisfies the `iv` guard vacuously. -/
theorem okIV_nil : okIV [] := by
  intro A B hAB
  have := congrArg List.length hAB
  simp at this
  omega

/-- An empty join satisfies the `gm` guard vacuously. -/
theorem okGM_nil : okGM [] := by
  intro A B hAB
  have := congrArg List.length hAB
  simp at this
  omega

/-- The `cc` guard passes through a literal replacement step. -/
theorem okCC_rAll {q r z : List Char} (hq : q ≠ []) (hr : r ≠ [])
    (hrl : azOptB r.getLast? = true) (hrh : azOptB r.head? = true)
    (hII : ¬ (['c', 'c'] : List Char) <:+: r) (hIII : r.head? ≠ some 'c')
    (hIV : r.getLast? ≠ some 'c') (h : okCC z) : okCC (rAll q r z) := by
  rw [rAll_eq q r z hq]
  exact okCC_transfer_A r hr (fun _ => true) (fun _ => true) z _
    (splitOnL_ne_nil q z)
    (partsCtx_splitOnL q hq z _ _ (fun c _ => rfl) (fun c _ => rfl)) h
    hrl hrh hII hIII hIV

/-- The `iv` guard passes through a literal replacement step. -/
theorem okIV_rAll {q r z : List Char} (hq : q ≠ []) (hr : r ≠ [])
    (hrl : wOptB r.getLast? = true) (hrh : wOptB r.head? = true)
    (hII : ¬ (['i', 'v'] : List Char) <:+: r) (hIII : r.head? ≠ some 'v')
    (hIV : r.getLast? ≠ some 'i') (h : okIV z) : okIV (rAll q r z) := by
  rw [rAll_eq q r z hq]
  exact okIV_transfer_A r hr (fun _ => true) (fun _ => true) z _
    (splitOnL_ne_nil q z)
    (partsCtx_splitOnL q hq z _ _ (fun c _ => rfl) (fun c _ => rfl)) h
    hrl hrh hII hIII hIV

/-- The `gm` guard passes through a literal replacement step. -/
theorem okGM_rAll {q r z : List Char} (hq : q ≠ []) (hr : r ≠ [])
    (hrl : azOptB r.getLast? = true) (hrh : azOptB r.head? = true)
    (hrhs : r.head? ≠ some 's')
    (hII : ¬ (['g', 'm'] : List Char) <:+: r)
    (hIII : r.head? = some 'm' →
      ∃ d, r.tail.head? = some d ∧ azLower d = true ∧ d ≠ 's')
    (hIV : r.getLast? = some 'g' →
      ∃ d, r.dropLast.getLast? = some d ∧ azLower d = true)
    (h : okGM z) : okGM (rAll q r z) := by
  rw [rAll_eq q r z hq]
  exact okGM_transfer_A r hr (fun _ => true) (fun _ => true) z _
    (splitOnL_ne_nil q z)
    (partsCtx_splitOnL q hq z _ _ (fun c _ => rfl) (fun c _ => rfl)) h
    hrl hrh hrhs hII hIII hIV

/-- The `cc` guard passes through the `gm` replacement. -/
theorem okCC_gmStep {z : List Char} (h : okCC z) : okCC (gmReplace z) := by
  unfold gmReplace
  exact okCC_transfer_A ['g'] (by simp) _ _ z _ (gmSplit_ne_nil false z)
    (partsCtx_gmSplit z.length z le_rfl false) h (by decide) (by decide)
    (by decide) (by decide) (by decide)

/-- The `iv` guard passes through the `gm` replacement. -/
theorem okIV_gmStep {z : List Char} (h : okIV z) : okIV (gmReplace z) := by
  unfold gmReplace
  exact okIV_transfer_A ['g'] (by simp) _ _ z _ (gmSplit_ne_nil false z)
    (partsCtx_gmSplit z.length z le_rfl false) h (by decide) (by decide)
    (by decide) (by decide) (by decide)

/-- The `iv` guard passes through the `cc` replacement. -/
theorem okIV_ccStep {z : List Char} (h : okIV z) : okIV (ccReplace z) := by
  unfold ccReplace
  exact okIV_transfer_A ['m', 'l'] (by simp) _ _ z _ (ccSplit_ne_nil false z)
    (partsCtx_ccSplit z.length z le_rfl false) h (by decide) (by decide)
    (by decide) (by decide) (by decide)

/-- The `iv` guard passes through the junk filter. -/
theorem okIV_filterStep {z : List Char} (h : okIV z) : okIV (filterJunk z) := by
  unfold filterJunk
  exact okIV_transfer_B [' '] (by simp) _ _ z _ (filterRun_ne_nil' false z)
    (partsCtxW_filterRun z) h junk_not_word junk_not_word (by decide) (by decide)
    (by decide)

/-- The `cc` guard passes through whitespace collapsing. -/
theorem okCC_collapseStep {z : List Char} (h : okCC z) : okCC (collapseWs z) := by
  unfold collapseWs
  rcases eq_or_ne (wordsOf z) [] with h0 | h0
  · rw [h0]
    exact okCC_nil
  · exact okCC_transfer_B [' '] (by simp) _ _ z _ h0 (partsCtxW_wordsOf z) h
      space_not_az space_not_az (by decide) (by decide) (by decide)

/-- The `iv` guard passes through whitespace collapsing. -/
theorem okIV_collapseStep {z : List Char} (h : okIV z) : okIV (collapseWs z) := by
  unfold collapseWs
  rcases eq_or_ne (wordsOf z) [] with h0 | h0
  · rw [h0]
    exact okIV_nil
  · exact okIV_transfer_B [' '] (by simp) _ _ z _ h0 (partsCtxW_wordsOf z) h
      space_not_word space_not_word (by decide) (by decide) (by decide)

/-- The `gm` guard passes through whitespace collapsing. -/
theorem okGM_collapseStep {z : List Char} (h : okGM z) : okGM (collapseWs z) := by
  unfold collapseWs
  rcases eq_or_ne (wordsOf z) [] with h0 | h0
  · rw [h0]
    exact okGM_nil
  · exact okGM_transfer_B [' '] (by simp) _ _ z _ h0 (partsCtxW_wordsOf z) h
      space_not_az space_not_az (by decide) (by decide) (by decide)

/-! ### Character goodness through the pipeline -/

/-- A character every late pipeline stage leaves alone: allowed by the junk
filter, lower-case-fixed, NFKD-fixed, and not a combining mark. -/
def goodChar (c : Char) : Prop :=
  allowedChar c = true ∧ c.toLower = c ∧ nfkdTable.lookup c = none ∧
    isCombining c = false

/-- Lowercase ASCII letters are good characters. -/
theorem goodChar_az (c : Char) (h : azLower c = true) : goodChar c := by
  have h' := h
  unfold azLower at h'
  simp at h'
  obtain ⟨h1, h2⟩ := h'
  have ha : ('a' : Char).toNat ≤ c.toNat := h1
  have hz : c.toNat ≤ ('z' : Char).toNat := h2
  have e1 : ('a' : Char).toNat = 97 := rfl
  have e2 : ('z' : Char).toNat = 122 := rfl
  refine ⟨az_imp_allowed c h, ?_, ?_, ?_⟩
  · unfold Char.toLower
    have hno : ¬ (65 ≤ c.toNat ∧ c.toNat ≤ 90) := by omega
    simp [hno]
  · exact lookup_none_big nfkdTable_keys_big (by omega)
  · exact isCombining_small c (by omega)

/-- Membership in an all-lowercase character list gives goodness. -/
theorem goodChar_all_az {l : List Char} (hall : ∀ c ∈ l, azLower c = true)
    {c : Char} (h : c ∈ l) : goodChar c := goodChar_az c (hall c h)

/-- Characters surviving NFKD-stripping are NFKD-fixed non-combining. -/
theorem nfkdStrip_good (s : List Char) :
    ∀ c ∈ nfkdStrip s, nfkdTable.lookup c = none ∧ isCombining c = false := by
  intro c hc
  unfold nfkdStrip at hc
  rw [List.mem_filter] at hc
  obtain ⟨hmem, hcomb⟩ := hc
  rw [List.mem_flatten] at hmem
  obtain ⟨l, hl, hcl⟩ := hmem
  rw [List.mem_map] at hl
  obtain ⟨d, -, hdl⟩ := hl
  subst hdl
  refine ⟨nfkd_image_good d c hcl, ?_⟩
  simpa using hcomb

/-- Characters of the lowered stripped string are lower-fixed, NFKD-fixed
and non-combining. -/
theorem pyLower_good (s : List Char) :
    ∀ c ∈ pyLower (nfkdStrip s),
      c.toLower = c ∧ nfkdTable.lookup c = none ∧ isCombining c = false := by
  intro c hc
  unfold pyLower at hc
  rw [List.mem_map] at hc
  obtain ⟨d, hd, hdc⟩ := hc
  obtain ⟨h2, h3⟩ := nfkdStrip_good s d hd
  obtain ⟨h2', h3'⟩ := toLower_keeps d h2 h3
  subst hdc
  exact ⟨chLowerIdem d, h2', h3'⟩

/-- Every character of the junk-filtered `iv`-expanded lowered string is
good. -/
theorem base_good (s : List Char) :
    ∀ c ∈ filterJunk (ivReplace (pyLower (nfkdStrip s))), goodChar c := by
  intro c hc
  refine ⟨filterJunk_allowed hc, ?_⟩
  unfold filterJunk at hc
  rcases interJoin_chars hc with hr | ⟨part, hm, hcp⟩
  · simp at hr
    subst hr
    exact ⟨by decide, by decide, by decide⟩
  · have hmem := (filterRun_chars (ivReplace (pyLower (nfkdStrip s))).length _
      le_rfl false part hm c hcp).2
    rcases ivReplace_sub hmem with hins | hin
    · obtain ⟨-, hx, hy, hz⟩ := goodChar_all_az (by decide) hins
      exact ⟨hx, hy, hz⟩
    · exact pyLower_good s c hin

/-- Every character of the normalized output is good. -/
theorem normalizeList_good (s : List Char) :
    ∀ c ∈ normalizeList s, goodChar c := by
  intro c hc
  unfold normalizeList at hc
  rcases collapseWs_sub hc with hsp | hc
  · subst hsp
    exact ⟨by decide, by decide, by decide, by decide⟩
  rcases rAll_sub (by simp) hc with hins | hc
  · exact goodChar_all_az (by decide) hins
  rcases rAll_sub (by simp) hc with hins | hc
  · exact goodChar_all_az (by decide) hins
  rcases rAll_sub (by simp) hc with hins | hc
  · exact goodChar_all_az (by decide) hins
  rcases gmReplace_sub hc with hins | hc
  · exact goodChar_all_az (by decide) hins
  rcases rAll_sub (by simp) hc with hins | hc
  · exact goodChar_all_az (by decide) hins
  rcases rAll_sub (by simp) hc with hins | hc
  · exact goodChar_all_az (by decide) hins
  rcases ccReplace_sub hc with hins | hc
  · exact goodChar_all_az (by decide) hins
  rcases rAll_sub (by simp) hc with hins | hc
  · exact goodChar_all_az (by decide) hins
  rcases rAll_sub (by simp) hc with hins | hc
  · exact goodChar_all_az (by decide) hins
  rcases rAll_sub (by simp) hc with hins | hc
  · exact goodChar_all_az (by decide) hins
  exact base_good s c hc

/-- Swap the order of a positivity guard and a bound so `decide` can see a
bounded quantifier. -/
theorem ball_swap {m : Nat} {P : Nat → Prop} (h : ∀ k, k < m → 0 < k → P k) :
    ∀ k, 0 < k → k < m → P k := fun k h1 h2 => h k h2 h1

/-! ### The guards hold at the end of the pipeline -/

/-- The normalized output has no matchable standalone `iv`. -/
theorem okIV_normalizeList (s : List Char) : okIV (normalizeList s) := by
  unfold normalizeList
  apply okIV_collapseStep
  apply okIV_rAll (by simp) (by simp) (by decide) (by decide) (by decide)
    (by decide) (by decide)
  apply okIV_rAll (by simp) (by simp) (by decide) (by decide) (by decide)
    (by decide) (by decide)
  apply okIV_rAll (by simp) (by simp) (by decide) (by decide) (by decide)
    (by decide) (by decide)
  apply okIV_gmStep
  apply okIV_rAll (by simp) (by simp) (by decide) (by decide) (by decide)
    (by decide) (by decide)
  apply okIV_rAll (by simp) (by simp) (by decide) (by decide) (by decide)
    (by decide) (by decide)
  apply okIV_ccStep
  apply okIV_rAll (by simp) (by simp) (by decide) (by decide) (by decide)
    (by decide) (by decide)
  apply okIV_rAll (by simp) (by simp) (by decide) (by decide) (by decide)
    (by decide) (by decide)
  apply okIV_rAll (by simp) (by simp) (by decide) (by decide) (by decide)
    (by decide) (by decide)
  apply okIV_filterStep
  exact okIV_ivReplace _

/-- The normalized output has no matchable guarded `cc`. -/
theorem okCC_normalizeList (s : List Char) : okCC (normalizeList s) := by
  unfold normalizeList
  apply okCC_collapseStep
  apply okCC_rAll (by simp) (by simp) (by decide) (by decide) (by decide)
    (by decide) (by decide)
  apply okCC_rAll (by simp) (by simp) (by decide) (by decide) (by decide)
    (by decide) (by decide)
  apply okCC_rAll (by simp) (by simp) (by decide) (by decide) (by decide)
    (by decide) (by decide)
  apply okCC_gmStep
  apply okCC_rAll (by simp) (by simp) (by decide) (by decide) (by decide)
    (by decide) (by decide)
  apply okCC_rAll (by simp) (by simp) (by decide) (by decide) (by decide)
    (by decide) (by decide)
  exact okCC_ccReplace _

/-- The normalized output has no matchable guarded `gm`/`gms`. -/
theorem okGM_normalizeList (s : List Char) : okGM (normalizeList s) := by
  unfold normalizeList
  apply okGM_collapseStep
  apply okGM_rAll (by simp) (by simp) (by decide) (by decide) (by decide)
    (by decide) (by intro hh; exact absurd hh (by decide))
    (by intro hh; exact absurd hh (by decide))
  apply okGM_rAll (by simp) (by simp) (by decide) (by decide) (by decide)
    (by decide) (by intro hh; exact absurd hh (by decide))
    (by intro hh; exact absurd hh (by decide))
  apply okGM_rAll (by simp) (by simp) (by decide) (by decide) (by decide)
    (by decide) (by intro hh; exact ⟨'g', rfl, by decide, by decide⟩)
    (by intro hh; exact ⟨'m', rfl, by decide⟩)
  exact okGM_gmReplace _

/-! ### Patterns absent from the normalized output -/

/-- The normalized output contains no `μg`. -/
theorem no_mug_normalizeList (s : List Char) :
    ¬ (['μ', 'g'] : List Char) <:+: normalizeList s := by
  unfold normalizeList
  apply pres_collapseWs _ (by simp) (by decide) (by decide) (by decide)
    (ball_swap (by decide))
  apply rAll_pres _ _ _ (by simp) (by simp) (by decide) (by decide) (by decide)
    (ball_swap (by decide))
  apply rAll_pres _ _ _ (by simp) (by simp) (by decide) (by decide) (by decide)
    (ball_swap (by decide))
  apply rAll_pres _ _ _ (by simp) (by simp) (by decide) (by decide) (by decide)
    (ball_swap (by decide))
  apply pres_gmReplace_mug
  apply rAll_pres _ _ _ (by simp) (by simp) (by decide) (by decide) (by decide)
    (ball_swap (by decide))
  apply rAll_pres _ _ _ (by simp) (by simp) (by decide) (by decide) (by decide)
    (ball_swap (by decide))
  apply pres_ccReplace _ (by simp) (by decide) (by decide) (by decide)
    (ball_swap (by decide))
  apply rAll_pres _ _ _ (by simp) (by simp) (by decide) (by decide) (by decide)
    (ball_swap (by decide))
  exact rAll_elim ['μ', 'g'] ['m', 'c', 'g'] (by simp) (by simp) (by decide)
    (by decide) (ball_swap (by decide)) (ball_swap (by decide)) _

/-- The normalized output contains no micro sign at all. -/
theorem no_micro_normalizeList (s : List Char) :
    ¬ (['µ', 'g'] : List Char) <:+: normalizeList s := by
  intro h
  have hm : 'µ' ∈ normalizeList s := h.subset (by simp)
  obtain ⟨-, -, hl, -⟩ := normalizeList_good s 'µ' hm
  revert hl
  decide

/-- The normalized output contains no `milliliter`. -/
theorem no_milliliter_normalizeList (s : List Char) :
    ¬ (['m','i','l','l','i','l','i','t','e','r'] : List Char) <:+: normalizeList s := by
  unfold normalizeList
  apply pres_collapseWs _ (by simp) (by decide) (by decide) (by decide)
    (ball_swap (by decide))
  apply rAll_pres _ _ _ (by simp) (by simp) (by decide) (by decide) (by decide)
    (ball_swap (by decide))
  apply rAll_pres _ _ _ (by simp) (by simp) (by decide) (by decide) (by decide)
    (ball_swap (by decide))
  apply rAll_pres _ _ _ (by simp) (by simp) (by decide) (by decide) (by decide)
    (ball_swap (by decide))
  apply pres_gmReplace _ (by simp) (by decide) (by decide) (by decide)
    (ball_swap (by decide))
  exact rAll_elim ['m','i','l','l','i','l','i','t','e','r'] ['m', 'l'] (by simp)
    (by simp) (by decide) (by decide) (ball_swap (by decide))
    (ball_swap (by decide)) _

/-- The normalized output contains no `milligram`. -/
theorem no_milligram_normalizeList (s : List Char) :
    ¬ (['m','i','l','l','i','g','r','a','m'] : List Char) <:+: normalizeList s := by
  unfold normalizeList
  apply pres_collapseWs _ (by simp) (by decide) (by decide) (by decide)
    (ball_swap (by decide))
  apply rAll_pres _ _ _ (by simp) (by simp) (by decide) (by decide) (by decide)
    (ball_swap (by decide))
  apply rAll_pres _ _ _ (by simp) (by simp) (by decide) (by decide) (by decide)
    (ball_swap (by decide))
  exact rAll_elim ['m','i','l','l','i','g','r','a','m'] ['m', 'g'] (by simp)
    (by simp) (by decide) (by decide) (ball_swap (by decide))
    (ball_swap (by decide)) _

/-- The normalized output contains no `polymixin`. -/
theorem no_polymixin_normalizeList (s : List Char) :
    ¬ (['p','o','l','y','m','i','x','i','n'] : List Char) <:+: normalizeList s := by
  unfold normalizeList
  apply pres_collapseWs _ (by simp) (by decide) (by decide) (by decide)
    (ball_swap (by decide))
  apply rAll_pres _ _ _ (by simp) (by simp) (by decide) (by decide) (by decide)
    (ball_swap (by decide))
  exact rAll_elim ['p','o','l','y','m','i','x','i','n']
    ['p','o','l','y','m','y','x','i','n'] (by simp) (by simp) (by decide)
    (by decide) (ball_swap (by decide)) (ball_swap (by decide)) _

/-- The normalized output contains no `hydrochlorde`. -/
theorem no_hydrochlorde_normalizeList (s : List Char) :
    ¬ (['h','y','d','r','o','c','h','l','o','r','d','e'] : List Char) <:+:
      normalizeList s := by
  unfold normalizeList
  apply pres_collapseWs _ (by simp) (by decide) (by decide) (by decide)
    (ball_swap (by decide))
  exact rAll_elim ['h','y','d','r','o','c','h','l','o','r','d','e']
    ['h','y','d','r','o','c','h','l','o','r','i','d','e'] (by simp) (by simp)
    (by decide) (by decide) (ball_swap (by decide)) (ball_swap (by decide)) _

/-- The normalized output is whitespace-collapsed. -/
theorem normalizeList_collapsed (s : List Char) :
    collapseWs (normalizeList s) = normalizeList s := by
  unfold normalizeList
  exact collapseWs_idem _

/-! ### Idempotence -/

/-- A string satisfying all stage invariants is a fixed point of the
pipeline. -/
theorem normalizeList_fix (y : List Char)
    (hgood : ∀ c ∈ y, goodChar c)
    (hIV : okIV y) (hCC : okCC y) (hGM : okGM y)
    (hmug : ¬ (['μ', 'g'] : List Char) <:+: y)
    (hmus : ¬ (['µ', 'g'] : List Char) <:+: y)
    (hmll : ¬ (['m','i','l','l','i','l','i','t','e','r'] : List Char) <:+: y)
    (hmlg : ¬ (['m','i','l','l','i','g','r','a','m'] : List Char) <:+: y)
    (hpoly : ¬ (['p','o','l','y','m','i','x','i','n'] : List Char) <:+: y)
    (hhyd : ¬ (['h','y','d','r','o','c','h','l','o','r','d','e'] : List Char) <:+: y)
    (hml : ¬ (['m','i','l','l','i',' ','l','i','t','r','e'] : List Char) <:+: y)
    (hmg : ¬ (['m','i','c','r','o','g','r','a','m'] : List Char) <:+: y)
    (hcoll : collapseWs y = y) :
    normalizeList y = y := by
  unfold normalizeList
  rw [nfkdStrip_id y (fun c hc => ⟨(hgood c hc).2.2.1, (hgood c hc).2.2.2⟩)]
  rw [pyLower_id y (fun c hc => (hgood c hc).2.1)]
  rw [ivReplace_of_okIV y hIV]
  rw [filterJunk_id y (fun c hc => (hgood c hc).1)]
  rw [rAll_id _ _ y (by simp) hmg]
  rw [rAll_id _ _ y (by simp) hmug]
  rw [rAll_id _ _ y (by simp) hmus]
  rw [ccReplace_of_okCC y hCC]
  rw [rAll_id _ _ y (by simp) hml]
  rw [rAll_id _ _ y (by simp) hmll]
  rw [gmReplace_of_okGM y hGM]
  rw [rAll_id _ _ y (by simp) hmlg]
  rw [rAll_id _ _ y (by simp) hpoly]
  rw [rAll_id _ _ y (by simp) hhyd]
  exact hcoll

/-- Idempotence of the pipeline under the two genuinely needed
hypotheses. -/
theorem normalizeList_idem (s : List Char)
    (hml : ¬ (['m','i','l','l','i',' ','l','i','t','r','e'] : List Char) <:+:
      normalizeList s)
    (hmg : ¬ (['m','i','c','r','o','g','r','a','m'] : List Char) <:+:
      normalizeList s) :
    normalizeList (normalizeList s) = normalizeList s :=
  normalizeList_fix (normalizeList s) (normalizeList_good s)
    (okIV_normalizeList s) (okCC_normalizeList s) (okGM_normalizeList s)
    (no_mug_normalizeList s) (no_micro_normalizeList s)
    (no_milliliter_normalizeList s) (no_milligram_normalizeList s)
    (no_polymixin_normalizeList s) (no_hydrochlorde_normalizeList s)
    hml hmg (normalizeList_collapsed s)

/-- Data of a constructed string. -/
theorem stringData_mk (l : List Char) : (String.mk l).data = l := rfl

/-- The string-level pipeline in terms of the list-level one. -/
theorem normalize_text_eq (s : String) :
    normalize_text s = String.mk (normalizeList s.data) := rfl

/-- Character data of the normalized string. -/
theorem normalize_text_data (s : String) :
    (normalize_text s).data = normalizeList s.data :=
  (congrArg String.data (normalize_text_eq s)).trans (stringData_mk _)

/-- C5 counterexample: `normalize_text` is not idempotent. A run of spaces
inside `milli  litre` collapses to the single-space pattern `milli litre`
only at the end of the first pass, so the second pass rewrites it to `ml`;
and `micrograµg` becomes `microgramcg` on the first pass (via `µg → μg → mcg`),
so the second pass rewrites the freshly formed `microgram` to `mcg`. -/
theorem claim_C5_counterexample_normalize_not_idempotent :
    normalize_text (normalize_text "milli  litre") ≠ normalize_text "milli  litre" ∧
      normalize_text (normalize_text "micrograµg") ≠ normalize_text "micrograµg" := by
  constructor
  · decide
  · decide

/-- C5 (amended): `normalize_text` output is a fixed point of
`normalize_text` whenever the output does not itself contain the literals
`milli litre` or `microgram` (the only two first-pass patterns a first pass
can re-create, by whitespace collapsing and by the `μg/µg → mcg`
rewrites). -/
theorem claim_C5_normalize_idempotent_unless_refolded (s : String)
    (hml : ¬ (['m','i','l','l','i',' ','l','i','t','r','e'] : List Char) <:+:
      (normalize_text s).data)
    (hmg : ¬ (['m','i','c','r','o','g','r','a','m'] : List Char) <:+:
      (normalize_text s).data) :
    normalize_text (normalize_text s) = normalize_text s := by
  rw [normalize_text_data] at hml hmg
  rw [normalize_text_eq (normalize_text s), normalize_text_data,
    normalizeList_idem s.data hml hmg, ← normalize_text_eq s]

/-- C5 witness: the amended idempotence theorem applied at a concrete
input. -/
theorem claim_C5_normalize_idempotent_unless_refolded_witness :
    normalize_text (normalize_text "500 MG  Tablet") = normalize_text "500 MG  Tablet" :=
  claim_C5_normalize_idempotent_unless_refolded "500 MG  Tablet" (by decide) (by decide)

end FdaPh
